import Mathlib

/-!
# libsqueeze: bit streams, gamma code and the adaptive block packer

A shallow embedding of `include/sq/squeeze.hpp`.

Conventions of the embedding:

* `uint8_t`, `uint32_t` and `size_t` values are natural numbers; where the C++ arithmetic
  wraps, the wrap is written out (`u32`, `i32`, `% 256`).
* `int` and `int32_t` values are integers.
* `std::vector<T>` is `List T`; `back()` is the last element, `push_back` appends.
* A run that does not return normally is an `Except.error`: a failing `assert`
  (`Err.assertion`), a byte fetched outside the buffer the reader was constructed over
  (`Err.overread`), or a loop of the model that used up its iteration bound (`Err.fuel`).
-/

namespace sq

/-- The ways a run stops without a result. -/
inductive Err where
  | assertion
  | overread
  | fuel
deriving DecidableEq, Repr

deriving instance DecidableEq for Except

/-- Conversion of an integer to `uint32_t`. -/
def u32 (x : Int) : Nat := (x % 4294967296).toNat

/-- Conversion of an integer to `int32_t` (two's complement wrap). -/
def i32 (x : Int) : Int := (x + 2147483648) % 4294967296 - 2147483648

/-- The constant `kStartWidth`. -/
def kStartWidth : Nat := 8

/-- The constant `kMaxWidth`. -/
def kMaxWidth : Nat := 30

/-! ## obitstream -/

/-- The class `obitstream`: the byte buffer it writes to and the bit cursor. -/
structure obitstream where
  m_buffer : List Nat
  m_bitOffset : Int
deriving DecidableEq, Repr

/-- The constructor `obitstream(buffer)`: pushes the in-progress byte. -/
def obitstream.new (buffer : List Nat) : obitstream :=
  { m_buffer := buffer ++ [0], m_bitOffset := 7 }

/-- The statement `m_buffer.back() |= mask` on a `vector<uint8_t>`. The constructor makes the
buffer non-empty; on an empty vector `back()` is undefined and the model leaves it empty. -/
def or_back : List Nat → Nat → List Nat
  | [], _ => []
  | [b], mask => [(b ||| mask) % 256]
  | b :: c :: bs, mask => b :: or_back (c :: bs) mask

/-- The method `obitstream::write_bit`. -/
def write_bit (s : obitstream) (bit : Bool) : obitstream :=
  let buf := if bit then or_back s.m_buffer (1 <<< s.m_bitOffset.toNat) else s.m_buffer
  let off := s.m_bitOffset - 1
  if off < 0 then { m_buffer := buf ++ [0], m_bitOffset := 7 }
  else { m_buffer := buf, m_bitOffset := off }

/-- The method `obitstream::write(value, bits)`; the recursion is on the loop counter `bits`. -/
def write (s : obitstream) (value : Nat) : Nat → obitstream
  | 0 => s
  | bits + 1 =>
    let buf := if value &&& (1 <<< bits) ≠ 0
      then or_back s.m_buffer (1 <<< s.m_bitOffset.toNat) else s.m_buffer
    let off := s.m_bitOffset - 1
    let s1 : obitstream :=
      if off < 0 then { m_buffer := buf ++ [0], m_bitOffset := 7 }
      else { m_buffer := buf, m_bitOffset := off }
    write s1 value bits

/-- The loop `while (m_bitOffset != 7) write_bit(1)` of `sync`. -/
def sync_loop : Nat → obitstream → Except Err obitstream
  | 0, s => if s.m_bitOffset ≠ 7 then .error .fuel else .ok s
  | fuel + 1, s => if s.m_bitOffset ≠ 7 then sync_loop fuel (write_bit s true) else .ok s

/-- The method `obitstream::sync`. Eight iterations bring any cursor in 0..7 back to 7. -/
def sync (s : obitstream) : Except Err obitstream :=
  sync_loop 8 (write_bit s false)

/-- The method `obitstream::data` (with `size`): the accumulated bytes. -/
def obitstream.data (s : obitstream) : List Nat := s.m_buffer

/-! ## ibitstream -/

/-- The class `ibitstream`: `mem` is the memory `m_data` points into and `m_data` the index
of the next byte to fetch. -/
structure ibitstream where
  mem : List Nat
  m_data : Nat
  m_byte : Nat
  m_bitOffset : Int
deriving DecidableEq, Repr

/-- The expression `*m_data++`: a fetch outside the buffer is an over-read. -/
def fetch (mem : List Nat) (i : Nat) : Except Err Nat :=
  match mem.get? i with
  | some b => .ok b
  | none => .error .overread

/-- The constructor `ibitstream(data)`. -/
def ibitstream.new (mem : List Nat) : Except Err ibitstream :=
  match fetch mem 0 with
  | .ok b => .ok { mem := mem, m_data := 1, m_byte := b, m_bitOffset := 7 }
  | .error e => .error e

/-- The table `kM` of `ibitstream::read`. -/
def kM : List Nat := [0x00, 0x01, 0x03, 0x07, 0x0F, 0x1F, 0x3F, 0x7F, 0xFF]

/-- The loop of `ibitstream::read`. -/
def read_loop : Nat → ibitstream → Int → Nat → Except Err (Nat × ibitstream)
  | 0, s, bc, result => if bc > 0 then .error .fuel else .ok (result, s)
  | fuel + 1, s, bc, result =>
    if bc > 0 then
      let bw0 : Int := s.m_bitOffset + 1
      let bw : Int := if bw0 > bc then bc else bw0
      let off : Int := s.m_bitOffset - bw
      let result1 : Nat :=
        ((result <<< bw.toNat) % 4294967296) |||
          (kM.getD bw.toNat 0 &&& (s.m_byte >>> (off + 1).toNat))
      if off < 0 then
        match fetch s.mem s.m_data with
        | .ok b =>
          read_loop fuel { s with m_data := s.m_data + 1, m_byte := b, m_bitOffset := 7 }
            (bc - bw) result1
        | .error e => .error e
      else
        read_loop fuel { s with m_bitOffset := off } (bc - bw) result1
    else .ok (result, s)

/-- The method `ibitstream::read(bc)`. Every iteration consumes at least one bit while the
cursor is in 0..7, so `bc` iterations suffice. -/
def read (s : ibitstream) (bc : Int) : Except Err (Nat × ibitstream) :=
  read_loop bc.toNat s bc 0

/-- The call operator `ibitstream::operator()`: `read(1)` converted to `bool`. -/
def read_bool (s : ibitstream) : Except Err (Bool × ibitstream) :=
  match read s 1 with
  | .ok (v, s1) => .ok (decide (v ≠ 0), s1)
  | .error e => .error e

/-! ## The selector table and the block packer -/

/-- The struct `detail::selector`. -/
structure selector where
  databits : Int
  span : Nat
deriving DecidableEq, Repr

/-- The table `detail::kSelectors`. -/
def kSelectors : List selector :=
  [ ⟨0, 1⟩,
    ⟨-4, 1⟩,
    ⟨-2, 1⟩, ⟨-2, 2⟩,
    ⟨-1, 1⟩, ⟨-1, 2⟩, ⟨-1, 4⟩,
    ⟨0, 1⟩, ⟨0, 2⟩, ⟨0, 4⟩,
    ⟨1, 1⟩, ⟨1, 2⟩, ⟨1, 4⟩,
    ⟨2, 1⟩, ⟨2, 2⟩,
    ⟨4, 1⟩ ]

/-- The expression `kSelectors[i]`, for an index below 16. -/
def kSel (i : Nat) : selector := kSelectors.getD i ⟨0, 0⟩

/-- The loop of `detail::bit_width`. -/
def bit_width_loop : Nat → Nat → Nat → Nat
  | 0, _, result => result
  | fuel + 1, v, result =>
    if v > 0 then bit_width_loop fuel (v >>> 1) (result + 1) else result

/-- The function `detail::bit_width`. The loop halves `v`, so `v` iterations suffice. -/
def bit_width (v : Nat) : Nat := bit_width_loop v v 0

/-- One `case` of the `switch` in the selector search: `fits` and `waste` for `bn[k]`. -/
def switch_case (bn : List Int) (w : Int) (k : Nat) (st : Bool × Int) : Bool × Int :=
  (st.1 && decide (bn.getD k 0 ≤ w), st.2 + (w - bn.getD k 0))

/-- The `switch (kSelectors[i].span)` of the selector search with its fall-through cases:
starting from `fits = true`, `waste = 0`, entry at `case 4`, `3`, `2` or `1`. -/
def switch_span (span : Nat) (bn : List Int) (w : Int) : Bool × Int :=
  let st0 : Bool × Int := (true, 0)
  let st1 := if span = 4 then switch_case bn w 3 st0 else st0
  let st2 := if span = 4 ∨ span = 3 then switch_case bn w 2 st1 else st1
  let st3 := if span = 4 ∨ span = 3 ∨ span = 2 then switch_case bn w 1 st2 else st2
  if span = 4 ∨ span = 3 ∨ span = 2 ∨ span = 1 then switch_case bn w 0 st3 else st3

/-- The body of `for (uint32_t i = 1; i < 16; ++i)` in the selector search; the pair is the
best selector `s` so far and its score `c`. -/
def search_step (width : Int) (bn : List Int) (bc : Nat) (sc : Nat × Int) (i : Nat) :
    Nat × Int :=
  if (kSel i).span > bc then sc
  else
    let w : Int := width + (kSel i).databits
    if u32 w > kMaxWidth then sc
    else
      let fw := switch_span (kSel i).span bn w
      if fw.1 = false then sc
      else
        let n : Int := i32 ((((kSel i).span : Int) - 1) * 4 - fw.2)
        if n > sc.2 then (i, n) else sc

/-- The selector search: `s = 0`, `c = bn[0] - kMaxWidth`, then the loop over `i = 1..15`. -/
def search (width : Int) (bn : List Int) (bc : Nat) : Nat × Int :=
  (List.range' 1 15).foldl (search_step width bn bc) (0, i32 (bn.getD 0 0 - (kMaxWidth : Int)))

/-- The loop `while (bc < 4 and a != e)`: `dv` and `bn` are the first `bc` entries of the
arrays of the same name, `a` is the input not yet looked at. -/
def refill : List Nat → List Int → List Nat → List Nat × List Int × List Nat
  | dv, bn, [] => (dv, bn, [])
  | dv, bn, x :: a =>
    if dv.length < 4 then refill (dv ++ [x]) (bn ++ [(bit_width x : Int)]) a
    else (dv, bn, x :: a)

/-- The loop `for (uint32_t i = 0; i < n; ++i) bits.write(dv[i], width)`. -/
def write_values (bits : obitstream) (dv : List Nat) (width : Int) : Nat → Nat → obitstream
  | 0, _ => bits
  | k + 1, i => write_values (write bits (dv.getD i 0) width.toNat) dv width k (i + 1)

/-- The outer loop of `detail::compress_simple_array_selector`. The entries of `dv` and `bn`
at index `bc` and above are not part of the state: the source never reads them before it
overwrites them. -/
def compress_loop : Nat → obitstream → Int → List Nat → List Int → List Nat →
    Except Err obitstream
  | 0, bits, _, dv, _, a => if a ≠ [] ∨ dv.length > 0 then .error .fuel else .ok bits
  | fuel + 1, bits, width, dv, bn, a =>
    if a ≠ [] ∨ dv.length > 0 then
      let st := refill dv bn a
      let dv1 := st.1
      let bn1 := st.2.1
      let a1 := st.2.2
      let s := (search width bn1 dv1.length).1
      let width1 : Int := if s = 0 then (kMaxWidth : Int) else width + (kSel s).databits
      let n := (kSel s).span
      let bits1 := write bits s 4
      let bits2 := if width1 > 0 then write_values bits1 dv1 width1 n 0 else bits1
      compress_loop fuel bits2 width1 (dv1.drop n) (bn1.drop n) a1
    else .ok bits

/-- The function `detail::compress_simple_array_selector`. Every block takes at least one
value, so `arr.size()` iterations suffice. -/
def compress_simple_array_selector (bits : obitstream) (arr : List Nat) :
    Except Err obitstream :=
  compress_loop arr.length bits (kStartWidth : Int) [] [] arr

/-! ## Binary and gamma codes -/

/-- The function `read_binary`. -/
def read_binary (bits : ibitstream) (bit_count : Nat) : Except Err (Nat × ibitstream) :=
  if ¬ bit_count ≤ 32 then .error .assertion
  else if ¬ bit_count > 0 then .error .assertion
  else read bits (bit_count : Int)

/-- The loop of `write_binary`; the recursion is on the loop counter `bit_count`. -/
def write_binary_loop (bits : obitstream) (value : Nat) : Nat → obitstream
  | 0 => bits
  | bit_count + 1 =>
    write_binary_loop (write_bit bits (decide (value &&& (1 <<< bit_count) ≠ 0))) value bit_count

/-- The function `write_binary`. -/
def write_binary (bits : obitstream) (bit_count : Nat) (value : Nat) : Except Err obitstream :=
  if ¬ bit_count ≤ 64 then .error .assertion
  else if ¬ bit_count > 0 then .error .assertion
  else .ok (write_binary_loop bits value bit_count)

/-- The first loop of `read_gamma`, `while (bits() and v1 != 0)`; it returns `v1` and `e`.
`v1` is zero after 32 shifts, so the condition is evaluated at most 33 times. -/
def read_gamma_ones : Nat → ibitstream → Nat → Int → Except Err (Nat × Int × ibitstream)
  | 0, _, _, _ => .error .fuel
  | fuel + 1, bits, v1, e =>
    match read_bool bits with
    | .ok (b, bits1) =>
      if b = true ∧ v1 ≠ 0 then read_gamma_ones fuel bits1 ((v1 <<< 1) % 4294967296) (e + 1)
      else .ok (v1, e, bits1)
    | .error err => .error err

/-- The second loop of `read_gamma`, `while (e-- > 0) v2 = (v2 << 1) | bits()`. -/
def read_gamma_low : Nat → ibitstream → Nat → Except Err (Nat × ibitstream)
  | 0, bits, v2 => .ok (v2, bits)
  | e + 1, bits, v2 =>
    match read_bool bits with
    | .ok (b, bits1) => read_gamma_low e bits1 (((v2 <<< 1) % 4294967296) ||| b.toNat)
    | .error err => .error err

/-- The function `read_gamma`. -/
def read_gamma (bits : ibitstream) : Except Err (Nat × ibitstream) :=
  match read_gamma_ones 33 bits 1 0 with
  | .ok (v1, e, bits1) =>
    if ¬ v1 ≠ 0 then .error .assertion
    else
      match read_gamma_low e.toNat bits1 0 with
      | .ok (v2, bits2) => .ok ((v1 + v2) % 4294967296, bits2)
      | .error err => .error err
  | .error err => .error err

/-- The first loop of `write_gamma`, `while (v > 1)`; it returns the stream and `e`.
The loop halves `v`, so `v` iterations suffice. -/
def write_gamma_ones : Nat → obitstream → Nat → Nat → Except Err (obitstream × Nat)
  | 0, bits, v, e => if v > 1 then .error .fuel else .ok (bits, e)
  | fuel + 1, bits, v, e =>
    if v > 1 then write_gamma_ones fuel (write_bit bits true) (v >>> 1) (e + 1)
    else .ok (bits, e)

/-- The second loop of `write_gamma`, `while (e-- > 0)`, with the mask `b`. -/
def write_gamma_low (value : Nat) : Nat → obitstream → Nat → obitstream
  | 0, bits, _ => bits
  | e + 1, bits, b =>
    write_gamma_low value e (write_bit bits (decide (value &&& (b >>> 1) ≠ 0))) (b >>> 1)

/-- The function `write_gamma`. -/
def write_gamma (bits : obitstream) (value : Nat) : Except Err obitstream :=
  if ¬ value > 0 then .error .assertion
  else
    match write_gamma_ones value bits value 0 with
    | .ok (bits1, e) =>
      .ok (write_gamma_low value e (write_bit bits1 false) ((1 <<< e) % 18446744073709551616))
    | .error err => .error err

/-! ## Delta arrays and increasing arrays -/

/-- The loop `for (auto& v: result)` of `read_delta_array`; the recursion is on the number
of elements of `result` still to fill. -/
def read_delta_loop : Nat → ibitstream → Nat → Nat → Except Err (List Nat × ibitstream)
  | 0, bits, _, _ => .ok ([], bits)
  | k + 1, bits, width, span =>
    let hdr : Except Err (ibitstream × Nat × Nat) :=
      if span = 0 then
        match read bits 4 with
        | .ok (sel, bits1) =>
          .ok (bits1,
            (if sel = 0 then kMaxWidth else u32 ((width : Int) + (kSel sel).databits)),
            (kSel sel).span)
        | .error err => .error err
      else .ok (bits, width, span)
    match hdr with
    | .ok (bits1, width1, span1) =>
      let val : Except Err (Nat × ibitstream) :=
        if width1 > 0 then read bits1 (i32 (width1 : Int)) else .ok (0, bits1)
      match val with
      | .ok (v, bits2) =>
        match read_delta_loop k bits2 width1 (u32 ((span1 : Int) - 1)) with
        | .ok (rest, bits3) => .ok (v :: rest, bits3)
        | .error err => .error err
      | .error err => .error err
    | .error err => .error err

/-- The function `read_delta_array`. -/
def read_delta_array (bits : ibitstream) : Except Err (List Nat × ibitstream) :=
  match read_gamma bits with
  | .ok (size, bits1) => read_delta_loop size bits1 kStartWidth 0
  | .error err => .error err

/-- The function `write_delta_array`. -/
def write_delta_array (bits : obitstream) (arr : List Nat) : Except Err obitstream :=
  match write_gamma bits (arr.length % 4294967296) with
  | .ok bits1 => compress_simple_array_selector bits1 arr
  | .error err => .error err

/-- The loop `for (auto& v: result) last = v = v + last + 1` of `read_array`. -/
def read_array_loop : List Nat → Nat → List Nat
  | [], _ => []
  | v :: rest, last =>
    let v1 := (v + last + 1) % 4294967296
    v1 :: read_array_loop rest v1

/-- The function `read_array`. -/
def read_array (bits : ibitstream) : Except Err (List Nat × ibitstream) :=
  match read_delta_array bits with
  | .ok (result, bits1) => .ok (read_array_loop result 4294967295, bits1)
  | .error err => .error err

/-- The loop `for (auto& v: arr)` of `write_array`; it returns `deltas`. -/
def write_array_loop : List Nat → Nat → List Nat → Except Err (List Nat)
  | [], _, deltas => .ok deltas
  | v :: rest, last, deltas =>
    if ¬ (v > last ∨ last = 4294967295) then .error .assertion
    else write_array_loop rest v (deltas ++ [u32 ((v : Int) - (last : Int) - 1)])

/-- The function `write_array`. -/
def write_array (bits : obitstream) (arr : List Nat) : Except Err obitstream :=
  let deltas : Except Err (List Nat) :=
    if ¬ arr.isEmpty then write_array_loop arr 4294967295 [] else .ok []
  match deltas with
  | .ok d => write_delta_array bits d
  | .error err => .error err

/-! ## Notions used to state the properties -/

/-- Bit `i` of a byte sequence, the most significant bit of each byte first. -/
def bitAt (data : List Nat) (i : Nat) : Bool := (data.getD (i / 8) 0).testBit (7 - i % 8)

/-- The number formed by the `n` bits of `data` from bit `p` on, most significant first. -/
def valBits (data : List Nat) (p : Nat) : Nat → Nat
  | 0 => 0
  | n + 1 => 2 * valBits data p n + (bitAt data (p + n)).toNat

/-- The number formed by a list of bits, most significant first. -/
def bitsVal : List Bool → Nat → Nat
  | [], acc => acc
  | b :: bs, acc => bitsVal bs (2 * acc + b.toNat)

/-- The low `n` bits of `v`, most significant first. -/
def wordBits (v : Nat) : Nat → List Bool
  | 0 => []
  | n + 1 => v.testBit n :: wordBits v n

/-- The state of a reader over `data` that has consumed exactly `p` bits: what the
constructor followed by reads of `p` bits in total leaves behind. -/
def reader_at (data : List Nat) (p : Nat) : ibitstream :=
  { mem := data, m_data := p / 8 + 1, m_byte := data.getD (p / 8) 0,
    m_bitOffset := 7 - ((p % 8 : Nat) : Int) }

/-- The calls `write_bit(b)` for the bits `b` of a list, in order. -/
def write_bits (s : obitstream) : List Bool → obitstream
  | [] => s
  | b :: bs => write_bits (write_bit s b) bs

/-- The writer `s` is a fresh writer over an empty buffer after the bits `bs`: byte count,
cursor, the bits stored most significant first, and zero in every other position. -/
def Written (s : obitstream) (bs : List Bool) : Prop :=
  s.m_buffer.length = bs.length / 8 + 1 ∧
  s.m_bitOffset = 7 - ((bs.length % 8 : Nat) : Int) ∧
  (∀ i, bitAt s.m_buffer i = bs.getD i false) ∧
  (∀ j, s.m_buffer.getD j 0 < 256)

/-- The bits `bs` are stored in `data` from bit `p` on, and the byte holding the bit after
them lies inside `data`. -/
def Holds (data : List Nat) (p : Nat) (bs : List Bool) : Prop :=
  (p + bs.length) / 8 < data.length ∧ ∀ j, j < bs.length → bitAt data (p + j) = bs.getD j false

/-- A call of the writer: `write_bit(b)` or `write(value, bits)`. -/
inductive WOp where
  | bit (b : Bool)
  | word (value bits : Nat)
deriving DecidableEq, Repr

/-- Performs one call on the writer. -/
def WOp.run (s : obitstream) : WOp → obitstream
  | .bit b => write_bit s b
  | .word value bits => write s value bits

/-- The bits one call is to append. -/
def WOp.bits : WOp → List Bool
  | .bit b => [b]
  | .word value bits => wordBits value bits

/-- Performs a sequence of calls on the writer. -/
def run_ops (s : obitstream) : List WOp → obitstream
  | [] => s
  | op :: ops => run_ops (WOp.run s op) ops

/-- The bits a sequence of calls is to append. -/
def ops_bits : List WOp → List Bool
  | [] => []
  | op :: ops => WOp.bits op ++ ops_bits ops

/-- The code word `write_gamma(v)` is to append: `e` one-bits, a zero-bit, then the low `e`
bits of `v`, where `e = floor(log2(v))`. -/
def gammaBits (v : Nat) : List Bool :=
  List.replicate (Nat.log2 v) true ++ false :: wordBits v (Nat.log2 v)

/-- The selector the search picks when the running width is `width` and `vals` are the
values not yet emitted (the look-ahead buffer holds the first four of them). -/
def pick (width : Int) (vals : List Nat) : Nat :=
  (search width ((vals.take 4).map fun x => (bit_width x : Int)) (vals.take 4).length).1

/-- The running width after a block with selector `s`. -/
def next_width (width : Int) (s : Nat) : Int :=
  if s = 0 then (kMaxWidth : Int) else width + (kSel s).databits

/-- The values of a list, each as `width` bits. -/
def valuesBits (width : Nat) : List Nat → List Bool
  | [] => []
  | v :: vs => wordBits v width ++ valuesBits width vs

/-- The bits of the blocks for the values `vals` at running width `width`: per block the
selector in 4 bits, then the values of the block at the new width. -/
def pack_bits : Nat → Int → List Nat → List Bool
  | 0, _, _ => []
  | fuel + 1, width, vals =>
    if vals = [] then []
    else
      wordBits (pick width vals) 4
        ++ valuesBits (next_width width (pick width vals)).toNat
            (vals.take (kSel (pick width vals)).span)
        ++ pack_bits fuel (next_width width (pick width vals))
            (vals.drop (kSel (pick width vals)).span)

/-- What the search guarantees about the selector it holds: it is the escape selector 0, or
a selector of the table whose span is buffered and that passed the `fits` test at a width
in `0..30`. -/
def Fitting (width : Int) (bn : List Int) (bc : Nat) (s : Nat) : Prop :=
  s = 0 ∨ (1 ≤ s ∧ s ≤ 15 ∧ (kSel s).span ≤ bc ∧ u32 (width + (kSel s).databits) ≤ kMaxWidth ∧
    (switch_span (kSel s).span bn (width + (kSel s).databits)).1 = true)

/-! ## The runs of `unit-test.cpp`, as functions of their input -/

/-- The body of `test_1` .. `test_4` for an input vector `t1`: `write_delta_array` into a
fresh stream, `sync`, `read_delta_array` from a reader over the bytes; it returns `t2`. -/
def delta_round_trip (t1 : List Nat) : Except Err (List Nat) :=
  match write_delta_array (obitstream.new []) t1 with
  | .ok obs =>
    match sync obs with
    | .ok obs1 =>
      match ibitstream.new obs1.data with
      | .ok ibs =>
        match read_delta_array ibs with
        | .ok (t2, _) => .ok t2
        | .error err => .error err
      | .error err => .error err
    | .error err => .error err
  | .error err => .error err

/-- The body of `test_6` and `test_7` for an input vector `t1`: `write_array` into a fresh
stream, `sync`, `read_array` from a reader over the bytes; it returns `t2`. -/
def array_round_trip (t1 : List Nat) : Except Err (List Nat) :=
  match write_array (obitstream.new []) t1 with
  | .ok obs =>
    match sync obs with
    | .ok obs1 =>
      match ibitstream.new obs1.data with
      | .ok ibs =>
        match read_array ibs with
        | .ok (t2, _) => .ok t2
        | .error err => .error err
      | .error err => .error err
    | .error err => .error err
  | .error err => .error err

/-- Calls of `operator()` that consume `k` bits. -/
def skip_bits : Nat → ibitstream → Except Err ibitstream
  | 0, bits => .ok bits
  | k + 1, bits =>
    match read_bool bits with
    | .ok (_, bits1) => skip_bits k bits1
    | .error err => .error err

/-- A gamma code word in the middle of a stream: the bits `pre`, then `write_gamma(v)`,
then the bits `post` go into a fresh stream; a reader over the bytes consumes as many bits
as `pre` has and calls `read_gamma`. -/
def gamma_round_trip (pre : List Bool) (v : Nat) (post : List Bool) : Except Err Nat :=
  match write_gamma (write_bits (obitstream.new []) pre) v with
  | .ok obs =>
    match ibitstream.new (write_bits obs post).data with
    | .ok ibs =>
      match skip_bits pre.length ibs with
      | .ok ibs1 =>
        match read_gamma ibs1 with
        | .ok (v1, _) => .ok v1
        | .error err => .error err
      | .error err => .error err
    | .error err => .error err
  | .error err => .error err

/-- The calls `write_binary(bits, width, value)` for a list of pairs `(width, value)`. -/
def write_binaries : obitstream → List (Nat × Nat) → Except Err obitstream
  | bits, [] => .ok bits
  | bits, (width, value) :: rest =>
    match write_binary bits width value with
    | .ok bits1 => write_binaries bits1 rest
    | .error err => .error err

/-- The calls `read_binary(bits, width)` for a list of widths; it returns the values. -/
def read_binaries : ibitstream → List Nat → Except Err (List Nat × ibitstream)
  | bits, [] => .ok ([], bits)
  | bits, width :: rest =>
    match read_binary bits width with
    | .ok (v, bits1) =>
      match read_binaries bits1 rest with
      | .ok (vs, bits2) => .ok (v :: vs, bits2)
      | .error err => .error err
    | .error err => .error err

/-- Fixed-width values written into a fresh stream and read back with the same widths. -/
def binary_round_trip (pairs : List (Nat × Nat)) : Except Err (List Nat) :=
  match write_binaries (obitstream.new []) pairs with
  | .ok obs =>
    match ibitstream.new obs.data with
    | .ok ibs =>
      match read_binaries ibs (pairs.map Prod.fst) with
      | .ok (vs, _) => .ok vs
      | .error err => .error err
    | .error err => .error err
  | .error err => .error err

/-- The bits the pairs `(width, value)` are to occupy, in order. -/
def pairsBits : List (Nat × Nat) → List Bool
  | [] => []
  | (width, value) :: rest => wordBits value width ++ pairsBits rest

/-- The gaps `write_array` computes after an element `last`. -/
def gaps (last : Nat) : List Nat → List Nat
  | [] => []
  | v :: rest => (v - last - 1) :: gaps v rest

/-! ## The loops with a record of what each pass did -/

/-- What one pass of the outer loop of the packer did: `bc` values were buffered when the
selector was searched, the running width was `width`, the search chose `s`, the running
width became `width1`, and `n` values were emitted. -/
structure block where
  bc : Nat
  width : Int
  s : Nat
  width1 : Int
  n : Nat
deriving DecidableEq, Repr

/-- The outer loop of `detail::compress_simple_array_selector`, statement for statement as
in `compress_loop`, which in addition returns the record of its passes in order. -/
def compress_loop_log : Nat → obitstream → Int → List Nat → List Int → List Nat →
    Except Err (obitstream × List block)
  | 0, bits, _, dv, _, a => if a ≠ [] ∨ dv.length > 0 then .error .fuel else .ok (bits, [])
  | fuel + 1, bits, width, dv, bn, a =>
    if a ≠ [] ∨ dv.length > 0 then
      let st := refill dv bn a
      let dv1 := st.1
      let bn1 := st.2.1
      let a1 := st.2.2
      let s := (search width bn1 dv1.length).1
      let width1 : Int := if s = 0 then (kMaxWidth : Int) else width + (kSel s).databits
      let n := (kSel s).span
      let bits1 := write bits s 4
      let bits2 := if width1 > 0 then write_values bits1 dv1 width1 n 0 else bits1
      match compress_loop_log fuel bits2 width1 (dv1.drop n) (bn1.drop n) a1 with
      | .ok (bits3, log) => .ok (bits3, ⟨dv1.length, width, s, width1, n⟩ :: log)
      | .error err => .error err
    else .ok (bits, [])

/-- The function `detail::compress_simple_array_selector` with the record of its passes. -/
def compress_simple_array_selector_log (bits : obitstream) (arr : List Nat) :
    Except Err (obitstream × List block) :=
  compress_loop_log arr.length bits (kStartWidth : Int) [] [] arr

/-- The running width of a record of passes: it starts at `w0`, every pass starts at the
width the pass before ended with, a pass with selector 0 ends at `kMaxWidth`, any other pass
ends at its start width plus the `databits` of its selector, and every pass ends in
`0 .. kMaxWidth`. -/
def width_chain : Int → List block → Bool
  | _, [] => true
  | w0, b :: rest =>
    decide (b.width = w0) &&
    decide (b.width1 = if b.s = 0 then (kMaxWidth : Int) else b.width + (kSel b.s).databits) &&
    decide (0 ≤ b.width1) && decide (b.width1 ≤ (kMaxWidth : Int)) &&
    width_chain b.width1 rest

/-- The sum of the spans of a record of passes. -/
def span_sum : List block → Nat
  | [] => 0
  | b :: rest => b.n + span_sum rest

/-- The record of passes the packer makes for the values `vals` at running width `width`. -/
def blocks : Nat → Int → List Nat → List block
  | 0, _, _ => []
  | fuel + 1, width, vals =>
    if vals = [] then []
    else
      ⟨(vals.take 4).length, width, pick width vals, next_width width (pick width vals),
          (kSel (pick width vals)).span⟩
        :: blocks fuel (next_width width (pick width vals))
            (vals.drop (kSel (pick width vals)).span)

/-- The loop of `read_delta_array`, statement for statement as in `read_delta_loop`, which
in addition returns the running width after each selector it applied, in order. -/
def read_delta_loop_log : Nat → ibitstream → Nat → Nat →
    Except Err (List Nat × List Nat × ibitstream)
  | 0, bits, _, _ => .ok ([], [], bits)
  | k + 1, bits, width, span =>
    let hdr : Except Err (ibitstream × Nat × Nat × List Nat) :=
      if span = 0 then
        match read bits 4 with
        | .ok (sel, bits1) =>
          .ok (bits1,
            (if sel = 0 then kMaxWidth else u32 ((width : Int) + (kSel sel).databits)),
            (kSel sel).span,
            [if sel = 0 then kMaxWidth else u32 ((width : Int) + (kSel sel).databits)])
        | .error err => .error err
      else .ok (bits, width, span, [])
    match hdr with
    | .ok (bits1, width1, span1, seen) =>
      let val : Except Err (Nat × ibitstream) :=
        if width1 > 0 then read bits1 (i32 (width1 : Int)) else .ok (0, bits1)
      match val with
      | .ok (v, bits2) =>
        match read_delta_loop_log k bits2 width1 (u32 ((span1 : Int) - 1)) with
        | .ok (rest, widths, bits3) => .ok (v :: rest, seen ++ widths, bits3)
        | .error err => .error err
      | .error err => .error err
    | .error err => .error err

/-- The function `read_delta_array` with the running width after each selector. -/
def read_delta_array_log (bits : ibitstream) : Except Err (List Nat × List Nat × ibitstream) :=
  match read_gamma bits with
  | .ok (size, bits1) => read_delta_loop_log size bits1 kStartWidth 0
  | .error err => .error err

/-! ## The selector search in the words of its description -/

/-- The running width selector `i` would give. -/
def new_width (width : Int) (i : Nat) : Int := width + (kSel i).databits

/-- Selector `i` fits, in the words of the description: its span is at most the
number of buffered values `dv`, the new width is in `0 .. 30`, and each of the span values
has a bit width of at most the new width. -/
def fits_described (width : Int) (dv : List Nat) (i : Nat) : Bool :=
  decide ((kSel i).span ≤ dv.length) && decide (0 ≤ new_width width i) &&
    decide (new_width width i ≤ 30) &&
    (List.range (kSel i).span).all
      (fun k => decide ((bit_width (dv.getD k 0) : Int) ≤ new_width width i))

/-- The waste of selector `i`, in the words of the description: the sum over its span values
of the new width minus the bit width of the value. -/
def waste_described (width : Int) (dv : List Nat) (i : Nat) : Int :=
  ((List.range (kSel i).span).map
    (fun k => new_width width i - (bit_width (dv.getD k 0) : Int))).sum

/-- The score of selector `i`, in the words of the description. -/
def score_described (width : Int) (dv : List Nat) (i : Nat) : Int :=
  (((kSel i).span : Int) - 1) * 4 - waste_described width dv i

/-- The baseline of the search, in the words of the description. -/
def baseline_described (dv : List Nat) : Int := (bit_width (dv.getD 0 0) : Int) - 30

/-- The test the search applies to selector `i` before it scores it. -/
def sel_fits (width : Int) (bn : List Int) (bc : Nat) (i : Nat) : Bool :=
  decide ((kSel i).span ≤ bc) && decide (u32 (width + (kSel i).databits) ≤ kMaxWidth) &&
    (switch_span (kSel i).span bn (width + (kSel i).databits)).1

/-- The score `n` the search computes for selector `i`. -/
def sel_score (width : Int) (bn : List Int) (i : Nat) : Int :=
  i32 ((((kSel i).span : Int) - 1) * 4
    - (switch_span (kSel i).span bn (width + (kSel i).databits)).2)

/-- The selector of span 1 with the same `databits` as selector `i`. -/
def span_one_sibling (i : Nat) : Nat :=
  [0, 1, 2, 2, 4, 4, 4, 7, 7, 7, 10, 10, 10, 13, 13, 15].getD i 0

/-! ## More runs over whole streams -/

/-- An encoded array anywhere in a stream: the bits `pre`, then `write_delta_array(t1)`,
then the bits `post` (none, the padding of `sync`, or more data) go into a fresh stream; a
reader over the bytes consumes as many bits as `pre` has and calls `read_delta_array`. It
returns the values read and the reader. -/
def delta_stream_round_trip (pre : List Bool) (t1 : List Nat) (post : List Bool) :
    Except Err (List Nat × ibitstream) :=
  match write_delta_array (write_bits (obitstream.new []) pre) t1 with
  | .ok obs =>
    match ibitstream.new (write_bits obs post).data with
    | .ok ibs =>
      match skip_bits pre.length ibs with
      | .ok ibs1 => read_delta_array ibs1
      | .error err => .error err
    | .error err => .error err
  | .error err => .error err

/-- Two arrays back to back: `write_delta_array(a)`, `write_delta_array(b)` and `sync` on a
fresh stream, then two calls of `read_delta_array` on a reader over the bytes. -/
def two_arrays_round_trip (a b : List Nat) : Except Err (List Nat × List Nat) :=
  match write_delta_array (obitstream.new []) a with
  | .ok obs =>
    match write_delta_array obs b with
    | .ok obs1 =>
      match sync obs1 with
      | .ok obs2 =>
        match ibitstream.new obs2.data with
        | .ok ibs =>
          match read_delta_array ibs with
          | .ok (a1, ibs1) =>
            match read_delta_array ibs1 with
            | .ok (b1, _) => .ok (a1, b1)
            | .error err => .error err
          | .error err => .error err
        | .error err => .error err
      | .error err => .error err
    | .error err => .error err
  | .error err => .error err

/-- The run of the delta-array tests with the decoder that records its running widths; it
returns the widths. -/
def delta_decode_widths (t1 : List Nat) : Except Err (List Nat) :=
  match write_delta_array (obitstream.new []) t1 with
  | .ok obs =>
    match sync obs with
    | .ok obs1 =>
      match ibitstream.new obs1.data with
      | .ok ibs =>
        match read_delta_array_log ibs with
        | .ok (_, widths, _) => .ok widths
        | .error err => .error err
      | .error err => .error err
    | .error err => .error err
  | .error err => .error err

/-- The decoder with the record of its running widths on a reader over arbitrary bytes. -/
def decode_widths (data : List Nat) : Except Err (List Nat) :=
  match ibitstream.new data with
  | .ok ibs =>
    match read_delta_array_log ibs with
    | .ok (_, widths, _) => .ok widths
    | .error err => .error err
  | .error err => .error err

/-- Calls of `read(bc)` for the bit counts of a list, in order. -/
def read_many : ibitstream → List Nat → Except Err (List Nat × ibitstream)
  | bits, [] => .ok ([], bits)
  | bits, bc :: rest =>
    match read bits (bc : Int) with
    | .ok (v, bits1) =>
      match read_many bits1 rest with
      | .ok (vs, bits2) => .ok (v :: vs, bits2)
      | .error err => .error err
    | .error err => .error err

/-- Writes on a fresh stream, a final `sync` or none, then a reader constructed over the
buffer of the writer that performs the reads of `counts`. -/
def read_after_writes (ops : List WOp) (final_sync : Bool) (counts : List Nat) :
    Except Err (List Nat × ibitstream) :=
  let obs : Except Err obitstream :=
    if final_sync then sync (run_ops (obitstream.new []) ops)
    else .ok (run_ops (obitstream.new []) ops)
  match obs with
  | .ok obs1 =>
    match ibitstream.new obs1.data with
    | .ok ibs => read_many ibs counts
    | .error err => .error err
  | .error err => .error err

/-- The gaps of an increasing vector stay within `2 ^ 30`: every element exceeds the one
before it by at least 1 and at most `2 ^ 30`. -/
def gaps_within : List Nat → Bool
  | [] => true
  | [_] => true
  | a :: b :: rest => decide (a < b) && decide (b - a ≤ 2 ^ 30) && gaps_within (b :: rest)

/-- The bits `write_delta_array` is to append for `v`: the gamma code of the count as a
`uint32_t`, then the blocks. -/
def deltaBits (v : List Nat) : List Bool :=
  gammaBits (v.length % 4294967296) ++ pack_bits v.length (kStartWidth : Int) v

/-! # Lemmas -/

/-! ## Bits of a byte sequence -/

theorem kM_getD (bw : Nat) (h : bw ≤ 8) : kM.getD bw 0 = 2 ^ bw - 1 := by
  interval_cases bw <;> rfl

theorem valBits_lt (data : List Nat) (p n : Nat) : valBits data p n < 2 ^ n := by
  induction n with
  | zero => simp [valBits]
  | succ n ih =>
    simp only [valBits, pow_succ]
    have : (bitAt data (p + n)).toNat ≤ 1 := Bool.toNat_le _
    omega

theorem valBits_add (data : List Nat) (p a b : Nat) :
    valBits data p (a + b) = valBits data p a * 2 ^ b + valBits data (p + a) b := by
  induction b with
  | zero => simp [valBits]
  | succ b ih =>
    rw [← Nat.add_assoc]
    simp only [valBits, ih, pow_succ, Nat.add_assoc]
    ring

/-- Bits that lie in one byte: the value is a shifted and masked copy of the byte. -/
theorem valBits_chunk (data : List Nat) (p n : Nat) (h : p % 8 + n ≤ 8) :
    valBits data p n = (data.getD (p / 8) 0 >>> (8 - p % 8 - n)) % 2 ^ n := by
  induction n with
  | zero => simp [valBits, Nat.mod_one]
  | succ n ih =>
    have ih1 := ih (by omega)
    simp only [valBits, ih1]
    have e1 : (p + n) / 8 = p / 8 := by omega
    have e2 : 7 - (p + n) % 8 = 8 - p % 8 - (n + 1) := by omega
    have e3 : 8 - p % 8 - n = (8 - p % 8 - (n + 1)) + 1 := by omega
    simp only [bitAt, e1, e2]
    rw [e3]
    generalize 8 - p % 8 - (n + 1) = sh
    generalize data.getD (p / 8) 0 = m
    rw [Nat.testBit_to_div_mod, pow_succ, Nat.mul_comm (2 ^ n) 2, Nat.mod_mul,
      Nat.shiftRight_eq_div_pow, Nat.shiftRight_eq_div_pow, pow_succ, ← Nat.div_div_eq_div_mul]
    have : m / 2 ^ sh % 2 < 2 := Nat.mod_lt _ (by norm_num)
    by_cases hb : m / 2 ^ sh % 2 = 1
    · simp [hb]; omega
    · have : m / 2 ^ sh % 2 = 0 := by omega
      simp [this]

/-! ## The reader -/

theorem fetch_getD (data : List Nat) (i : Nat) (h : i < data.length) :
    fetch data i = .ok (data.getD i 0) := by
  simp [fetch, List.getD, List.getElem?_eq_getElem h]

/-- The loop of `read` started after `p` consumed bits: it returns the next `n` bits as a number
appended to `result` and leaves the reader after `p + n` bits, provided the byte that holds
bit `p + n` (the one-byte prefetch) lies inside the data. -/
theorem read_loop_reader_at (data : List Nat) :
    ∀ (n fuel p result : Nat), n ≤ fuel → n ≤ 32 → (p + n) / 8 < data.length →
      result < 2 ^ (32 - n) →
      read_loop fuel (reader_at data p) (n : Int) result
        = .ok (result * 2 ^ n + valBits data p n, reader_at data (p + n)) := by
  intro n
  induction n using Nat.strong_induction_on with
  | _ n ih =>
    intro fuel p result hf h32 hb hr
    by_cases hn : n = 0
    · subst hn
      cases fuel <;> simp [read_loop, valBits]
    · obtain ⟨fuel, rfl⟩ : ∃ f, fuel = f + 1 := ⟨fuel - 1, by omega⟩
      have hpos : ((n : Int) > 0) := by omega
      rw [read_loop, if_pos hpos]
      -- the number of bits taken from the current byte
      obtain ⟨bw, hbw⟩ : ∃ bw : Nat, bw = min (8 - p % 8) n := ⟨_, rfl⟩
      have hbw1 : 1 ≤ bw := by omega
      have hbw8 : p % 8 + bw ≤ 8 := by omega
      have hbwn : bw ≤ n := by omega
      have e_bw : (if (reader_at data p).m_bitOffset + 1 > (n : Int) then (n : Int)
          else (reader_at data p).m_bitOffset + 1) = (bw : Int) := by
        simp only [reader_at]
        split <;> omega
      simp only [e_bw]
      have e_off : (reader_at data p).m_bitOffset - (bw : Int) + 1
          = ((8 - p % 8 - bw : Nat) : Int) := by
        simp only [reader_at]; omega
      simp only [e_off, Int.toNat_ofNat]
      have e_chunk : (kM.getD bw 0 &&& ((reader_at data p).m_byte >>> (8 - p % 8 - bw)))
          = valBits data p bw := by
        rw [kM_getD bw (by omega), Nat.and_comm, Nat.and_pow_two_sub_one_eq_mod,
          valBits_chunk data p bw hbw8]
        rfl
      have hr' : result * 2 ^ bw < 2 ^ (32 - n + bw) := by
        rw [pow_add]
        exact Nat.mul_lt_mul_of_pos_right hr (by positivity)
      have hle : 2 ^ (32 - n + bw) ≤ 2 ^ 32 := Nat.pow_le_pow_right (by norm_num) (by omega)
      have e_res : ((result <<< bw) % 4294967296 ||| valBits data p bw)
          = result * 2 ^ bw + valBits data p bw := by
        rw [Nat.shiftLeft_eq, Nat.mod_eq_of_lt (by omega), Nat.mul_comm,
          ← Nat.mul_add_lt_is_or (valBits_lt data p bw)]
      rw [e_chunk, e_res]
      have hres : result * 2 ^ bw + valBits data p bw < 2 ^ (32 - (n - bw)) := by
        have h1 := valBits_lt data p bw
        have h2 : result + 1 ≤ 2 ^ (32 - n) := hr
        have h3 : (result + 1) * 2 ^ bw ≤ 2 ^ (32 - n) * 2 ^ bw :=
          Nat.mul_le_mul_right _ h2
        rw [← pow_add] at h3
        have h4 : 32 - n + bw = 32 - (n - bw) := by omega
        rw [h4] at h3
        have h5 : (result + 1) * 2 ^ bw = result * 2 ^ bw + 2 ^ bw := by ring
        omega
      have e_bc : (n : Int) - (bw : Int) = ((n - bw : Nat) : Int) := by omega
      have hfin : (result * 2 ^ bw + valBits data p bw) * 2 ^ (n - bw)
            + valBits data (p + bw) (n - bw) = result * 2 ^ n + valBits data p n := by
        have h1 := valBits_add data p bw (n - bw)
        have h2 : bw + (n - bw) = n := by omega
        rw [h2] at h1
        rw [h1]
        have h3 : (2:Nat) ^ n = 2 ^ bw * 2 ^ (n - bw) := by rw [← pow_add, h2]
        rw [h3]; ring
      have hpn : p + bw + (n - bw) = p + n := by omega
      by_cases hcross : p % 8 + bw = 8
      · have hlt : (reader_at data p).m_bitOffset - (bw : Int) < 0 := by
          simp only [reader_at]; omega
        rw [if_pos hlt]
        have hfetch : fetch (reader_at data p).mem (reader_at data p).m_data
            = .ok (data.getD (p / 8 + 1) 0) := by
          simp only [reader_at]
          exact fetch_getD data _ (by omega)
        rw [hfetch]
        have hst : ({ reader_at data p with
              m_data := (reader_at data p).m_data + 1,
              m_byte := data.getD (p / 8 + 1) 0, m_bitOffset := 7 } : ibitstream)
            = reader_at data (p + bw) := by
          have a1 : (p + bw) / 8 = p / 8 + 1 := by omega
          have a2 : (p + bw) % 8 = 0 := by omega
          simp [reader_at, a1, a2]
        simp only [hst, e_bc]
        rw [ih (n - bw) (by omega) fuel (p + bw) _ (by omega) (by omega)
          (by rw [hpn]; exact hb) hres, hfin, hpn]
      · have hlt : ¬ (reader_at data p).m_bitOffset - (bw : Int) < 0 := by
          simp only [reader_at]; omega
        rw [if_neg hlt]
        have hst : ({ reader_at data p with
              m_bitOffset := (reader_at data p).m_bitOffset - (bw : Int) } : ibitstream)
            = reader_at data (p + bw) := by
          have a1 : (p + bw) / 8 = p / 8 := by omega
          have a2 : (p + bw) % 8 = p % 8 + bw := by omega
          simp only [reader_at, a1, a2]
          congr 1
          omega
        simp only [hst, e_bc]
        rw [ih (n - bw) (by omega) fuel (p + bw) _ (by omega) (by omega)
          (by rw [hpn]; exact hb) hres, hfin, hpn]

/-- The method `read` at bit `p` for `n ≤ 32` bits inside the data. -/
theorem read_reader_at (data : List Nat) (p n : Nat) (h32 : n ≤ 32)
    (hb : (p + n) / 8 < data.length) :
    read (reader_at data p) (n : Int) = .ok (valBits data p n, reader_at data (p + n)) := by
  have := read_loop_reader_at data n n p 0 (le_refl _) h32 hb (by positivity)
  simpa [read] using this

/-! ## The writer -/

theorem or_back_length (buf : List Nat) (m : Nat) : (or_back buf m).length = buf.length := by
  induction buf with
  | nil => rfl
  | cons b bs ih =>
    cases bs with
    | nil => rfl
    | cons c cs => simp only [or_back, List.length_cons] at ih ⊢; omega

theorem or_back_getD (buf : List Nat) (m j : Nat) :
    (or_back buf m).getD j 0
      = if j + 1 = buf.length then (buf.getD j 0 ||| m) % 256 else buf.getD j 0 := by
  induction buf generalizing j with
  | nil => simp [or_back]
  | cons b bs ih =>
    cases bs with
    | nil =>
      cases j with
      | zero => simp [or_back]
      | succ j => simp [or_back]
    | cons c cs =>
      cases j with
      | zero => simp [or_back]
      | succ j =>
        simp only [or_back, List.getD_cons_succ, List.length_cons] at ih ⊢
        rw [ih j]
        simp

theorem written_new : Written (obitstream.new []) [] := by
  refine ⟨by simp [obitstream.new], by simp [obitstream.new], ?_, ?_⟩
  · intro i
    simp only [obitstream.new, bitAt, List.nil_append, List.getD_nil]
    cases h : i / 8 <;> simp
  · intro j
    simp only [obitstream.new, List.nil_append]
    cases j <;> simp

theorem getD_snoc (bs : List Bool) (b : Bool) (i : Nat) :
    (bs ++ [b]).getD i false
      = if i < bs.length then bs.getD i false else if i = bs.length then b else false := by
  by_cases h : i < bs.length
  · rw [if_pos h, List.getD_append _ _ _ _ h]
  · rw [if_neg h, List.getD_append_right _ _ _ _ (by omega)]
    by_cases h2 : i = bs.length
    · subst h2; simp
    · rw [if_neg h2]
      have : i - bs.length = (i - bs.length - 1) + 1 := by omega
      rw [this]; simp

/-- One `write_bit` keeps the layout of the writer. -/
theorem written_write_bit (s : obitstream) (bs : List Bool) (b : Bool) (h : Written s bs) :
    Written (write_bit s b) (bs ++ [b]) := by
  obtain ⟨hlen, hoff, hbits, hbytes⟩ := h
  -- the buffer after the conditional `|=`
  obtain ⟨buf, hbuf⟩ : ∃ buf, buf =
      (if b then or_back s.m_buffer (1 <<< s.m_bitOffset.toNat) else s.m_buffer) := ⟨_, rfl⟩
  have hoffn : s.m_bitOffset.toNat = 7 - bs.length % 8 := by omega
  have hbuf_len : buf.length = bs.length / 8 + 1 := by
    subst hbuf; split
    · rw [or_back_length]; exact hlen
    · exact hlen
  have hbuf_lt : ∀ j, buf.getD j 0 < 256 := by
    intro j; subst hbuf; split
    · rw [or_back_getD]; split
      · exact Nat.mod_lt _ (by norm_num)
      · exact hbytes j
    · exact hbytes j
  have hbuf_bit : ∀ i, bitAt buf i
      = if i < bs.length then bs.getD i false else if i = bs.length then b else false := by
    intro i
    have hi := hbits i
    subst hbuf
    cases b with
    | false =>
      simp only [Bool.false_eq_true, if_false]
      rw [hi]
      by_cases h1 : i < bs.length
      · simp [h1]
      · rw [if_neg h1, List.getD_eq_default _ _ (by omega)]; simp
    | true =>
      simp only [if_true, bitAt, or_back_getD, hlen, hoffn, Nat.one_shiftLeft]
      simp only [bitAt] at hi
      by_cases hq : i / 8 + 1 = bs.length / 8 + 1
      · rw [if_pos hq]
        have : (256 : Nat) = 2 ^ 8 := by norm_num
        rw [this, Nat.testBit_mod_two_pow, Nat.testBit_or, Nat.testBit_two_pow, hi]
        have h8 : decide (7 - i % 8 < 8) = true := by simp; omega
        rw [h8, Bool.true_and]
        by_cases h1 : i < bs.length
        · have : decide (7 - bs.length % 8 = 7 - i % 8) = false := by simp; omega
          simp [h1, this]
        · rw [if_neg h1, List.getD_eq_default _ _ (by omega)]
          by_cases h2 : i = bs.length
          · simp [h2]
          · have : decide (7 - bs.length % 8 = 7 - i % 8) = false := by simp; omega
            simp [h2, this]
      · rw [if_neg hq, hi]
        by_cases h1 : i < bs.length
        · simp [h1]
        · rw [if_neg h1, List.getD_eq_default _ _ (by omega)]
          have h2 : ¬ i = bs.length := by omega
          simp [h2]
  have hwb : write_bit s b =
      if s.m_bitOffset - 1 < 0 then { m_buffer := buf ++ [0], m_bitOffset := 7 }
      else { m_buffer := buf, m_bitOffset := s.m_bitOffset - 1 } := by
    simp only [write_bit, hbuf]
  rw [hwb]
  by_cases hc : s.m_bitOffset - 1 < 0
  · rw [if_pos hc]
    have hm : bs.length % 8 = 7 := by omega
    refine ⟨?_, ?_, ?_, ?_⟩
    · simp only [List.length_append, List.length_singleton, hbuf_len]; omega
    · simp only [List.length_append, List.length_singleton]; omega
    · intro i
      rw [getD_snoc, ← hbuf_bit i]
      simp only [bitAt]
      by_cases hi : i / 8 < buf.length
      · rw [List.getD_append _ _ _ _ hi]
      · rw [List.getD_append_right _ _ _ _ (by omega), List.getD_eq_default buf _ (by omega)]
        cases hk : i / 8 - buf.length <;> simp
    · intro j
      by_cases hj : j < buf.length
      · rw [List.getD_append _ _ _ _ hj]; exact hbuf_lt j
      · rw [List.getD_append_right _ _ _ _ (by omega)]
        cases hk : j - buf.length <;> simp
  · rw [if_neg hc]
    refine ⟨?_, ?_, ?_, hbuf_lt⟩
    · simp only [List.length_append, List.length_singleton, hbuf_len]; omega
    · simp only [List.length_append, List.length_singleton]; omega
    · intro i
      rw [getD_snoc, ← hbuf_bit i]

theorem written_write_bits (cs : List Bool) :
    ∀ (s : obitstream) (bs : List Bool), Written s bs → Written (write_bits s cs) (bs ++ cs) := by
  induction cs with
  | nil => intro s bs h; simpa [write_bits] using h
  | cons c cs ih =>
    intro s bs h
    have := ih (write_bit s c) (bs ++ [c]) (written_write_bit s bs c h)
    simpa [write_bits] using this

theorem write_bits_append (s : obitstream) (as cs : List Bool) :
    write_bits s (as ++ cs) = write_bits (write_bits s as) cs := by
  induction as generalizing s with
  | nil => rfl
  | cons a as ih => simp [write_bits, ih]

/-! ## Writes as bit lists, sync, and data that hold bits -/

theorem and_shift_ne_zero (v n : Nat) : (v &&& (1 <<< n) ≠ 0) ↔ v.testBit n = true := by
  rw [Nat.one_shiftLeft, Nat.and_two_pow]
  cases v.testBit n <;> simp

/-- The method `write(value, bits)` is `bits` calls of `write_bit`, most significant bit
first. -/
theorem write_eq_write_bits (value : Nat) :
    ∀ (bits : Nat) (s : obitstream), write s value bits = write_bits s (wordBits value bits) := by
  intro bits
  induction bits with
  | zero => intro s; rfl
  | succ n ih =>
    intro s
    rw [write, wordBits, write_bits, ← ih]
    congr 1
    by_cases h : value.testBit n = true
    · have h1 : value &&& (1 <<< n) ≠ 0 := (and_shift_ne_zero value n).2 h
      simp only [write_bit, h, h1, ne_eq, not_false_eq_true, if_true]
    · have h1 : ¬ (value &&& (1 <<< n) ≠ 0) := fun c => h ((and_shift_ne_zero value n).1 c)
      simp only [Bool.not_eq_true] at h
      simp only [write_bit, h, h1, if_false, Bool.false_eq_true]

theorem write_binary_loop_eq (value : Nat) :
    ∀ (n : Nat) (s : obitstream),
      write_binary_loop s value n = write_bits s (wordBits value n) := by
  intro n
  induction n with
  | zero => intro s; rfl
  | succ n ih =>
    intro s
    rw [write_binary_loop, wordBits, write_bits, ih]
    congr 2
    by_cases h : value.testBit n = true
    · simp [h, (and_shift_ne_zero value n).2 h]
    · have h1 : ¬ (value &&& (1 <<< n) ≠ 0) := fun c => h ((and_shift_ne_zero value n).1 c)
      simp only [Bool.not_eq_true] at h
      simp [h, h1]

/-- A sequence of `write_bit` and `write` calls is the calls of `write_bit` for its bits. -/
theorem run_ops_eq (ops : List WOp) :
    ∀ s : obitstream, run_ops s ops = write_bits s (ops_bits ops) := by
  induction ops with
  | nil => intro s; rfl
  | cons op ops ih =>
    intro s
    rw [run_ops, ops_bits, write_bits_append, ih]
    cases op with
    | bit b => rfl
    | word v n => simp only [WOp.run, WOp.bits, write_eq_write_bits]

theorem wordBits_length (v n : Nat) : (wordBits v n).length = n := by
  induction n with
  | zero => rfl
  | succ n ih => simp [wordBits, ih]

theorem written_bits (bs : List Bool) : Written (write_bits (obitstream.new []) bs) bs := by
  simpa using written_write_bits bs (obitstream.new []) [] written_new

/-- The loop of `sync` when `m` more bits complete the byte: it writes `m` one-bits. -/
theorem sync_loop_eq :
    ∀ (m fuel : Nat) (s : obitstream), m ≤ fuel → m ≤ 7 →
      (m = 0 → s.m_bitOffset = 7) → (0 < m → s.m_bitOffset = (m : Int) - 1) →
      sync_loop fuel s = .ok (write_bits s (List.replicate m true)) := by
  intro m
  induction m with
  | zero =>
    intro fuel s _ _ h0 _
    have := h0 rfl
    cases fuel <;> simp [sync_loop, this, write_bits]
  | succ m ih =>
    intro fuel s hf h7 _ h1
    obtain ⟨fuel, rfl⟩ : ∃ f, fuel = f + 1 := ⟨fuel - 1, by omega⟩
    have hoff := h1 (by omega)
    have hne : s.m_bitOffset ≠ 7 := by omega
    rw [sync_loop, if_pos hne, List.replicate_succ, write_bits]
    apply ih fuel (write_bit s true) (by omega) (by omega)
    · intro hm
      simp only [write_bit]
      subst hm
      have : s.m_bitOffset - 1 < 0 := by omega
      simp [this]
    · intro hm
      simp only [write_bit]
      have : ¬ s.m_bitOffset - 1 < 0 := by omega
      simp only [this, if_false]
      omega

/-- The method `sync` returns and writes a zero-bit followed by one-bits up to the next byte
boundary. -/
theorem sync_eq (s : obitstream) (bs : List Bool) (h : Written s bs) :
    sync s = .ok (write_bits s (false :: List.replicate (7 - bs.length % 8) true)) := by
  have hw := written_write_bit s bs false h
  rw [sync, write_bits]
  apply sync_loop_eq (7 - bs.length % 8) 8 _ (by omega) (by omega)
  · intro hm
    rw [hw.2.1]
    simp only [List.length_append, List.length_singleton]
    omega
  · intro hm
    rw [hw.2.1]
    simp only [List.length_append, List.length_singleton]
    omega

theorem holds_append (data : List Nat) (p : Nat) (as cs : List Bool)
    (h : Holds data p (as ++ cs)) : Holds data p as ∧ Holds data (p + as.length) cs := by
  obtain ⟨hb, hbits⟩ := h
  simp only [List.length_append] at hb hbits
  refine ⟨⟨by omega, ?_⟩, ⟨by omega, ?_⟩⟩
  · intro j hj
    rw [hbits j (by omega), List.getD_append _ _ _ _ hj]
  · intro j hj
    have := hbits (as.length + j) (by omega)
    rw [List.getD_append_right _ _ _ _ (by omega)] at this
    rw [Nat.add_assoc, this]
    congr 1
    omega

/-- The bytes of a writer hold every segment of the bits written. -/
theorem written_holds (s : obitstream) (pre bs post : List Bool)
    (h : Written s (pre ++ bs ++ post)) : Holds s.m_buffer pre.length bs := by
  obtain ⟨hlen, _, hbits, _⟩ := h
  simp only [List.length_append] at hlen
  refine ⟨by omega, ?_⟩
  intro j hj
  rw [hbits, List.append_assoc, List.getD_append_right _ _ _ _ (by omega),
    List.getD_append _ _ _ _ (by omega)]
  congr 1
  omega

theorem bitsVal_append (as cs : List Bool) (acc : Nat) :
    bitsVal (as ++ cs) acc = bitsVal cs (bitsVal as acc) := by
  induction as generalizing acc with
  | nil => rfl
  | cons a as ih => simp [bitsVal, ih]

theorem bitsVal_acc (bs : List Bool) (acc : Nat) :
    bitsVal bs acc = acc * 2 ^ bs.length + bitsVal bs 0 := by
  induction bs generalizing acc with
  | nil => simp [bitsVal]
  | cons b bs ih =>
    simp only [bitsVal, List.length_cons]
    rw [ih (2 * acc + b.toNat), ih (2 * 0 + b.toNat)]
    ring

theorem holds_valBits (data : List Nat) (p : Nat) (bs : List Bool) (h : Holds data p bs) :
    valBits data p bs.length = bitsVal bs 0 := by
  induction bs using List.reverseRecOn with
  | nil => rfl
  | append_singleton bs b ih =>
    have h1 := (holds_append data p bs [b] h).1
    have hb := h.2 bs.length (by simp)
    rw [List.getD_append_right _ _ _ _ (le_refl _)] at hb
    simp only [Nat.sub_self, List.getD_cons_zero] at hb
    simp only [List.length_append, List.length_singleton, valBits, ih h1, hb, bitsVal_append,
      bitsVal]

theorem bitsVal_wordBits (v n : Nat) : bitsVal (wordBits v n) 0 = v % 2 ^ n := by
  induction n with
  | zero => simp [wordBits, bitsVal, Nat.mod_one]
  | succ n ih =>
    rw [wordBits, bitsVal, bitsVal_acc, ih, wordBits_length]
    simp only [Nat.mul_zero, Nat.zero_add]
    rw [Nat.testBit_to_div_mod]
    have h1 : v % 2 ^ (n + 1) = v % 2 ^ n + 2 ^ n * (v / 2 ^ n % 2) := by
      rw [pow_succ, Nat.mod_mul]
    rw [h1]
    have : v / 2 ^ n % 2 < 2 := Nat.mod_lt _ (by norm_num)
    by_cases hb : v / 2 ^ n % 2 = 1
    · simp [hb]; ring
    · have : v / 2 ^ n % 2 = 0 := by omega
      simp [this]

/-- Reading `n` bits that the data holds. -/
theorem read_holds (data : List Nat) (p : Nat) (bs rest : List Bool)
    (h : Holds data p (bs ++ rest)) (h32 : bs.length ≤ 32) :
    read (reader_at data p) (bs.length : Int)
      = .ok (bitsVal bs 0, reader_at data (p + bs.length)) := by
  have h1 := (holds_append data p bs rest h).1
  rw [read_reader_at data p bs.length h32 h1.1, holds_valBits data p bs h1]

theorem read_bool_holds (data : List Nat) (p : Nat) (b : Bool) (rest : List Bool)
    (h : Holds data p (b :: rest)) :
    read_bool (reader_at data p) = .ok (b, reader_at data (p + 1)) := by
  have := read_holds data p [b] rest h (by simp)
  simp only [List.length_singleton, Nat.cast_one] at this
  rw [read_bool, this]
  cases b <;> simp [bitsVal]

theorem new_reader (data : List Nat) (h : 0 < data.length) :
    ibitstream.new data = .ok (reader_at data 0) := by
  rw [ibitstream.new, fetch_getD data 0 h]
  rfl

/-! ## The gamma code -/

theorem log2_half (v : Nat) (h : 1 < v) : Nat.log2 v = Nat.log2 (v / 2) + 1 := by
  rw [Nat.log2]; simp; omega

theorem log2_one_or_zero (v : Nat) (h : ¬ 1 < v) : Nat.log2 v = 0 := by
  rw [Nat.log2]; simp; omega

theorem write_gamma_ones_eq :
    ∀ (fuel v : Nat) (s : obitstream) (e0 : Nat), v ≤ fuel →
      write_gamma_ones fuel s v e0
        = .ok (write_bits s (List.replicate (Nat.log2 v) true), e0 + Nat.log2 v) := by
  intro fuel
  induction fuel with
  | zero =>
    intro v s e0 hv
    have : v = 0 := by omega
    subst this
    simp [write_gamma_ones, log2_one_or_zero, write_bits]
  | succ fuel ih =>
    intro v s e0 hv
    rw [write_gamma_ones]
    by_cases h : v > 1
    · rw [if_pos h, Nat.shiftRight_eq_div_pow, pow_one, ih (v / 2) _ _ (by omega),
        log2_half v h, List.replicate_succ, write_bits]
      congr 2
      omega
    · rw [if_neg h, log2_one_or_zero v h]
      simp [write_bits]

theorem write_gamma_low_eq (value : Nat) :
    ∀ (e : Nat) (s : obitstream),
      write_gamma_low value e s (2 ^ e) = write_bits s (wordBits value e) := by
  intro e
  induction e with
  | zero => intro s; rfl
  | succ e ih =>
    intro s
    have hb : 2 ^ (e + 1) >>> 1 = 2 ^ e := by
      rw [Nat.shiftRight_eq_div_pow, pow_succ]; simp
    rw [write_gamma_low, hb, ih, wordBits, write_bits]
    congr 2
    have := and_shift_ne_zero value e
    rw [Nat.one_shiftLeft] at this
    by_cases h : value.testBit e = true
    · simp [h, this.2 h]
    · have h1 : ¬ (value &&& 2 ^ e ≠ 0) := fun c => h (this.1 c)
      simp only [Bool.not_eq_true] at h
      simp [h, h1]

theorem log2_lt_of_lt (v k : Nat) (h : v < 2 ^ k) (hk : 0 < k) : Nat.log2 v < k := by
  by_cases h0 : v = 0
  · subst h0; rw [log2_one_or_zero 0 (by omega)]; exact hk
  · exact (Nat.log2_lt h0).2 h

/-- What `write_gamma` appends. -/
theorem write_gamma_eq (s : obitstream) (v : Nat) (h1 : 1 ≤ v) (h32 : v < 2 ^ 32) :
    write_gamma s v = .ok (write_bits s (gammaBits v)) := by
  have he : Nat.log2 v < 32 := log2_lt_of_lt v 32 h32 (by norm_num)
  have hpow : (1 <<< Nat.log2 v) % 18446744073709551616 = 2 ^ Nat.log2 v := by
    rw [Nat.one_shiftLeft]
    apply Nat.mod_eq_of_lt
    calc 2 ^ Nat.log2 v < 2 ^ 32 := Nat.pow_lt_pow_right (by norm_num) he
      _ < 18446744073709551616 := by norm_num
  have hpos : ¬ ¬ v > 0 := by omega
  rw [write_gamma, if_neg hpos, write_gamma_ones_eq v v s 0 (le_refl _)]
  simp only [Nat.zero_add, hpow, write_gamma_low_eq, gammaBits, write_bits_append, write_bits]

theorem gammaBits_length (v : Nat) : (gammaBits v).length = 2 * Nat.log2 v + 1 := by
  simp [gammaBits, wordBits_length]; omega

theorem read_gamma_ones_eq (data : List Nat) (rest : List Bool) :
    ∀ (k fuel p v1 : Nat) (e : Int),
      Holds data p (List.replicate k true ++ false :: rest) → k + 1 ≤ fuel →
      v1 * 2 ^ k < 2 ^ 32 → v1 ≠ 0 →
      read_gamma_ones fuel (reader_at data p) v1 e
        = .ok (v1 * 2 ^ k, e + k, reader_at data (p + k + 1)) := by
  intro k
  induction k with
  | zero =>
    intro fuel p v1 e h hf _ _
    obtain ⟨fuel, rfl⟩ : ∃ f, fuel = f + 1 := ⟨fuel - 1, by omega⟩
    simp only [List.replicate_zero, List.nil_append] at h
    rw [read_gamma_ones, read_bool_holds data p false rest h]
    simp
  | succ k ih =>
    intro fuel p v1 e h hf hv hne
    obtain ⟨fuel, rfl⟩ : ∃ f, fuel = f + 1 := ⟨fuel - 1, by omega⟩
    rw [List.replicate_succ, List.cons_append] at h
    rw [read_gamma_ones, read_bool_holds data p true _ h]
    have h2 := (holds_append data p [true] _ h).2
    simp only [List.length_singleton] at h2
    have hv2 : v1 * 2 < 2 ^ 32 := by
      have : v1 * 2 ≤ v1 * 2 ^ (k + 1) :=
        Nat.mul_le_mul_left _ (by rw [pow_succ]; have := @Nat.one_le_two_pow k; omega)
      omega
    have hsh : (v1 <<< 1) % 4294967296 = v1 * 2 := by
      rw [Nat.shiftLeft_eq, pow_one]
      exact Nat.mod_eq_of_lt (by norm_num at hv2 ⊢; omega)
    simp only [hne, ne_eq, not_false_eq_true, and_self, if_true, hsh]
    rw [ih fuel (p + 1) (v1 * 2) (e + 1) h2 (by omega) (by rw [pow_succ] at hv; linarith)
      (by omega)]
    have e1 : p + 1 + k + 1 = p + (k + 1) + 1 := by omega
    have e2 : v1 * 2 * 2 ^ k = v1 * 2 ^ (k + 1) := by rw [pow_succ]; ring
    have e3 : e + 1 + (k : Int) = e + ((k + 1 : Nat) : Int) := by push_cast; ring
    rw [e1, e2, e3]

theorem read_gamma_low_eq (data : List Nat) (rest : List Bool) :
    ∀ (bs : List Bool) (p v2 : Nat),
      Holds data p (bs ++ rest) → bs.length ≤ 32 → v2 < 2 ^ (32 - bs.length) →
      read_gamma_low bs.length (reader_at data p) v2
        = .ok (bitsVal bs v2, reader_at data (p + bs.length)) := by
  intro bs
  induction bs with
  | nil => intro p v2 _ _ _; rfl
  | cons b bs ih =>
    intro p v2 h hl hv
    simp only [List.length_cons] at hl hv ⊢
    rw [List.cons_append] at h
    rw [read_gamma_low, read_bool_holds data p b _ h]
    have h2 := (holds_append data p [b] _ h).2
    simp only [List.length_singleton] at h2
    have hp : (2:Nat) ^ (32 - bs.length) = 2 * 2 ^ (32 - (bs.length + 1)) := by
      rw [← pow_succ']; congr 1; omega
    have hle : (2:Nat) ^ (32 - bs.length) ≤ 2 ^ 32 := Nat.pow_le_pow_right (by norm_num) (by omega)
    have hb : b.toNat < 2 ^ 1 := by cases b <;> simp
    have hsh : (v2 <<< 1) % 4294967296 ||| b.toNat = 2 * v2 + b.toNat := by
      rw [Nat.shiftLeft_eq, Nat.mod_eq_of_lt (by norm_num at hle ⊢; omega), Nat.mul_comm,
        ← Nat.mul_add_lt_is_or hb]
    simp only [hsh]
    have hb1 : b.toNat ≤ 1 := Bool.toNat_le _
    have hv' : 2 * v2 + b.toNat < 2 ^ (32 - bs.length) := by omega
    have e1 : p + 1 + bs.length = p + (bs.length + 1) := by omega
    rw [ih (p + 1) (2 * v2 + b.toNat) h2 (by omega) hv', e1]
    rfl

/-- Decoding a gamma code word that the data holds. -/
theorem read_gamma_holds (data : List Nat) (p v : Nat) (rest : List Bool)
    (h1 : 1 ≤ v) (h32 : v < 2 ^ 32) (h : Holds data p (gammaBits v ++ rest)) :
    read_gamma (reader_at data p)
      = .ok (v, reader_at data (p + (gammaBits v).length)) := by
  have he : Nat.log2 v < 32 := log2_lt_of_lt v 32 h32 (by norm_num)
  have hlow : 2 ^ Nat.log2 v ≤ v := Nat.log2_self_le (by omega)
  have hhigh : v < 2 ^ (Nat.log2 v + 1) := Nat.lt_log2_self
  have hpow : 2 ^ Nat.log2 v < 2 ^ 32 := Nat.pow_lt_pow_right (by norm_num) he
  simp only [gammaBits, List.append_assoc, List.cons_append] at h
  rw [read_gamma, read_gamma_ones_eq data _ (Nat.log2 v) 33 p 1 0 h (by omega)
    (by simpa using hpow) (by norm_num)]
  have hne : ¬ ¬ (1 * 2 ^ Nat.log2 v ≠ 0) := by
    have := Nat.two_pow_pos (Nat.log2 v); simp
  simp only [if_neg hne]
  have h2 := (holds_append data p (List.replicate (Nat.log2 v) true ++ [false]) _
    (by simpa using h)).2
  simp only [List.length_append, List.length_replicate, List.length_singleton] at h2
  have hlen := wordBits_length v (Nat.log2 v)
  have h3 := read_gamma_low_eq data rest (wordBits v (Nat.log2 v)) (p + (Nat.log2 v + 1)) 0
    h2 (by omega) (by positivity)
  rw [hlen] at h3
  have e1 : ((0 : Int) + (Nat.log2 v : Int)).toNat = Nat.log2 v := by omega
  rw [e1, Nat.add_assoc, h3, bitsVal_wordBits]
  have hmod : v % 2 ^ Nat.log2 v = v - 2 ^ Nat.log2 v := by
    rw [Nat.mod_eq_sub_mod hlow]
    apply Nat.mod_eq_of_lt
    rw [pow_succ] at hhigh
    omega
  have hval : (1 * 2 ^ Nat.log2 v + v % 2 ^ Nat.log2 v) % 4294967296 = v := by
    rw [hmod, Nat.one_mul, Nat.add_sub_cancel' hlow]
    exact Nat.mod_eq_of_lt (by norm_num at h32 ⊢; omega)
  simp only [hval, gammaBits_length]
  congr 3
  omega

/-! ## bit_width and the selector search -/

theorem bit_width_loop_ge : ∀ (fuel v r : Nat), r ≤ bit_width_loop fuel v r := by
  intro fuel
  induction fuel with
  | zero => intro v r; simp [bit_width_loop]
  | succ fuel ih =>
    intro v r
    rw [bit_width_loop]
    split
    · have := ih (v >>> 1) (r + 1); omega
    · exact le_refl _

theorem bit_width_loop_le_iff :
    ∀ (fuel v r w : Nat), v ≤ fuel → (bit_width_loop fuel v r ≤ r + w ↔ v < 2 ^ w) := by
  intro fuel
  induction fuel with
  | zero =>
    intro v r w hv
    have : v = 0 := by omega
    subst this
    simp [bit_width_loop]
  | succ fuel ih =>
    intro v r w hv
    rw [bit_width_loop]
    by_cases h : v > 0
    · rw [if_pos h, Nat.shiftRight_eq_div_pow, pow_one]
      cases w with
      | zero =>
        have := bit_width_loop_ge fuel (v / 2) (r + 1)
        simp only [Nat.add_zero, pow_zero]
        omega
      | succ w =>
        have := ih (v / 2) (r + 1) w (by omega)
        rw [pow_succ]
        have e : r + 1 + w = r + (w + 1) := by omega
        rw [e] at this
        rw [this]
        omega
    · rw [if_neg h]
      have : v = 0 := by omega
      subst this
      simp

/-- The function `bit_width` returns the least `w` with `v < 2 ^ w`. -/
theorem bit_width_le_iff (v w : Nat) : bit_width v ≤ w ↔ v < 2 ^ w := by
  have := bit_width_loop_le_iff v v 0 w (le_refl _)
  simpa [bit_width] using this

theorem kSel_span (s : Nat) (h : s < 16) :
    (kSel s).span = 1 ∨ (kSel s).span = 2 ∨ (kSel s).span = 4 := by
  interval_cases s <;> simp [kSel, kSelectors]

theorem kSel_databits (s : Nat) : -4 ≤ (kSel s).databits ∧ (kSel s).databits ≤ 4 := by
  by_cases h : s < 16
  · interval_cases s <;> simp [kSel, kSelectors]
  · have : kSel s = ⟨0, 0⟩ := by
      simp only [kSel]
      exact List.getD_eq_default _ _ (by simp [kSelectors]; omega)
    simp [this]

theorem search_step_fitting (width : Int) (bn : List Int) (bc : Nat) (sc : Nat × Int) (i : Nat)
    (hi : 1 ≤ i ∧ i ≤ 15) (h : Fitting width bn bc sc.1) :
    Fitting width bn bc (search_step width bn bc sc i).1 := by
  unfold search_step
  split
  · exact h
  · rename_i h1
    simp only
    split
    · exact h
    · rename_i h2
      split
      · exact h
      · rename_i h3
        split
        · show Fitting width bn bc i
          right
          exact ⟨hi.1, hi.2, by omega, by omega, by simpa using h3⟩
        · exact h

theorem foldl_fitting (width : Int) (bn : List Int) (bc : Nat) :
    ∀ (l : List Nat) (sc : Nat × Int), (∀ i ∈ l, 1 ≤ i ∧ i ≤ 15) → Fitting width bn bc sc.1 →
      Fitting width bn bc (l.foldl (search_step width bn bc) sc).1 := by
  intro l
  induction l with
  | nil => intro sc _ h; exact h
  | cons i l ih =>
    intro sc hl h
    rw [List.foldl_cons]
    apply ih
    · intro j hj; exact hl j (List.mem_cons_of_mem _ hj)
    · exact search_step_fitting width bn bc sc i (hl i (List.mem_cons_self _ _)) h

/-- The selector the search returns is the escape selector or one that fits. -/
theorem search_fitting (width : Int) (bn : List Int) (bc : Nat) :
    Fitting width bn bc (search width bn bc).1 := by
  unfold search
  apply foldl_fitting
  · intro i hi
    simp only [List.mem_range'_1] at hi
    omega
  · left; rfl

theorem switch_span_fits (s : Nat) (hs : 1 ≤ s ∧ s ≤ 15) (bn : List Int) (w : Int)
    (h : (switch_span (kSel s).span bn w).1 = true) :
    ∀ k, k < (kSel s).span → bn.getD k 0 ≤ w := by
  obtain ⟨h1, h2⟩ := hs
  intro k hk
  have hk4 : k < 4 := by
    rcases kSel_span s (by omega) with e | e | e <;> omega
  interval_cases k <;> interval_cases s <;>
    simp_all [kSel, kSelectors, switch_span, switch_case]

/-! ## The packer -/

theorem kSel_zero : kSel 0 = ⟨0, 1⟩ := rfl

theorem bn_getD (vals : List Nat) (k : Nat) (hk : k < (vals.take 4).length) :
    ((vals.take 4).map fun x => (bit_width x : Int)).getD k 0
      = (bit_width (vals.getD k 0) : Int) := by
  have hk2 : k < vals.length := by
    simp only [List.length_take] at hk; omega
  rw [List.getD_eq_getElem _ _ (by simpa using hk), List.getD_eq_getElem _ _ hk2]
  simp [List.getElem_take]

/-- The facts about the selector the search picks that the packer and the decoder rely on. -/
theorem pick_props (width : Int) (vals : List Nat) (hv : vals ≠ [])
    (hw : 0 ≤ width ∧ width ≤ 30) :
    pick width vals < 16 ∧
    1 ≤ (kSel (pick width vals)).span ∧
    (kSel (pick width vals)).span ≤ 4 ∧
    (kSel (pick width vals)).span ≤ vals.length ∧
    0 ≤ next_width width (pick width vals) ∧
    next_width width (pick width vals) ≤ 30 ∧
    (∀ v ∈ vals.take (kSel (pick width vals)).span,
      v % 2 ^ (next_width width (pick width vals)).toNat = v % 2 ^ 30) := by
  have hlen : 1 ≤ vals.length := by
    cases vals with
    | nil => exact absurd rfl hv
    | cons a l => simp
  have hfit := search_fitting width ((vals.take 4).map fun x => (bit_width x : Int))
    (vals.take 4).length
  change Fitting _ _ _ (pick width vals) at hfit
  rcases hfit with h0 | ⟨h1, h15, hspan, hu, hfits⟩
  · rw [h0]
    simp only [kSel_zero, next_width, kMaxWidth]
    refine ⟨by norm_num, by norm_num, by norm_num, hlen, by norm_num, by norm_num, ?_⟩
    intro v _
    rfl
  · have hs16 : pick width vals < 16 := by omega
    have hne : pick width vals ≠ 0 := by omega
    have hsp := kSel_span _ hs16
    have hdb := kSel_databits (pick width vals)
    have hnw : next_width width (pick width vals)
        = width + (kSel (pick width vals)).databits := by
      simp [next_width, hne]
    simp only [List.length_take] at hspan
    have hw1 : 0 ≤ width + (kSel (pick width vals)).databits ∧
        width + (kSel (pick width vals)).databits ≤ 30 := by
      simp only [u32, kMaxWidth] at hu
      omega
    refine ⟨hs16, by omega, by omega, by omega, by omega, by omega, ?_⟩
    intro v hvm
    obtain ⟨k, hk, hkv⟩ := List.getElem_of_mem hvm
    simp only [List.length_take] at hk
    have hb := switch_span_fits _ ⟨h1, h15⟩ _ _ hfits k (by omega)
    rw [bn_getD vals k (by simp only [List.length_take]; omega)] at hb
    have hvk : vals.getD k 0 = v := by
      rw [List.getD_eq_getElem _ _ (by omega), ← hkv, List.getElem_take]
    rw [hvk] at hb
    rw [hnw]
    obtain ⟨w, hwe⟩ : ∃ w : Nat, width + (kSel (pick width vals)).databits = (w : Int) :=
      ⟨(width + (kSel (pick width vals)).databits).toNat, by omega⟩
    rw [hwe] at hb hw1 ⊢
    simp only [Int.toNat_ofNat]
    have hb2 : bit_width v ≤ w := by exact_mod_cast hb
    have hlt : v < 2 ^ w := (bit_width_le_iff v w).1 hb2
    have hle : 2 ^ w ≤ 2 ^ 30 := Nat.pow_le_pow_right (by norm_num) (by omega)
    rw [Nat.mod_eq_of_lt hlt, Nat.mod_eq_of_lt (by omega)]

/-- The refill loop leaves the first four values not yet emitted in the look-ahead buffer. -/
theorem refill_eq :
    ∀ (a dv : List Nat) (bn : List Int), dv.length ≤ 4 →
      bn = dv.map (fun x => (bit_width x : Int)) →
      refill dv bn a = ((dv ++ a).take 4,
        ((dv ++ a).take 4).map (fun x => (bit_width x : Int)), (dv ++ a).drop 4) := by
  intro a
  induction a with
  | nil =>
    intro dv bn hl hbn
    simp only [refill, List.append_nil, List.take_of_length_le hl, List.drop_of_length_le hl,
      hbn]
  | cons x a ih =>
    intro dv bn hl hbn
    rw [refill]
    by_cases h : dv.length < 4
    · rw [if_pos h, ih (dv ++ [x]) _ (by simp; omega) (by simp [hbn])]
      simp
    · rw [if_neg h]
      have h4 : dv.length = 4 := by omega
      have e1 : (dv ++ x :: a).take 4 = dv := by
        rw [← h4]; exact List.take_left _ _
      have e2 : (dv ++ x :: a).drop 4 = x :: a := by
        rw [← h4]; exact List.drop_left _ _
      rw [e1, e2, hbn]

theorem write_values_eq (dv : List Nat) (width : Int) :
    ∀ (k i : Nat) (bits : obitstream), i + k ≤ dv.length →
      write_values bits dv width k i
        = write_bits bits (valuesBits width.toNat ((dv.drop i).take k)) := by
  intro k
  induction k with
  | zero => intro i bits _; simp [write_values, valuesBits, write_bits]
  | succ k ih =>
    intro i bits h
    have hi : i < dv.length := by omega
    rw [write_values, ih (i + 1) _ (by omega), write_eq_write_bits,
      List.drop_eq_getElem_cons hi, List.take_succ_cons, valuesBits, write_bits_append,
      List.getD_eq_getElem _ _ hi]

theorem valuesBits_nil_width (vs : List Nat) : valuesBits 0 vs = [] := by
  induction vs with
  | nil => rfl
  | cons v vs ih => simp [valuesBits, wordBits, ih]

theorem take_drop_four (vals : List Nat) (n : Nat) (hn : n ≤ 4) :
    (vals.take 4).drop n ++ vals.drop 4 = vals.drop n := by
  have h1 : vals.drop n = (vals.take 4 ++ vals.drop 4).drop n := by
    rw [List.take_append_drop]
  rw [h1, List.drop_append_eq_append_drop]
  have h2 : n - (vals.take 4).length = 0 ∨ vals.drop 4 = [] := by
    by_cases h : 4 ≤ vals.length
    · left; simp only [List.length_take]; omega
    · right; exact List.drop_of_length_le (by omega)
  rcases h2 with h2 | h2
  · rw [h2, List.drop_zero]
  · rw [h2]; simp

/-- The packer appends the blocks described by `pack_bits`. -/
theorem compress_loop_eq :
    ∀ (fuel : Nat) (bits : obitstream) (width : Int) (dv : List Nat) (bn : List Int)
      (a : List Nat), (dv ++ a).length ≤ fuel → dv.length ≤ 4 →
      bn = dv.map (fun x => (bit_width x : Int)) → 0 ≤ width ∧ width ≤ 30 →
      compress_loop fuel bits width dv bn a
        = .ok (write_bits bits (pack_bits fuel width (dv ++ a))) := by
  intro fuel
  induction fuel with
  | zero =>
    intro bits width dv bn a hf _ _ _
    have hnil : dv ++ a = [] := List.eq_nil_of_length_eq_zero (by omega)
    have h1 : dv = [] := (List.append_eq_nil.1 hnil).1
    have h2 : a = [] := (List.append_eq_nil.1 hnil).2
    subst h1 h2
    simp [compress_loop, pack_bits, write_bits]
  | succ fuel ih =>
    intro bits width dv bn a hf hl hbn hw
    rw [compress_loop, pack_bits]
    by_cases hnil : dv ++ a = []
    · have h1 : dv = [] := (List.append_eq_nil.1 hnil).1
      have h2 : a = [] := (List.append_eq_nil.1 hnil).2
      subst h1 h2
      simp [write_bits]
    · have hcond : a ≠ [] ∨ dv.length > 0 := by
        by_contra hc
        push_neg at hc
        apply hnil
        rw [hc.1, List.append_nil]
        exact List.eq_nil_of_length_eq_zero (by omega)
      rw [if_pos hcond, if_neg hnil, refill_eq a dv bn hl hbn]
      simp only
      obtain ⟨hs16, hn1, hn4, hnl, hw0, hw30, _⟩ := pick_props width (dv ++ a) hnil hw
      have e1 : (search width (((dv ++ a).take 4).map fun x => (bit_width x : Int))
          ((dv ++ a).take 4).length).1 = pick width (dv ++ a) := rfl
      have e2 : ∀ s, (if s = 0 then (kMaxWidth : Int) else width + (kSel s).databits)
          = next_width width s := fun _ => rfl
      simp only [e1, e2]
      clear e1 e2
      generalize hs : pick width (dv ++ a) = s at *
      generalize hw1 : next_width width s = w1 at *
      generalize hvals : dv ++ a = vals at *
      have hbits2 : (if w1 > 0 then
            write_values (write bits s 4) (vals.take 4) w1 (kSel s).span 0
          else write bits s 4)
          = write_bits (write_bits bits (wordBits s 4))
              (valuesBits w1.toNat (vals.take (kSel s).span)) := by
        rw [write_eq_write_bits]
        split
        · rw [write_values_eq _ _ _ _ _ (by simp only [List.length_take]; omega),
            List.drop_zero, List.take_take, Nat.min_eq_left hn4]
        · have : w1.toNat = 0 := by omega
          rw [this, valuesBits_nil_width]; rfl
      rw [hbits2, ih _ _ _ _ _ (by
          rw [take_drop_four vals _ hn4, List.length_drop]; omega)
        (by simp only [List.length_drop, List.length_take]; omega)
        (by rw [List.map_drop]) ⟨hw0, hw30⟩,
        take_drop_four vals _ hn4, ← write_bits_append, ← write_bits_append, List.append_assoc]

theorem compress_eq (bits : obitstream) (arr : List Nat) :
    compress_simple_array_selector bits arr
      = .ok (write_bits bits (pack_bits arr.length (kStartWidth : Int) arr)) := by
  have := compress_loop_eq arr.length bits (kStartWidth : Int) [] [] arr (by simp) (by simp)
    (by simp) (by simp [kStartWidth])
  simpa [compress_simple_array_selector] using this

/-! ## The decoder of the packer -/

theorem valuesBits_length (w : Nat) (vs : List Nat) :
    (valuesBits w vs).length = w * vs.length := by
  induction vs with
  | nil => rfl
  | cons v vs ih => simp [valuesBits, wordBits_length, ih]; ring

theorem i32_small (w : Nat) (h : w ≤ 30) : i32 (w : Int) = (w : Int) := by
  simp only [i32]; omega

/-- The decoder inside a block: `span` values of `width` bits each, then the next block. -/
theorem read_delta_loop_block (data : List Nat) (w : Nat) (hw : w ≤ 30) (tail : List Bool) :
    ∀ (bvals : List Nat) (k p : Nat), bvals.length ≤ 4 →
      Holds data p (valuesBits w bvals ++ tail) →
      read_delta_loop (bvals.length + k) (reader_at data p) w bvals.length
        = match read_delta_loop k (reader_at data (p + w * bvals.length)) w 0 with
          | .ok (rest, r) => .ok (bvals.map (fun v => v % 2 ^ w) ++ rest, r)
          | .error err => .error err := by
  intro bvals
  induction bvals with
  | nil =>
    intro k p _ _
    simp only [List.length_nil, Nat.zero_add, Nat.mul_zero, Nat.add_zero, List.map_nil,
      List.nil_append]
    cases read_delta_loop k (reader_at data p) w 0 with
    | error e => rfl
    | ok x => rfl
  | cons v vs ih =>
    intro k p hl h
    simp only [List.length_cons] at hl ⊢
    have e1 : vs.length + 1 + k = (vs.length + k) + 1 := by omega
    rw [e1, read_delta_loop]
    have hspan : ¬ (vs.length + 1 = 0) := by omega
    simp only [if_neg hspan]
    have hu : u32 (((vs.length + 1 : Nat) : Int) - 1) = vs.length := by
      simp only [u32]; omega
    rw [hu]
    simp only [valuesBits, List.append_assoc] at h
    have h2 := (holds_append data p (wordBits v w) _ h).2
    rw [wordBits_length] at h2
    have hpos : p + w + w * vs.length = p + w * (vs.length + 1) := by ring
    by_cases hw0 : w > 0
    · have hr := read_holds data p (wordBits v w) _ h (by rw [wordBits_length]; omega)
      rw [wordBits_length, bitsVal_wordBits] at hr
      simp only [if_pos hw0, i32_small w hw, hr]
      rw [ih k (p + w) (by omega) h2, hpos]
      cases read_delta_loop k (reader_at data (p + w * (vs.length + 1))) w 0 with
      | error e => rfl
      | ok x => rfl
    · have hw00 : w = 0 := by omega
      subst hw00
      simp only [if_neg hw0]
      rw [Nat.add_zero] at h2
      rw [ih k p (by omega) h2]
      simp only [Nat.zero_mul, Nat.add_zero, pow_zero, Nat.mod_one, List.map_cons]
      cases read_delta_loop k (reader_at data p) 0 0 with
      | error e => rfl
      | ok x => rfl

/-- The decoder reads back the blocks of `pack_bits`, each value modulo `2 ^ 30`. -/
theorem read_delta_loop_pack (data : List Nat) (tail : List Bool) :
    ∀ (fuel : Nat) (vals : List Nat) (width : Int) (p : Nat), vals.length ≤ fuel →
      0 ≤ width ∧ width ≤ 30 →
      Holds data p (pack_bits fuel width vals ++ tail) →
      read_delta_loop vals.length (reader_at data p) width.toNat 0
        = .ok (vals.map (fun v => v % 2 ^ 30),
            reader_at data (p + (pack_bits fuel width vals).length)) := by
  intro fuel
  induction fuel with
  | zero =>
    intro vals width p hf _ _
    have : vals = [] := List.eq_nil_of_length_eq_zero (by omega)
    subst this
    simp [read_delta_loop, pack_bits]
  | succ fuel ih =>
    intro vals width p hf hw h
    by_cases hnil : vals = []
    · subst hnil
      simp [read_delta_loop, pack_bits]
    · obtain ⟨hs16, hn1, hn4, hnl, hw0, hw30, hmod⟩ := pick_props width vals hnil hw
      rw [pack_bits, if_neg hnil] at h ⊢
      generalize hs : pick width vals = s at *
      generalize hw1 : next_width width s = w1 at *
      generalize hn : (kSel s).span = n at *
      obtain ⟨w, hwe⟩ : ∃ w : Nat, w1 = (w : Int) := ⟨w1.toNat, by omega⟩
      subst hwe
      simp only [Int.toNat_ofNat] at h hmod ⊢
      -- the selector
      simp only [List.append_assoc] at h
      have hsel := read_holds data p (wordBits s 4) _ h (by rw [wordBits_length]; norm_num)
      rw [wordBits_length, bitsVal_wordBits] at hsel
      have hs4 : s % 2 ^ 4 = s := Nat.mod_eq_of_lt (by norm_num; omega)
      rw [hs4] at hsel
      have hsel4 : read (reader_at data p) (4 : Int) = .ok (s, reader_at data (p + 4)) := hsel
      have h2 := (holds_append data p (wordBits s 4) _ h).2
      rw [wordBits_length] at h2
      -- the width the decoder computes
      have hwd : (if s = 0 then kMaxWidth
          else u32 ((width.toNat : Int) + (kSel s).databits)) = w := by
        have hnw : next_width width s = (w : Int) := hw1
        simp only [next_width] at hnw
        split
        · rename_i h0; rw [if_pos h0] at hnw; exact_mod_cast hnw
        · rename_i h0; rw [if_neg h0] at hnw
          simp only [u32]; omega
      -- entering the loop body with span 0 is entering it with the new span
      obtain ⟨k, hk⟩ : ∃ k, vals.length = k + 1 := ⟨vals.length - 1, by omega⟩
      have hhdr : read_delta_loop vals.length (reader_at data p) width.toNat 0
          = read_delta_loop vals.length (reader_at data (p + 4)) w n := by
        have hn0 : ¬ n = 0 := by omega
        rw [hk, read_delta_loop, read_delta_loop]
        simp only [if_true, hsel4, hwd, hn, if_neg hn0]
      rw [hhdr]
      have hlen : vals.length = (vals.take n).length + (vals.drop n).length := by
        simp only [List.length_take, List.length_drop]; omega
      have htl : (vals.take n).length = n := by
        simp only [List.length_take]; omega
      have hblock := read_delta_loop_block data w (by omega) _ (vals.take n)
        (vals.drop n).length (p + 4) (by omega) h2
      rw [← hlen, htl] at hblock
      rw [hblock]
      have h3 := (holds_append data (p + 4) (valuesBits w (vals.take n)) _ h2).2
      rw [valuesBits_length, htl] at h3
      have hrec := ih (vals.drop n) (w : Int) (p + 4 + w * n)
        (by simp only [List.length_drop]; omega) ⟨hw0, hw30⟩ h3
      simp only [Int.toNat_ofNat] at hrec
      rw [hrec]
      simp only [List.length_append, wordBits_length, valuesBits_length, htl]
      have hmap : (vals.take n).map (fun v => v % 2 ^ w)
          = (vals.take n).map (fun v => v % 2 ^ 30) :=
        List.map_congr_left hmod
      rw [hmap, ← List.map_append, List.take_append_drop]
      congr 3
      omega

/-! ## Delta arrays and increasing arrays -/

/-- What `write_delta_array` appends: the gamma code of the count, then the blocks. -/
theorem write_delta_array_eq (s : obitstream) (v : List Nat) (h1 : 1 ≤ v.length)
    (h32 : v.length < 2 ^ 32) :
    write_delta_array s v
      = .ok (write_bits s (gammaBits v.length ++ pack_bits v.length (kStartWidth : Int) v)) := by
  have hm : v.length % 4294967296 = v.length := Nat.mod_eq_of_lt (by norm_num at h32 ⊢; omega)
  rw [write_delta_array, hm, write_gamma_eq s v.length h1 h32]
  simp only [compress_eq, write_bits_append]

/-- The function `read_delta_array` on data that hold an encoded array. -/
theorem read_delta_array_holds (data : List Nat) (p : Nat) (v : List Nat) (tail : List Bool)
    (h1 : 1 ≤ v.length) (h32 : v.length < 2 ^ 32)
    (h : Holds data p
      (gammaBits v.length ++ (pack_bits v.length (kStartWidth : Int) v ++ tail))) :
    read_delta_array (reader_at data p)
      = .ok (v.map (fun x => x % 2 ^ 30),
          reader_at data (p + ((gammaBits v.length).length
            + (pack_bits v.length (kStartWidth : Int) v).length))) := by
  rw [read_delta_array, read_gamma_holds data p v.length _ h1 h32 h]
  have h2 := (holds_append data p (gammaBits v.length) _ h).2
  have := read_delta_loop_pack data tail v.length v (kStartWidth : Int)
    (p + (gammaBits v.length).length) (le_refl _) (by simp [kStartWidth]) h2
  simp only [kStartWidth, Int.toNat_ofNat] at this ⊢
  rw [this, Nat.add_assoc]

theorem written_buffer_pos (s : obitstream) (bs : List Bool) (h : Written s bs) :
    0 < s.m_buffer.length := by
  rw [h.1]; omega

/-- The run of the delta-array tests returns the input with every value reduced modulo
`2 ^ 30`, for every input whose length is a positive `uint32_t`. -/
theorem delta_round_trip_eq (v : List Nat) (h1 : 1 ≤ v.length) (h32 : v.length < 2 ^ 32) :
    delta_round_trip v = .ok (v.map (fun x => x % 2 ^ 30)) := by
  obtain ⟨B, hB⟩ : ∃ B, B = gammaBits v.length ++ pack_bits v.length (kStartWidth : Int) v :=
    ⟨_, rfl⟩
  have hw := written_bits B
  have hs := sync_eq _ B hw
  obtain ⟨pad, hpad⟩ : ∃ pad, pad = false :: List.replicate (7 - B.length % 8) true := ⟨_, rfl⟩
  rw [← hpad] at hs
  have hw2 := written_write_bits pad _ B hw
  have hh : Holds (write_bits (write_bits (obitstream.new []) B) pad).m_buffer 0
      (gammaBits v.length ++ (pack_bits v.length (kStartWidth : Int) v ++ pad)) := by
    have := written_holds _ [] (B ++ pad) [] (by simpa using hw2)
    simpa [hB] using this
  have hr := read_delta_array_holds _ 0 v pad h1 h32 hh
  rw [delta_round_trip, write_delta_array_eq _ v h1 h32, ← hB]
  simp only [hs, obitstream.data, new_reader _ (written_buffer_pos _ _ hw2), hr]

theorem write_array_loop_eq :
    ∀ (rest : List Nat) (last : Nat) (acc : List Nat), List.Chain (fun a b => a < b) last rest →
      (∀ x ∈ rest, x < 2 ^ 32) →
      write_array_loop rest last acc = .ok (acc ++ gaps last rest) := by
  intro rest
  induction rest with
  | nil => intro last acc _ _; simp [write_array_loop, gaps]
  | cons v rest ih =>
    intro last acc hc hb
    rw [List.chain_cons] at hc
    have hv : v < 2 ^ 32 := hb v (List.mem_cons_self _ _)
    have hu : u32 ((v : Int) - (last : Int) - 1) = v - last - 1 := by
      have := hc.1
      simp only [u32]; norm_num at hv; omega
    have hcond : ¬ ¬ (v > last ∨ last = 4294967295) := by
      have := hc.1; omega
    rw [write_array_loop, if_neg hcond, hu,
      ih v _ hc.2 (fun x hx => hb x (List.mem_cons_of_mem _ hx)), gaps]
    simp

theorem read_array_loop_eq :
    ∀ (rest : List Nat) (last : Nat), List.Chain (fun a b => a < b) last rest →
      (∀ x ∈ rest, x < 2 ^ 32) → read_array_loop (gaps last rest) last = rest := by
  intro rest
  induction rest with
  | nil => intro last _ _; rfl
  | cons v rest ih =>
    intro last hc hb
    rw [List.chain_cons] at hc
    have hv : v < 2 ^ 32 := hb v (List.mem_cons_self _ _)
    have hval : (v - last - 1 + last + 1) % 4294967296 = v := by
      have := hc.1
      norm_num at hv
      omega
    rw [gaps, read_array_loop]
    simp only [hval]
    rw [ih v hc.2 (fun x hx => hb x (List.mem_cons_of_mem _ hx))]

theorem gaps_length (rest : List Nat) : ∀ last, (gaps last rest).length = rest.length := by
  induction rest with
  | nil => intro last; rfl
  | cons v rest ih => intro last; simp [gaps, ih]

/-- The deltas `write_array` hands to `write_delta_array` for an increasing vector. -/
theorem write_array_eq (s : obitstream) (v0 : Nat) (rest : List Nat) (h0 : v0 < 2 ^ 32)
    (hc : List.Chain (fun a b => a < b) v0 rest) (hb : ∀ x ∈ rest, x < 2 ^ 32) :
    write_array s (v0 :: rest) = write_delta_array s (v0 :: gaps v0 rest) := by
  have hu : u32 ((v0 : Int) - ((4294967295 : Nat) : Int) - 1) = v0 := by
    simp only [u32]; norm_num at h0; omega
  have hcond : ¬ ¬ (v0 > 4294967295 ∨ (4294967295 : Nat) = 4294967295) := by simp
  simp only [write_array, List.isEmpty_cons, Bool.false_eq_true, not_false_eq_true, if_true]
  rw [write_array_loop, if_neg hcond, hu, write_array_loop_eq rest v0 _ hc hb]
  simp

/-- The run of the increasing-array tests returns its input whenever the vector is strictly
increasing, its first element and the gaps minus one are below `2 ^ 30`, and its length is
a `uint32_t`. -/
theorem array_round_trip_eq (v0 : Nat) (rest : List Nat)
    (hc : List.Chain (fun a b => a < b) v0 rest) (hb : ∀ x ∈ v0 :: rest, x < 2 ^ 32)
    (hg : ∀ d ∈ v0 :: gaps v0 rest, d < 2 ^ 30) (hlen : (v0 :: rest).length < 2 ^ 32) :
    array_round_trip (v0 :: rest) = .ok (v0 :: rest) := by
  have h0 : v0 < 2 ^ 32 := hb v0 (List.mem_cons_self _ _)
  have hl1 : 1 ≤ (v0 :: gaps v0 rest).length := by simp
  have hl2 : (v0 :: gaps v0 rest).length < 2 ^ 32 := by
    simpa [gaps_length] using hlen
  have hrt := delta_round_trip_eq (v0 :: gaps v0 rest) hl1 hl2
  have hmap : (v0 :: gaps v0 rest).map (fun x => x % 2 ^ 30) = v0 :: gaps v0 rest := by
    conv_rhs => rw [← List.map_id (v0 :: gaps v0 rest)]
    apply List.map_congr_left
    intro d hd
    exact Nat.mod_eq_of_lt (hg d hd)
  rw [hmap] at hrt
  have hfirst : read_array_loop (v0 :: gaps v0 rest) 4294967295 = v0 :: rest := by
    have hval : (v0 + 4294967295 + 1) % 4294967296 = v0 := by
      norm_num at h0; omega
    rw [read_array_loop]
    simp only [hval]
    rw [read_array_loop_eq rest v0 hc (fun x hx => hb x (List.mem_cons_of_mem _ hx))]
  rw [array_round_trip, write_array_eq _ v0 rest h0 hc
    (fun x hx => hb x (List.mem_cons_of_mem _ hx))]
  rw [delta_round_trip] at hrt
  revert hrt
  cases write_delta_array (obitstream.new []) (v0 :: gaps v0 rest) with
  | error e => intro hrt; simp at hrt
  | ok obs =>
    simp only
    cases sync obs with
    | error e => intro hrt; simp at hrt
    | ok obs1 =>
      simp only
      cases ibitstream.new obs1.data with
      | error e => intro hrt; simp at hrt
      | ok ibs =>
        simp only [read_array]
        cases read_delta_array ibs with
        | error e => intro hrt; simp at hrt
        | ok x =>
          obtain ⟨t2, r⟩ := x
          intro hrt
          simp only [Except.ok.injEq] at hrt
          simp only [hrt, hfirst]

theorem chain_length_bound (N : Nat) :
    ∀ (rest : List Nat) (a : Nat), List.Chain (fun a b => a < b) a rest →
      (∀ x ∈ a :: rest, x < N) → a + rest.length < N := by
  intro rest
  induction rest with
  | nil => intro a _ hb; simpa using hb a (List.mem_cons_self _ _)
  | cons b rest ih =>
    intro a hc hb
    rw [List.chain_cons] at hc
    have := ih b hc.2 (fun x hx => hb x (List.mem_cons_of_mem _ hx))
    simp only [List.length_cons]
    omega

theorem gaps_lt (N : Nat) :
    ∀ (rest : List Nat) (a : Nat), (∀ x ∈ rest, x < N) → ∀ d ∈ gaps a rest, d < N := by
  intro rest
  induction rest with
  | nil => intro a _ d hd; simp [gaps] at hd
  | cons b rest ih =>
    intro a hb d hd
    simp only [gaps, List.mem_cons] at hd
    rcases hd with hd | hd
    · have := hb b (List.mem_cons_self _ _); omega
    · exact ih b (fun x hx => hb x (List.mem_cons_of_mem _ hx)) d hd

/-! ## Streams around a code word, binary codes -/

theorem skip_bits_reader_at (data : List Nat) :
    ∀ (k p : Nat), (p + k) / 8 < data.length →
      skip_bits k (reader_at data p) = .ok (reader_at data (p + k)) := by
  intro k
  induction k with
  | zero => intro p _; rfl
  | succ k ih =>
    intro p h
    have hr := read_reader_at data p 1 (by norm_num) (by omega)
    have hr1 : read (reader_at data p) (1 : Int)
        = .ok (valBits data p 1, reader_at data (p + 1)) := hr
    rw [skip_bits, read_bool, hr1]
    simp only
    rw [ih (p + 1) (by rw [Nat.add_assoc, Nat.add_comm 1 k]; exact h), Nat.add_assoc,
      Nat.add_comm 1 k]

theorem pairsBits_length_cons (w v : Nat) (rest : List (Nat × Nat)) :
    (pairsBits ((w, v) :: rest)).length = w + (pairsBits rest).length := by
  simp [pairsBits, wordBits_length]

theorem write_binaries_eq :
    ∀ (pairs : List (Nat × Nat)) (s : obitstream),
      (∀ q ∈ pairs, 1 ≤ q.1 ∧ q.1 ≤ 32 ∧ q.2 < 2 ^ q.1) →
      write_binaries s pairs = .ok (write_bits s (pairsBits pairs)) := by
  intro pairs
  induction pairs with
  | nil => intro s _; rfl
  | cons q rest ih =>
    intro s h
    obtain ⟨w, v⟩ := q
    have hq := h (w, v) (List.mem_cons_self _ _)
    simp only at hq
    have c1 : ¬ ¬ w ≤ 64 := by omega
    have c2 : ¬ ¬ w > 0 := by omega
    rw [write_binaries, write_binary, if_neg c1, if_neg c2, write_binary_loop_eq]
    simp only
    rw [ih _ (fun q hq => h q (List.mem_cons_of_mem _ hq)), pairsBits, write_bits_append]

theorem read_binaries_holds (data : List Nat) (tail : List Bool) :
    ∀ (pairs : List (Nat × Nat)) (p : Nat),
      (∀ q ∈ pairs, 1 ≤ q.1 ∧ q.1 ≤ 32 ∧ q.2 < 2 ^ q.1) →
      Holds data p (pairsBits pairs ++ tail) →
      read_binaries (reader_at data p) (pairs.map Prod.fst)
        = .ok (pairs.map Prod.snd, reader_at data (p + (pairsBits pairs).length)) := by
  intro pairs
  induction pairs with
  | nil => intro p _ _; rfl
  | cons q rest ih =>
    intro p h hh
    obtain ⟨w, v⟩ := q
    have hq := h (w, v) (List.mem_cons_self _ _)
    simp only at hq
    have c1 : ¬ ¬ w ≤ 32 := by omega
    have c2 : ¬ ¬ w > 0 := by omega
    simp only [pairsBits, List.append_assoc] at hh
    have hr := read_holds data p (wordBits v w) _ hh (by rw [wordBits_length]; omega)
    rw [wordBits_length, bitsVal_wordBits, Nat.mod_eq_of_lt hq.2.2] at hr
    have h2 := (holds_append data p (wordBits v w) _ hh).2
    rw [wordBits_length] at h2
    simp only [List.map_cons]
    rw [read_binaries, read_binary, if_neg c1, if_neg c2, hr]
    simp only
    rw [ih (p + w) (fun q hq => h q (List.mem_cons_of_mem _ hq)) h2, pairsBits_length_cons,
      Nat.add_assoc]

/-- The loop of `write_array` stops at its assertion at the latest at a descent `b ≤ a`
that follows an element `a` other than `2 ^ 32 - 1`. -/
theorem write_array_loop_descent :
    ∀ (pre : List Nat) (a b : Nat) (post : List Nat) (last : Nat) (acc : List Nat),
      b ≤ a → a ≠ 4294967295 →
      write_array_loop (pre ++ a :: b :: post) last acc = .error .assertion := by
  intro pre
  induction pre with
  | nil =>
    intro a b post last acc hba ha
    simp only [List.nil_append]
    rw [write_array_loop]
    split
    · rfl
    · rw [write_array_loop]
      have : ¬ (b > a ∨ a = 4294967295) := by omega
      rw [if_pos this]
  | cons x pre ih =>
    intro a b post last acc hba ha
    simp only [List.cons_append]
    rw [write_array_loop]
    split
    · rfl
    · exact ih a b post x _ hba ha

/-- The assertion of `write_array` fires on every vector with a descent `b ≤ a` right after
an element `a` other than `2 ^ 32 - 1`. -/
theorem write_array_rejects_descent (s : obitstream) (pre : List Nat) (a b : Nat)
    (post : List Nat) (hba : b ≤ a) (ha : a ≠ 4294967295) :
    write_array s (pre ++ a :: b :: post) = .error .assertion := by
  have hne : (pre ++ a :: b :: post).isEmpty = false := by
    cases pre <;> rfl
  simp only [write_array, hne, Bool.false_eq_true, not_false_eq_true, if_true,
    write_array_loop_descent pre a b post _ _ hba ha]

/-! ## The claims -/

/-- C1 (as amended). Delta-array round trip: for every non-empty sequence `v` of fewer than
`2 ^ 32` values, each below `2 ^ 30`, the stream written by `write_delta_array` into a
fresh `obitstream` and closed by `sync` is decoded by `read_delta_array` to exactly `v`. -/
theorem delta_round_trip_ok (v : List Nat) (hne : v ≠ []) (hlen : v.length < 2 ^ 32)
    (hv : ∀ x ∈ v, x < 2 ^ 30) : delta_round_trip v = .ok v := by
  have h1 : 1 ≤ v.length := by
    cases v with
    | nil => exact absurd rfl hne
    | cons a l => simp
  rw [delta_round_trip_eq v h1 hlen]
  congr 1
  conv_rhs => rw [← List.map_id v]
  apply List.map_congr_left
  intro x hx
  exact Nat.mod_eq_of_lt (hv x hx)

/-- Witness for C1 (as amended): the vector of `test_1`. -/
theorem delta_round_trip_ok_witness :
    ([1, 2, 3, 3, 2, 1] : List Nat) ≠ [] ∧ ([1, 2, 3, 3, 2, 1] : List Nat).length < 2 ^ 32 ∧
      (∀ x ∈ ([1, 2, 3, 3, 2, 1] : List Nat), x < 2 ^ 30) ∧
      delta_round_trip [1, 2, 3, 3, 2, 1] = .ok [1, 2, 3, 3, 2, 1] :=
  ⟨by decide, by decide, by decide,
    delta_round_trip_ok [1, 2, 3, 3, 2, 1] (by decide) (by decide) (by decide)⟩

/-- A vector whose length is a multiple of `2 ^ 32` has the `uint32_t` count 0, which
`write_gamma` rejects. -/
theorem delta_round_trip_replicate (n : Nat) (h : n % 4294967296 = 0) :
    delta_round_trip (List.replicate n 0) = .error .assertion := by
  simp only [delta_round_trip, write_delta_array, List.length_replicate, h,
    write_gamma, gt_iff_lt, Nat.lt_irrefl, not_false_eq_true, if_true]

theorem delta_round_trip_replicate_ne (n : Nat) (h : n % 4294967296 = 0) :
    delta_round_trip (List.replicate n 0) ≠ .ok (List.replicate n 0) := by
  intro hc
  rw [delta_round_trip_replicate n h] at hc
  cases hc

theorem replicate_facts (n : Nat) (h : n ≠ 0) :
    List.replicate n 0 ≠ [] ∧ (∀ x ∈ List.replicate n 0, x < 2 ^ 30) := by
  constructor
  · intro hc
    have := congrArg List.length hc
    rw [List.length_replicate, List.length_nil] at this
    exact h this
  · intro x hx
    rw [List.eq_of_mem_replicate hx]
    exact Nat.two_pow_pos 30

/-- Counterexample to C1 as stated: a vector of `2 ^ 32` zeros is non-empty with every value
below `2 ^ 30`, but its count converts to the `uint32_t` 0 and `write_gamma` rejects it, so
the run yields no sequence at all. -/
theorem delta_round_trip_count_wraps :
    List.replicate 4294967296 0 ≠ [] ∧ (∀ x ∈ List.replicate 4294967296 0, x < 2 ^ 30) ∧
      delta_round_trip (List.replicate 4294967296 0) = .error .assertion ∧
      delta_round_trip (List.replicate 4294967296 0) ≠ .ok (List.replicate 4294967296 0) :=
  ⟨(replicate_facts 4294967296 (Nat.succ_ne_zero _)).1,
    (replicate_facts 4294967296 (Nat.succ_ne_zero _)).2,
    delta_round_trip_replicate 4294967296 (Nat.mod_self _),
    delta_round_trip_replicate_ne 4294967296 (Nat.mod_self _)⟩

/-- C2. Monotonic-array round trip: for every non-empty strictly increasing sequence `v` of
values below `2 ^ 30` (it may start at 0), the stream written by `write_array` into a fresh
`obitstream` and closed by `sync` is decoded by `read_array` to exactly `v`. -/
theorem array_round_trip_ok (v : List Nat) (hne : v ≠ [])
    (hinc : List.Chain' (fun a b => a < b) v) (hv : ∀ x ∈ v, x < 2 ^ 30) :
    array_round_trip v = .ok v := by
  cases v with
  | nil => exact absurd rfl hne
  | cons v0 rest =>
    have hc : List.Chain (fun a b => a < b) v0 rest := hinc
    have hlen := chain_length_bound (2 ^ 30) rest v0 hc hv
    apply array_round_trip_eq v0 rest hc
    · intro x hx
      have := hv x hx
      norm_num at this ⊢
      omega
    · intro d hd
      rw [List.mem_cons] at hd
      rcases hd with hd | hd
      · rw [hd]; exact hv v0 (List.mem_cons_self _ _)
      · exact gaps_lt (2 ^ 30) rest v0 (fun x hx => hv x (List.mem_cons_of_mem _ hx)) d hd
    · simp only [List.length_cons]
      norm_num at hlen ⊢
      omega

/-- Witness for C2: the vector of `test_7`. -/
theorem array_round_trip_ok_witness :
    ([0, 2, 4, 10, 11, 125, 32767, 32768, 32769] : List Nat) ≠ [] ∧
      List.Chain' (fun a b => a < b) ([0, 2, 4, 10, 11, 125, 32767, 32768, 32769] : List Nat) ∧
      (∀ x ∈ ([0, 2, 4, 10, 11, 125, 32767, 32768, 32769] : List Nat), x < 2 ^ 30) ∧
      array_round_trip [0, 2, 4, 10, 11, 125, 32767, 32768, 32769]
        = .ok [0, 2, 4, 10, 11, 125, 32767, 32768, 32769] :=
  ⟨by decide, by simp, by decide,
    array_round_trip_ok [0, 2, 4, 10, 11, 125, 32767, 32768, 32769]
      (by decide) (by simp) (by decide)⟩

/-- C3. Gamma round trip: for every `uint32_t` value `v ≥ 1` (up to `2 ^ 32 - 1`), whatever
bits precede and follow the code word of `write_gamma(v)` in the stream, `read_gamma`
started at the bit offset where the code word begins returns `v`. -/
theorem gamma_round_trip_ok (pre : List Bool) (v : Nat) (post : List Bool) (h1 : 1 ≤ v)
    (h32 : v < 2 ^ 32) : gamma_round_trip pre v post = .ok v := by
  have hw := written_write_bits post _ _
    (written_write_bits (gammaBits v) _ _ (written_bits pre))
  have hh := written_holds _ pre (gammaBits v ++ post) [] (by simpa using hw)
  have hpos := written_buffer_pos _ _ hw
  have hskip := skip_bits_reader_at
    (write_bits (write_bits (write_bits (obitstream.new []) pre) (gammaBits v)) post).m_buffer
    pre.length 0 (by have := hh.1; simp only [Nat.zero_add]; omega)
  rw [Nat.zero_add] at hskip
  rw [gamma_round_trip, write_gamma_eq _ v h1 h32]
  simp only [obitstream.data, new_reader _ hpos, hskip,
    read_gamma_holds _ pre.length v post h1 h32 hh]

/-- Witness for C3: the value `2 ^ 30 - 1` written at bit offset 3. -/
theorem gamma_round_trip_ok_witness :
    1 ≤ 1073741823 ∧ 1073741823 < 2 ^ 32 ∧
      gamma_round_trip [true, false, true] 1073741823 [true] = .ok 1073741823 :=
  ⟨by decide, by decide,
    gamma_round_trip_ok [true, false, true] 1073741823 [true] (by decide) (by decide)⟩

/-- C4. Fixed-width binary round trip: for every list of pairs `(width, value)` with
`1 ≤ width ≤ 32` and `value < 2 ^ width`, writing the pairs in order with `write_binary`
into a fresh `obitstream` and reading with `read_binary` at the same widths in the same
order returns the values in order, wherever the byte boundaries fall. -/
theorem binary_round_trip_ok (pairs : List (Nat × Nat))
    (h : ∀ q ∈ pairs, 1 ≤ q.1 ∧ q.1 ≤ 32 ∧ q.2 < 2 ^ q.1) :
    binary_round_trip pairs = .ok (pairs.map Prod.snd) := by
  have hw := written_bits (pairsBits pairs)
  have hh := written_holds _ [] (pairsBits pairs ++ []) [] (by simpa using hw)
  have hpos := written_buffer_pos _ _ hw
  rw [binary_round_trip, write_binaries_eq pairs _ h]
  simp only [obitstream.data, new_reader _ hpos]
  have := read_binaries_holds _ [] pairs 0 h hh
  simp only [List.length_nil] at this
  rw [this]

/-- Witness for C4: widths 3, 32, 7 and 1, the 32-bit value straddling five bytes. -/
theorem binary_round_trip_ok_witness :
    (∀ q ∈ ([(3, 5), (32, 4294967295), (7, 100), (1, 1)] : List (Nat × Nat)),
        1 ≤ q.1 ∧ q.1 ≤ 32 ∧ q.2 < 2 ^ q.1) ∧
      binary_round_trip [(3, 5), (32, 4294967295), (7, 100), (1, 1)]
        = .ok [5, 4294967295, 100, 1] :=
  ⟨by decide, binary_round_trip_ok [(3, 5), (32, 4294967295), (7, 100), (1, 1)] (by decide)⟩

/-- C5. Byte-boundary invariant of `sync`: after any sequence of writes totalling `k` bits
into a fresh `obitstream`, `sync` appends exactly `8 - k % 8` bits, a single 0 bit followed
by `7 - k % 8` one-bits; afterwards the number of bits written is a multiple of 8 and the
bit cursor is 7. -/
theorem sync_pads_to_byte (ops : List WOp) :
    sync (run_ops (obitstream.new []) ops)
        = .ok (write_bits (run_ops (obitstream.new []) ops)
            (false :: List.replicate (7 - (ops_bits ops).length % 8) true)) ∧
      (false :: List.replicate (7 - (ops_bits ops).length % 8) true).length
        = 8 - (ops_bits ops).length % 8 ∧
      Written (write_bits (run_ops (obitstream.new []) ops)
          (false :: List.replicate (7 - (ops_bits ops).length % 8) true))
        (ops_bits ops ++ false :: List.replicate (7 - (ops_bits ops).length % 8) true) ∧
      (ops_bits ops ++ false :: List.replicate (7 - (ops_bits ops).length % 8) true).length % 8
        = 0 ∧
      (write_bits (run_ops (obitstream.new []) ops)
          (false :: List.replicate (7 - (ops_bits ops).length % 8) true)).m_bitOffset = 7 := by
  have hw : Written (run_ops (obitstream.new []) ops) (ops_bits ops) := by
    rw [run_ops_eq]; exact written_bits _
  have hw2 := written_write_bits
    (false :: List.replicate (7 - (ops_bits ops).length % 8) true) _ _ hw
  have hlen : (ops_bits ops ++ false :: List.replicate (7 - (ops_bits ops).length % 8) true).length
      % 8 = 0 := by
    simp only [List.length_append, List.length_cons, List.length_replicate]
    omega
  refine ⟨sync_eq _ _ hw, ?_, hw2, hlen, ?_⟩
  · simp only [List.length_cons, List.length_replicate]; omega
  · rw [hw2.2.1, hlen]; rfl

/-- C6 (the code at the failing input). The empty sequence does not round-trip: for an empty
vector `write_delta_array` calls `write_gamma(0)`, whose assertion fails, and so does
`write_array`, which hands its empty `deltas` to `write_delta_array`. -/
theorem delta_round_trip_empty :
    delta_round_trip [] = .error .assertion ∧ array_round_trip [] = .error .assertion ∧
      ∀ s : obitstream, write_delta_array s [] = .error .assertion := by
  refine ⟨rfl, rfl, ?_⟩
  intro s
  rfl

/-- C7. Gamma-encoding zero fails: on every stream `write_gamma` applied to 0 stops at its
assertion; it neither loops nor returns a stream. -/
theorem write_gamma_zero (s : obitstream) : write_gamma s 0 = .error .assertion := rfl

set_option maxRecDepth 100000 in
/-- C8 (the code at the failing input). After an element equal to `2 ^ 32 - 1` the assertion
of `write_array` does not fire: the vectors `[4294967295, 5]` (a descent) and
`[4294967295, 4294967295]` (a duplicate) are not strictly increasing, yet they are written,
and `read_array` decodes the streams to different sequences. -/
theorem write_array_sentinel_collision :
    array_round_trip [4294967295, 5] = .ok [1073741823, 1073741829] ∧
      array_round_trip [4294967295, 4294967295] = .ok [1073741823, 2147483647] := by
  decide

/-- C9. Writer byte layout: after writing the bits `b_0 .. b_(k-1)` through any mix of
`write_bit` and `write` into a fresh `obitstream` over an empty buffer, the buffer holds
`k / 8 + 1` bytes, the bit cursor is `7 - k % 8`, bit `b_i` is at bit position `7 - i % 8`
of byte `i / 8`, and every other bit of the buffer is 0. -/
theorem writer_byte_layout (ops : List WOp) :
    (run_ops (obitstream.new []) ops).m_buffer.length = (ops_bits ops).length / 8 + 1 ∧
      (run_ops (obitstream.new []) ops).m_bitOffset
        = 7 - (((ops_bits ops).length % 8 : Nat) : Int) ∧
      (∀ i, i < (ops_bits ops).length →
        ((run_ops (obitstream.new []) ops).m_buffer.getD (i / 8) 0).testBit (7 - i % 8)
          = (ops_bits ops).getD i false) ∧
      (∀ j q, (8 ≤ q ∨ (ops_bits ops).length ≤ 8 * j + (7 - q)) →
        ((run_ops (obitstream.new []) ops).m_buffer.getD j 0).testBit q = false) := by
  have hw : Written (run_ops (obitstream.new []) ops) (ops_bits ops) := by
    rw [run_ops_eq]; exact written_bits _
  obtain ⟨h1, h2, h3, h4⟩ := hw
  refine ⟨h1, h2, fun i _ => h3 i, ?_⟩
  intro j q hq
  by_cases h8 : 8 ≤ q
  · apply Nat.testBit_lt_two_pow
    calc (run_ops (obitstream.new []) ops).m_buffer.getD j 0 < 256 := h4 j
      _ = 2 ^ 8 := by norm_num
      _ ≤ 2 ^ q := Nat.pow_le_pow_right (by norm_num) h8
  · have hk : (ops_bits ops).length ≤ 8 * j + (7 - q) := by omega
    have := h3 (8 * j + (7 - q))
    rw [List.getD_eq_default _ _ hk] at this
    simp only [bitAt] at this
    have e1 : (8 * j + (7 - q)) / 8 = j := by omega
    have e2 : 7 - (8 * j + (7 - q)) % 8 = q := by omega
    rw [e1, e2] at this
    exact this

/-- C10. Gamma code word format: for every `uint32_t` value `v ≥ 1` with
`e = floor(log2(v))`, `write_gamma(v)` appends exactly `2 * e + 1` bits to the stream:
`e` one-bits, one zero-bit, then the low `e` bits of `v`, most significant first. -/
theorem write_gamma_code_word (s : obitstream) (v : Nat) (h1 : 1 ≤ v) (h32 : v < 2 ^ 32) :
    write_gamma s v
        = .ok (write_bits s
            (List.replicate (Nat.log2 v) true ++ false :: wordBits v (Nat.log2 v))) ∧
      (List.replicate (Nat.log2 v) true ++ false :: wordBits v (Nat.log2 v)).length
        = 2 * Nat.log2 v + 1 :=
  ⟨write_gamma_eq s v h1 h32, gammaBits_length v⟩

/-- Witness for C10: the value 5 on a fresh stream. -/
theorem write_gamma_code_word_witness :
    1 ≤ 5 ∧ 5 < 2 ^ 32 ∧
      write_gamma (obitstream.new []) 5
        = .ok (write_bits (obitstream.new [])
            (List.replicate (Nat.log2 5) true ++ false :: wordBits 5 (Nat.log2 5))) ∧
      (List.replicate (Nat.log2 5) true ++ false :: wordBits 5 (Nat.log2 5)).length
        = 2 * Nat.log2 5 + 1 :=
  ⟨by decide, by decide, write_gamma_code_word (obitstream.new []) 5 (by decide) (by decide)⟩

/-! ## The record of the packer -/

/-- Dropping the record from `compress_loop_log` gives `compress_loop`. -/
theorem compress_loop_log_erase :
    ∀ (fuel : Nat) (bits : obitstream) (width : Int) (dv : List Nat) (bn : List Int)
      (a : List Nat),
      (match compress_loop_log fuel bits width dv bn a with
        | .ok (bits1, _) => Except.ok bits1
        | .error err => Except.error err)
        = compress_loop fuel bits width dv bn a := by
  intro fuel
  induction fuel with
  | zero =>
    intro bits width dv bn a
    rw [compress_loop_log, compress_loop]
    by_cases hc : a ≠ [] ∨ dv.length > 0
    · rw [if_pos hc, if_pos hc]
    · rw [if_neg hc, if_neg hc]
  | succ fuel ih =>
    intro bits width dv bn a
    rw [compress_loop_log, compress_loop]
    by_cases hc : a ≠ [] ∨ dv.length > 0
    · rw [if_pos hc, if_pos hc]
      simp only
      rw [← ih]
      cases compress_loop_log fuel _ _ _ _ _ with
      | error e => rfl
      | ok x => rfl
    · rw [if_neg hc, if_neg hc]

/-- The packer with the record appends the blocks of `pack_bits` and records `blocks`. -/
theorem compress_loop_log_eq :
    ∀ (fuel : Nat) (bits : obitstream) (width : Int) (dv : List Nat) (bn : List Int)
      (a : List Nat), (dv ++ a).length ≤ fuel → dv.length ≤ 4 →
      bn = dv.map (fun x => (bit_width x : Int)) → 0 ≤ width ∧ width ≤ 30 →
      compress_loop_log fuel bits width dv bn a
        = .ok (write_bits bits (pack_bits fuel width (dv ++ a)), blocks fuel width (dv ++ a)) := by
  intro fuel
  induction fuel with
  | zero =>
    intro bits width dv bn a hf _ _ _
    have hnil : dv ++ a = [] := List.eq_nil_of_length_eq_zero (by omega)
    have h1 : dv = [] := (List.append_eq_nil.1 hnil).1
    have h2 : a = [] := (List.append_eq_nil.1 hnil).2
    subst h1 h2
    simp [compress_loop_log, pack_bits, blocks, write_bits]
  | succ fuel ih =>
    intro bits width dv bn a hf hl hbn hw
    rw [compress_loop_log, pack_bits, blocks]
    by_cases hnil : dv ++ a = []
    · have h1 : dv = [] := (List.append_eq_nil.1 hnil).1
      have h2 : a = [] := (List.append_eq_nil.1 hnil).2
      subst h1 h2
      simp [write_bits]
    · have hcond : a ≠ [] ∨ dv.length > 0 := by
        by_contra hc
        push_neg at hc
        apply hnil
        rw [hc.1, List.append_nil]
        exact List.eq_nil_of_length_eq_zero (by omega)
      rw [if_pos hcond, if_neg hnil, if_neg hnil, refill_eq a dv bn hl hbn]
      simp only
      obtain ⟨hs16, hn1, hn4, hnl, hw0, hw30, _⟩ := pick_props width (dv ++ a) hnil hw
      have e1 : (search width (((dv ++ a).take 4).map fun x => (bit_width x : Int))
          ((dv ++ a).take 4).length).1 = pick width (dv ++ a) := rfl
      have e2 : ∀ s, (if s = 0 then (kMaxWidth : Int) else width + (kSel s).databits)
          = next_width width s := fun _ => rfl
      simp only [e1, e2]
      clear e1 e2
      generalize hs : pick width (dv ++ a) = s at *
      generalize hw1 : next_width width s = w1 at *
      generalize hvals : dv ++ a = vals at *
      have hbits2 : (if w1 > 0 then
            write_values (write bits s 4) (vals.take 4) w1 (kSel s).span 0
          else write bits s 4)
          = write_bits (write_bits bits (wordBits s 4))
              (valuesBits w1.toNat (vals.take (kSel s).span)) := by
        rw [write_eq_write_bits]
        split
        · rw [write_values_eq _ _ _ _ _ (by simp only [List.length_take]; omega),
            List.drop_zero, List.take_take, Nat.min_eq_left hn4]
        · have : w1.toNat = 0 := by omega
          rw [this, valuesBits_nil_width]; rfl
      rw [hbits2, ih _ _ _ _ _ (by
          rw [take_drop_four vals _ hn4, List.length_drop]; omega)
        (by simp only [List.length_drop, List.length_take]; omega)
        (by rw [List.map_drop]) ⟨hw0, hw30⟩,
        take_drop_four vals _ hn4, ← write_bits_append, ← write_bits_append, List.append_assoc]

theorem compress_log_eq (bits : obitstream) (arr : List Nat) :
    compress_simple_array_selector_log bits arr
      = .ok (write_bits bits (pack_bits arr.length (kStartWidth : Int) arr),
          blocks arr.length (kStartWidth : Int) arr) := by
  have := compress_loop_log_eq arr.length bits (kStartWidth : Int) [] [] arr (by simp) (by simp)
    (by simp) (by simp [kStartWidth])
  simpa [compress_simple_array_selector_log] using this

/-- The running width along the record of the packer. -/
theorem blocks_width_chain :
    ∀ (fuel : Nat) (width : Int) (vals : List Nat), 0 ≤ width ∧ width ≤ 30 →
      width_chain width (blocks fuel width vals) = true := by
  intro fuel
  induction fuel with
  | zero => intro width vals _; rfl
  | succ fuel ih =>
    intro width vals hw
    rw [blocks]
    by_cases hnil : vals = []
    · rw [if_pos hnil]; rfl
    · rw [if_neg hnil]
      obtain ⟨_, _, _, _, hw0, hw30, _⟩ := pick_props width vals hnil hw
      rw [width_chain, ih _ _ ⟨hw0, hw30⟩]
      have h1 : (next_width width (pick width vals)
          = if pick width vals = 0 then (kMaxWidth : Int)
            else width + (kSel (pick width vals)).databits) := rfl
      have h2 : next_width width (pick width vals) ≤ (kMaxWidth : Int) := by
        simpa [kMaxWidth] using hw30
      simp only [h1.symm, decide_True, hw0, h2, Bool.and_self]

/-- Every pass of the record takes at least one value and at most the buffered ones. -/
theorem blocks_spans :
    ∀ (fuel : Nat) (width : Int) (vals : List Nat), 0 ≤ width ∧ width ≤ 30 →
      ∀ b ∈ blocks fuel width vals,
        b.n = (kSel b.s).span ∧ 1 ≤ b.n ∧ b.n ≤ b.bc ∧ b.bc ≤ 4 := by
  intro fuel
  induction fuel with
  | zero => intro width vals _ b hb; simp [blocks] at hb
  | succ fuel ih =>
    intro width vals hw b hb
    rw [blocks] at hb
    by_cases hnil : vals = []
    · rw [if_pos hnil] at hb; simp at hb
    · rw [if_neg hnil] at hb
      obtain ⟨_, hn1, hn4, hnl, hw0, hw30, _⟩ := pick_props width vals hnil hw
      rw [List.mem_cons] at hb
      rcases hb with hb | hb
      · subst hb
        refine ⟨rfl, hn1, ?_, ?_⟩
        · show (kSel (pick width vals)).span ≤ (vals.take 4).length
          simp only [List.length_take]; omega
        · show (vals.take 4).length ≤ 4
          simp only [List.length_take]; omega
      · exact ih _ _ ⟨hw0, hw30⟩ b hb

/-- The spans of the record add up to the number of values. -/
theorem blocks_span_sum :
    ∀ (fuel : Nat) (width : Int) (vals : List Nat), vals.length ≤ fuel →
      0 ≤ width ∧ width ≤ 30 → span_sum (blocks fuel width vals) = vals.length := by
  intro fuel
  induction fuel with
  | zero =>
    intro width vals hf _
    have : vals = [] := List.eq_nil_of_length_eq_zero (by omega)
    subst this; rfl
  | succ fuel ih =>
    intro width vals hf hw
    rw [blocks]
    by_cases hnil : vals = []
    · subst hnil; rfl
    · rw [if_neg hnil]
      obtain ⟨_, hn1, hn4, hnl, hw0, hw30, _⟩ := pick_props width vals hnil hw
      rw [span_sum, ih _ _ (by rw [List.length_drop]; omega) ⟨hw0, hw30⟩, List.length_drop]
      show (kSel (pick width vals)).span + (vals.length - (kSel (pick width vals)).span)
        = vals.length
      omega

theorem span_sum_bounds (log : List block) (h : ∀ b ∈ log, 1 ≤ b.n ∧ b.n ≤ 4) :
    log.length ≤ span_sum log ∧ span_sum log ≤ 4 * log.length := by
  induction log with
  | nil => simp [span_sum]
  | cons b rest ih =>
    have hb := h b (List.mem_cons_self _ _)
    have := ih (fun c hc => h c (List.mem_cons_of_mem _ hc))
    simp only [span_sum, List.length_cons]
    omega

/-- A block takes at most 34 bits per value: 4 for the selector, at most 30 per value. -/
theorem pack_bits_length_le :
    ∀ (fuel : Nat) (width : Int) (vals : List Nat), 0 ≤ width ∧ width ≤ 30 →
      (pack_bits fuel width vals).length ≤ 34 * vals.length := by
  intro fuel
  induction fuel with
  | zero => intro width vals _; simp [pack_bits]
  | succ fuel ih =>
    intro width vals hw
    rw [pack_bits]
    by_cases hnil : vals = []
    · rw [if_pos hnil]; simp
    · rw [if_neg hnil]
      obtain ⟨_, hn1, hn4, hnl, hw0, hw30, _⟩ := pick_props width vals hnil hw
      have hrec := ih (next_width width (pick width vals))
        (vals.drop (kSel (pick width vals)).span) ⟨hw0, hw30⟩
      simp only [List.length_append, wordBits_length, valuesBits_length, List.length_take,
        List.length_drop] at hrec ⊢
      generalize (kSel (pick width vals)).span = n at *
      generalize hw1 : (next_width width (pick width vals)).toNat = w at *
      have hwle : w ≤ 30 := by omega
      have hmin : min n vals.length = n := Nat.min_eq_left hnl
      rw [hmin]
      have : w * n ≤ 30 * n := Nat.mul_le_mul_right _ hwle
      omega

/-! ## The record of the decoder -/

/-- Dropping the record from `read_delta_loop_log` gives `read_delta_loop`. -/
theorem read_delta_loop_log_erase :
    ∀ (k : Nat) (bits : ibitstream) (width span : Nat),
      (match read_delta_loop_log k bits width span with
        | .ok (vals, _, bits1) => Except.ok (vals, bits1)
        | .error err => Except.error err)
        = read_delta_loop k bits width span := by
  intro k
  induction k with
  | zero => intro bits width span; rfl
  | succ k ih =>
    intro bits width span
    rw [read_delta_loop_log, read_delta_loop]
    by_cases hs : span = 0
    · simp only [if_pos hs]
      cases read bits 4 with
      | error e => rfl
      | ok x =>
        obtain ⟨sel, bits1⟩ := x
        dsimp only
        generalize (if sel = 0 then kMaxWidth else u32 ((width : Int) + (kSel sel).databits))
          = wd
        generalize (if wd > 0 then read bits1 (i32 (wd : Int)) else Except.ok (0, bits1)) = val
        cases val with
        | error e => rfl
        | ok y =>
          obtain ⟨v, bits2⟩ := y
          dsimp only
          rw [← ih]
          cases read_delta_loop_log k bits2 wd (u32 (((kSel sel).span : Int) - 1)) with
          | error e => rfl
          | ok z => rfl
    · simp only [if_neg hs]
      generalize (if width > 0 then read bits (i32 (width : Int)) else Except.ok (0, bits)) = val
      cases val with
      | error e => rfl
      | ok y =>
        obtain ⟨v, bits2⟩ := y
        dsimp only
        rw [← ih]
        cases read_delta_loop_log k bits2 width (u32 ((span : Int) - 1)) with
        | error e => rfl
        | ok z => rfl

/-- Dropping the record from `read_delta_array_log` gives `read_delta_array`. -/
theorem read_delta_array_log_erase (bits : ibitstream) :
    (match read_delta_array_log bits with
      | .ok (vals, _, bits1) => Except.ok (vals, bits1)
      | .error err => Except.error err)
      = read_delta_array bits := by
  rw [read_delta_array_log, read_delta_array]
  cases read_gamma bits with
  | error e => rfl
  | ok x =>
    obtain ⟨size, bits1⟩ := x
    simp only
    exact read_delta_loop_log_erase size bits1 kStartWidth 0

/-- The decoder with the record inside a block: no selector is applied. -/
theorem read_delta_loop_log_block (data : List Nat) (w : Nat) (hw : w ≤ 30)
    (tail : List Bool) :
    ∀ (bvals : List Nat) (k p : Nat), bvals.length ≤ 4 →
      Holds data p (valuesBits w bvals ++ tail) →
      read_delta_loop_log (bvals.length + k) (reader_at data p) w bvals.length
        = match read_delta_loop_log k (reader_at data (p + w * bvals.length)) w 0 with
          | .ok (rest, ws, r) => .ok (bvals.map (fun v => v % 2 ^ w) ++ rest, ws, r)
          | .error err => .error err := by
  intro bvals
  induction bvals with
  | nil =>
    intro k p _ _
    simp only [List.length_nil, Nat.zero_add, Nat.mul_zero, Nat.add_zero, List.map_nil,
      List.nil_append]
    cases read_delta_loop_log k (reader_at data p) w 0 with
    | error e => rfl
    | ok x => rfl
  | cons v vs ih =>
    intro k p hl h
    simp only [List.length_cons] at hl ⊢
    have e1 : vs.length + 1 + k = (vs.length + k) + 1 := by omega
    rw [e1, read_delta_loop_log]
    have hspan : ¬ (vs.length + 1 = 0) := by omega
    simp only [if_neg hspan]
    have hu : u32 (((vs.length + 1 : Nat) : Int) - 1) = vs.length := by
      simp only [u32]; omega
    rw [hu]
    simp only [valuesBits, List.append_assoc] at h
    have h2 := (holds_append data p (wordBits v w) _ h).2
    rw [wordBits_length] at h2
    have hpos : p + w + w * vs.length = p + w * (vs.length + 1) := by ring
    by_cases hw0 : w > 0
    · have hr := read_holds data p (wordBits v w) _ h (by rw [wordBits_length]; omega)
      rw [wordBits_length, bitsVal_wordBits] at hr
      simp only [if_pos hw0, i32_small w hw, hr]
      rw [ih k (p + w) (by omega) h2, hpos]
      cases read_delta_loop_log k (reader_at data (p + w * (vs.length + 1))) w 0 with
      | error e => rfl
      | ok x => rfl
    · have hw00 : w = 0 := by omega
      subst hw00
      simp only [if_neg hw0]
      rw [Nat.add_zero] at h2
      rw [ih k p (by omega) h2]
      simp only [Nat.zero_mul, Nat.add_zero, pow_zero, Nat.mod_one, List.map_cons]
      cases read_delta_loop_log k (reader_at data p) 0 0 with
      | error e => rfl
      | ok x => rfl

/-- On the blocks of `pack_bits` the decoder applies the running widths of the packer. -/
theorem read_delta_loop_log_pack (data : List Nat) (tail : List Bool) :
    ∀ (fuel : Nat) (vals : List Nat) (width : Int) (p : Nat), vals.length ≤ fuel →
      0 ≤ width ∧ width ≤ 30 →
      Holds data p (pack_bits fuel width vals ++ tail) →
      read_delta_loop_log vals.length (reader_at data p) width.toNat 0
        = .ok (vals.map (fun v => v % 2 ^ 30),
            (blocks fuel width vals).map (fun b => b.width1.toNat),
            reader_at data (p + (pack_bits fuel width vals).length)) := by
  intro fuel
  induction fuel with
  | zero =>
    intro vals width p hf _ _
    have : vals = [] := List.eq_nil_of_length_eq_zero (by omega)
    subst this
    simp [read_delta_loop_log, pack_bits, blocks]
  | succ fuel ih =>
    intro vals width p hf hw h
    by_cases hnil : vals = []
    · subst hnil
      simp [read_delta_loop_log, pack_bits, blocks]
    · obtain ⟨hs16, hn1, hn4, hnl, hw0, hw30, hmod⟩ := pick_props width vals hnil hw
      rw [pack_bits, if_neg hnil] at h ⊢
      rw [blocks, if_neg hnil]
      generalize hs : pick width vals = s at *
      generalize hw1 : next_width width s = w1 at *
      generalize hn : (kSel s).span = n at *
      obtain ⟨w, hwe⟩ : ∃ w : Nat, w1 = (w : Int) := ⟨w1.toNat, by omega⟩
      subst hwe
      simp only [Int.toNat_ofNat, List.map_cons] at h hmod ⊢
      simp only [List.append_assoc] at h
      have hsel := read_holds data p (wordBits s 4) _ h (by rw [wordBits_length]; norm_num)
      rw [wordBits_length, bitsVal_wordBits] at hsel
      have hs4 : s % 2 ^ 4 = s := Nat.mod_eq_of_lt (by norm_num; omega)
      rw [hs4] at hsel
      have hsel4 : read (reader_at data p) (4 : Int) = .ok (s, reader_at data (p + 4)) := hsel
      have h2 := (holds_append data p (wordBits s 4) _ h).2
      rw [wordBits_length] at h2
      have hwd : (if s = 0 then kMaxWidth
          else u32 ((width.toNat : Int) + (kSel s).databits)) = w := by
        have hnw : next_width width s = (w : Int) := hw1
        simp only [next_width] at hnw
        split
        · rename_i h0; rw [if_pos h0] at hnw; exact_mod_cast hnw
        · rename_i h0; rw [if_neg h0] at hnw
          simp only [u32]; omega
      obtain ⟨k, hk⟩ : ∃ k, vals.length = k + 1 := ⟨vals.length - 1, by omega⟩
      have hhdr : read_delta_loop_log vals.length (reader_at data p) width.toNat 0
          = match read_delta_loop_log vals.length (reader_at data (p + 4)) w n with
            | .ok (rest, ws, r) => .ok (rest, w :: ws, r)
            | .error err => .error err := by
        have hn0 : ¬ n = 0 := by omega
        rw [hk, read_delta_loop_log, read_delta_loop_log]
        simp only [if_true, hsel4, hwd, hn, if_neg hn0]
        generalize (if w > 0 then read (reader_at data (p + 4)) (i32 (w : Int))
          else Except.ok (0, reader_at data (p + 4))) = val
        cases val with
        | error e => rfl
        | ok y =>
          obtain ⟨v, bits2⟩ := y
          dsimp only
          cases read_delta_loop_log k bits2 w (u32 ((n : Int) - 1)) with
          | error e => rfl
          | ok z => rfl
      rw [hhdr]
      have hlen : vals.length = (vals.take n).length + (vals.drop n).length := by
        simp only [List.length_take, List.length_drop]; omega
      have htl : (vals.take n).length = n := by
        simp only [List.length_take]; omega
      have hblock := read_delta_loop_log_block data w (by omega) _ (vals.take n)
        (vals.drop n).length (p + 4) (by omega) h2
      rw [← hlen, htl] at hblock
      rw [hblock]
      have h3 := (holds_append data (p + 4) (valuesBits w (vals.take n)) _ h2).2
      rw [valuesBits_length, htl] at h3
      have hrec := ih (vals.drop n) (w : Int) (p + 4 + w * n)
        (by simp only [List.length_drop]; omega) ⟨hw0, hw30⟩ h3
      simp only [Int.toNat_ofNat] at hrec
      rw [hrec]
      simp only [List.length_append, wordBits_length, valuesBits_length, htl]
      have hmap : (vals.take n).map (fun v => v % 2 ^ w)
          = (vals.take n).map (fun v => v % 2 ^ 30) :=
        List.map_congr_left hmod
      rw [hmap, ← List.map_append, List.take_append_drop]
      congr 4
      omega

theorem width_chain_bounds :
    ∀ (log : List block) (w0 : Int), width_chain w0 log = true →
      ∀ b ∈ log, 0 ≤ b.width1 ∧ b.width1 ≤ 30 := by
  intro log
  induction log with
  | nil => intro w0 _ b hb; simp at hb
  | cons c rest ih =>
    intro w0 h b hb
    simp only [width_chain, Bool.and_eq_true, decide_eq_true_eq, kMaxWidth] at h
    rw [List.mem_cons] at hb
    rcases hb with hb | hb
    · subst hb
      exact ⟨h.1.1.2, by simpa using h.1.2⟩
    · exact ih _ h.2 b hb

/-! ## Encoded arrays anywhere in a stream -/

/-- The function `write_delta_array` for any length: it stops at the assertion of
`write_gamma` when the count converts to 0, and appends `deltaBits` otherwise. -/
theorem write_delta_array_cases (s : obitstream) (v : List Nat) :
    (v.length % 4294967296 = 0 → write_delta_array s v = .error .assertion) ∧
    (v.length % 4294967296 ≠ 0 → write_delta_array s v = .ok (write_bits s (deltaBits v))) := by
  constructor
  · intro h
    simp only [write_delta_array, h, write_gamma, gt_iff_lt, Nat.lt_irrefl, not_false_eq_true,
      if_true]
  · intro h
    have hlt : v.length % 4294967296 < 2 ^ 32 := Nat.mod_lt _ (by norm_num)
    rw [write_delta_array, write_gamma_eq s _ (by omega) hlt]
    simp only [compress_eq, write_bits_append, deltaBits]

theorem deltaBits_small (v : List Nat) (h32 : v.length < 2 ^ 32) :
    deltaBits v = gammaBits v.length ++ pack_bits v.length (kStartWidth : Int) v := by
  have hm : v.length % 4294967296 = v.length := Nat.mod_eq_of_lt (by norm_num at h32 ⊢; omega)
  rw [deltaBits, hm]

theorem log2_mod_le (n : Nat) : Nat.log2 (n % 4294967296) ≤ Nat.log2 n := by
  rw [Nat.log2_eq_log_two, Nat.log2_eq_log_two]
  exact Nat.log_mono_right (Nat.mod_le _ _)

theorem deltaBits_length_le (v : List Nat) :
    (deltaBits v).length ≤ 2 * Nat.log2 v.length + 1 + 34 * v.length := by
  have h1 := pack_bits_length_le v.length (kStartWidth : Int) v (by simp [kStartWidth])
  have h2 := log2_mod_le v.length
  simp only [deltaBits, List.length_append, gammaBits_length]
  omega

/-- The function `read_delta_array_log` on data that hold an encoded array. -/
theorem read_delta_array_log_holds (data : List Nat) (p : Nat) (v : List Nat)
    (tail : List Bool) (h1 : 1 ≤ v.length) (h32 : v.length < 2 ^ 32)
    (h : Holds data p (deltaBits v ++ tail)) :
    read_delta_array_log (reader_at data p)
      = .ok (v.map (fun x => x % 2 ^ 30),
          (blocks v.length (kStartWidth : Int) v).map (fun b => b.width1.toNat),
          reader_at data (p + (deltaBits v).length)) := by
  rw [deltaBits_small v h32, List.append_assoc] at h
  rw [deltaBits_small v h32]
  rw [read_delta_array_log, read_gamma_holds data p v.length _ h1 h32 h]
  have h2 := (holds_append data p (gammaBits v.length) _ h).2
  have := read_delta_loop_log_pack data tail v.length v (kStartWidth : Int)
    (p + (gammaBits v.length).length) (le_refl _) (by simp [kStartWidth]) h2
  simp only [kStartWidth, Int.toNat_ofNat] at this ⊢
  rw [this, List.length_append, Nat.add_assoc]

/-- The function `read_delta_array` on data that hold `deltaBits`. -/
theorem read_delta_array_holds_bits (data : List Nat) (p : Nat) (v : List Nat)
    (tail : List Bool) (h1 : 1 ≤ v.length) (h32 : v.length < 2 ^ 32)
    (h : Holds data p (deltaBits v ++ tail)) :
    read_delta_array (reader_at data p)
      = .ok (v.map (fun x => x % 2 ^ 30), reader_at data (p + (deltaBits v).length)) := by
  rw [← read_delta_array_log_erase, read_delta_array_log_holds data p v tail h1 h32 h]

/-- The bytes after `pre`, an encoded array and `post` hold the array at bit `pre.length`. -/
theorem stream_holds (pre B post : List Bool) :
    Written (write_bits (write_bits (write_bits (obitstream.new []) pre) B) post)
        (pre ++ B ++ post) ∧
      Holds (write_bits (write_bits (write_bits (obitstream.new []) pre) B) post).m_buffer
        pre.length (B ++ post) := by
  have hw := written_write_bits post _ _ (written_write_bits B _ _ (written_bits pre))
  exact ⟨hw, written_holds _ pre (B ++ post) [] (by simpa using hw)⟩

/-- An encoded array anywhere in a stream is read back, each value modulo `2 ^ 30`, and the
reader is left right after the bits `write_delta_array` appended. -/
theorem delta_stream_round_trip_eq (pre : List Bool) (v : List Nat) (post : List Bool)
    (h1 : 1 ≤ v.length) (h32 : v.length < 2 ^ 32) :
    delta_stream_round_trip pre v post
      = .ok (v.map (fun x => x % 2 ^ 30),
          reader_at
            (write_bits (write_bits (write_bits (obitstream.new []) pre) (deltaBits v))
              post).m_buffer
            (pre.length + (deltaBits v).length)) := by
  obtain ⟨hw, hh⟩ := stream_holds pre (deltaBits v) post
  have hne : v.length % 4294967296 ≠ 0 := by
    rw [Nat.mod_eq_of_lt (by norm_num at h32 ⊢; omega)]; omega
  have hpos := written_buffer_pos _ _ hw
  have hskip := skip_bits_reader_at
    (write_bits (write_bits (write_bits (obitstream.new []) pre) (deltaBits v)) post).m_buffer
    pre.length 0 (by have := hh.1; simp only [Nat.zero_add]; omega)
  rw [Nat.zero_add] at hskip
  rw [delta_stream_round_trip, (write_delta_array_cases _ v).2 hne]
  simp only [obitstream.data, new_reader _ hpos, hskip,
    read_delta_array_holds_bits _ pre.length v post h1 h32 hh]

/-! ## The claims on the running width, termination and truncation -/

theorem length_pos_of_ne_nil (v : List Nat) (h : v ≠ []) : 1 ≤ v.length := by
  cases v with
  | nil => exact absurd rfl h
  | cons a l => simp

theorem map_mod_eq_self (v : List Nat) (hv : ∀ x ∈ v, x < 2 ^ 30) :
    v.map (fun x => x % 2 ^ 30) = v := by
  conv_rhs => rw [← List.map_id v]
  apply List.map_congr_left
  intro x hx
  exact Nat.mod_eq_of_lt (hv x hx)

/-- The stream of the test runs: an encoded array followed by the padding of `sync`. -/
theorem synced_stream (B : List Bool) :
    sync (write_bits (obitstream.new []) B)
        = .ok (write_bits (write_bits (obitstream.new []) B)
            (false :: List.replicate (7 - B.length % 8) true)) ∧
      0 < (write_bits (write_bits (obitstream.new []) B)
            (false :: List.replicate (7 - B.length % 8) true)).m_buffer.length ∧
      Holds (write_bits (write_bits (obitstream.new []) B)
            (false :: List.replicate (7 - B.length % 8) true)).m_buffer 0
        (B ++ false :: List.replicate (7 - B.length % 8) true) := by
  have hw := written_bits B
  obtain ⟨hw2, hh⟩ := stream_holds [] B (false :: List.replicate (7 - B.length % 8) true)
  exact ⟨sync_eq _ B hw, written_buffer_pos _ _ hw2, hh⟩

/-- C11. Encoder running-width invariant: in every pass of
`compress_simple_array_selector`, over any input sequence and on any stream, the running
width starts at 8; after every block it lies in `0 .. 30`; it changes only by the `databits`
of the chosen selector, or is set to 30 when selector 0 is chosen. The record is that of the
very loop that writes the stream. -/
theorem encoder_width_invariant (bits : obitstream) (arr : List Nat) :
    ∃ bits1 log, compress_simple_array_selector_log bits arr = .ok (bits1, log) ∧
      compress_simple_array_selector bits arr = .ok bits1 ∧
      width_chain 8 log = true ∧ ∀ b ∈ log, 0 ≤ b.width1 ∧ b.width1 ≤ 30 := by
  have hc := blocks_width_chain arr.length (kStartWidth : Int) arr (by simp [kStartWidth])
  refine ⟨_, _, compress_log_eq bits arr, compress_eq bits arr, hc, ?_⟩
  exact width_chain_bounds _ _ hc

/-- C12 (as amended). Decoder running-width invariant: in the decode pass of
`read_delta_array` over the stream `write_delta_array` and `sync` produce for a non-empty
sequence of fewer than `2 ^ 32` values, the running width is at most 30 (and not negative,
being a `uint32_t`) after each selector is applied; the widths are those of the packer. -/
theorem decoder_width_invariant (v : List Nat) (hne : v ≠ []) (hlen : v.length < 2 ^ 32) :
    delta_decode_widths v
        = .ok ((blocks v.length (kStartWidth : Int) v).map (fun b => b.width1.toNat)) ∧
      ∀ w ∈ (blocks v.length (kStartWidth : Int) v).map (fun b => b.width1.toNat), w ≤ 30 := by
  have h1 := length_pos_of_ne_nil v hne
  have hmod : v.length % 4294967296 ≠ 0 := by
    rw [Nat.mod_eq_of_lt (by norm_num at hlen ⊢; omega)]; omega
  obtain ⟨hs, hpos, hh⟩ := synced_stream (deltaBits v)
  constructor
  · rw [delta_decode_widths, (write_delta_array_cases _ v).2 hmod]
    simp only [hs, obitstream.data, new_reader _ hpos,
      read_delta_array_log_holds _ 0 v _ h1 hlen hh]
  · intro w hw
    rw [List.mem_map] at hw
    obtain ⟨b, hb, rfl⟩ := hw
    have hc := blocks_width_chain v.length (kStartWidth : Int) v (by simp [kStartWidth])
    have := width_chain_bounds _ _ hc b hb
    omega

/-- Witness for C12 (as amended): the vector of `test_4`. -/
theorem decoder_width_invariant_witness :
    ([3, 0, 0, 3] : List Nat) ≠ [] ∧ ([3, 0, 0, 3] : List Nat).length < 2 ^ 32 ∧
      delta_decode_widths [3, 0, 0, 3]
        = .ok ((blocks ([3, 0, 0, 3] : List Nat).length (kStartWidth : Int) [3, 0, 0, 3]).map
            (fun b => b.width1.toNat)) ∧
      ∀ w ∈ (blocks ([3, 0, 0, 3] : List Nat).length (kStartWidth : Int) [3, 0, 0, 3]).map
          (fun b => b.width1.toNat), w ≤ 30 :=
  ⟨by decide, by decide, decoder_width_invariant [3, 0, 0, 3] (by decide) (by decide)⟩

set_option maxRecDepth 100000 in
/-- Counterexample to C12 as stated: on the bytes `A2 02 20 00` the decoder reads the count
3 and three times selector 1; the running width goes 8, 4, 0 and then wraps to
`2 ^ 32 - 4`, outside `0 .. 30`. -/
theorem decoder_width_escapes :
    decode_widths [162, 2, 32, 0] = .ok [4, 0, 4294967292] ∧ ¬ (4294967292 ≤ 30) := by
  decide

/-- C15. The packer terminates and emits every value once: for every input sequence of `n`
values, on any stream, `compress_simple_array_selector` returns; the span of each block is
at least 1 and at most the number of values buffered at that pass; the spans add up to `n`;
the number of blocks is between `ceil(n / 4)` and `n`. -/
theorem packer_emits_every_value (bits : obitstream) (arr : List Nat) :
    ∃ bits1 log, compress_simple_array_selector_log bits arr = .ok (bits1, log) ∧
      compress_simple_array_selector bits arr = .ok bits1 ∧
      (∀ b ∈ log, b.n = (kSel b.s).span ∧ 1 ≤ b.n ∧ b.n ≤ b.bc) ∧
      span_sum log = arr.length ∧
      (arr.length + 3) / 4 ≤ log.length ∧ log.length ≤ arr.length := by
  have hsp := blocks_spans arr.length (kStartWidth : Int) arr (by simp [kStartWidth])
  have hsum := blocks_span_sum arr.length (kStartWidth : Int) arr (le_refl _)
    (by simp [kStartWidth])
  have hb := span_sum_bounds (blocks arr.length (kStartWidth : Int) arr)
    (fun b hb => ⟨(hsp b hb).2.1, by have := hsp b hb; omega⟩)
  refine ⟨_, _, compress_log_eq bits arr, compress_eq bits arr, ?_, hsum, ?_, ?_⟩
  · intro b hb
    exact ⟨(hsp b hb).1, (hsp b hb).2.1, (hsp b hb).2.2.1⟩
  · omega
  · omega

/-- C16 (as amended). Out-of-range values are truncated, not rejected: for every non-empty
sequence `v` of fewer than `2 ^ 32` values, `read_delta_array` applied to the stream written
by `write_delta_array(v)`, whether closed by `sync`, left as it is or followed by other
bits, returns the sequence of the same length whose elements are those of `v` modulo
`2 ^ 30`; a value of `2 ^ 30` or more comes back changed, and any other value unchanged. -/
theorem delta_values_truncated (v : List Nat) (post : List Bool) (hne : v ≠ [])
    (hlen : v.length < 2 ^ 32) :
    (∃ r, delta_stream_round_trip [] v post = .ok (v.map (fun x => x % 2 ^ 30), r)) ∧
      delta_round_trip v = .ok (v.map (fun x => x % 2 ^ 30)) ∧
      (v.map (fun x => x % 2 ^ 30)).length = v.length ∧
      (∀ x ∈ v, x < 2 ^ 30 → x % 2 ^ 30 = x) ∧ (∀ x ∈ v, 2 ^ 30 ≤ x → x % 2 ^ 30 ≠ x) := by
  have h1 := length_pos_of_ne_nil v hne
  refine ⟨⟨_, delta_stream_round_trip_eq [] v post h1 hlen⟩, delta_round_trip_eq v h1 hlen,
    by simp, ?_, ?_⟩
  · intro x _ hx
    exact Nat.mod_eq_of_lt hx
  · intro x _ hx hc
    have : x % 2 ^ 30 < 2 ^ 30 := Nat.mod_lt _ (by positivity)
    omega

/-- Witness for C16 (as amended): a vector with one value above `2 ^ 30`. -/
theorem delta_values_truncated_witness :
    ([3, 1073741829, 7] : List Nat) ≠ [] ∧ ([3, 1073741829, 7] : List Nat).length < 2 ^ 32 ∧
      ((∃ r, delta_stream_round_trip [] [3, 1073741829, 7] []
          = .ok (([3, 1073741829, 7] : List Nat).map (fun x => x % 2 ^ 30), r)) ∧
        delta_round_trip [3, 1073741829, 7]
          = .ok (([3, 1073741829, 7] : List Nat).map (fun x => x % 2 ^ 30)) ∧
        (([3, 1073741829, 7] : List Nat).map (fun x => x % 2 ^ 30)).length
          = ([3, 1073741829, 7] : List Nat).length ∧
        (∀ x ∈ ([3, 1073741829, 7] : List Nat), x < 2 ^ 30 → x % 2 ^ 30 = x) ∧
        (∀ x ∈ ([3, 1073741829, 7] : List Nat), 2 ^ 30 ≤ x → x % 2 ^ 30 ≠ x)) :=
  ⟨by decide, by decide, delta_values_truncated [3, 1073741829, 7] [] (by decide) (by decide)⟩

theorem delta_stream_replicate (n x : Nat) (post : List Bool) (h : n % 4294967296 = 0) :
    delta_stream_round_trip [] (List.replicate n x) post = .error .assertion := by
  have hl : (List.replicate n x).length % 4294967296 = 0 := by
    rw [List.length_replicate]; exact h
  rw [delta_stream_round_trip, (write_delta_array_cases _ _).1 hl]

theorem replicate_ne_nil (n x : Nat) (h : n ≠ 0) : List.replicate n x ≠ [] := by
  intro hc
  have := congrArg List.length hc
  rw [List.length_replicate, List.length_nil] at this
  exact h this

/-- Counterexample to C16 as stated: a vector of `2 ^ 32` copies of `2 ^ 30` is non-empty,
but its count converts to the `uint32_t` 0 and `write_gamma` rejects it: no stream is
written and no sequence is returned. -/
theorem delta_values_count_wraps :
    List.replicate 4294967296 1073741824 ≠ [] ∧
      delta_stream_round_trip [] (List.replicate 4294967296 1073741824) []
        = .error .assertion :=
  ⟨replicate_ne_nil 4294967296 1073741824 (Nat.succ_ne_zero _),
    delta_stream_replicate 4294967296 1073741824 [] (Nat.mod_self _)⟩

/-! ## The claims on self-delimiting streams and size -/

/-- Two encoded arrays back to back come back in order, each value modulo `2 ^ 30`. -/
theorem two_arrays_round_trip_eq (a b : List Nat) (ha : 1 ≤ a.length) (hb : 1 ≤ b.length)
    (hla : a.length < 2 ^ 32) (hlb : b.length < 2 ^ 32) :
    two_arrays_round_trip a b
      = .ok (a.map (fun x => x % 2 ^ 30), b.map (fun x => x % 2 ^ 30)) := by
  have hma : a.length % 4294967296 ≠ 0 := by
    rw [Nat.mod_eq_of_lt (by norm_num at hla ⊢; omega)]; omega
  have hmb : b.length % 4294967296 ≠ 0 := by
    rw [Nat.mod_eq_of_lt (by norm_num at hlb ⊢; omega)]; omega
  obtain ⟨hs, hpos, hh⟩ := synced_stream (deltaBits a ++ deltaBits b)
  rw [write_bits_append] at hs hpos hh
  rw [List.append_assoc] at hh
  have hra := read_delta_array_holds_bits _ 0 a _ ha hla hh
  have hh2 := (holds_append _ 0 (deltaBits a) _ hh).2
  have hrb := read_delta_array_holds_bits _ _ b _ hb hlb hh2
  rw [two_arrays_round_trip, (write_delta_array_cases _ a).2 hma]
  simp only [(write_delta_array_cases _ b).2 hmb, hs, obitstream.data, new_reader _ hpos, hra,
    hrb]

/-- C17 (as amended). The delta-array encoding is self-delimiting: for every non-empty
sequence `a` of fewer than `2 ^ 32` values below `2 ^ 30`, wherever it is written in a
stream, `read_delta_array` returns `a` and leaves the reader exactly after the bits that
`write_delta_array(a)` appended; consequently two such sequences `a` and `b` written back
to back into one stream are returned by two successive `read_delta_array` calls, `a` and
then `b`. -/
theorem delta_array_self_delimiting (a b : List Nat) (pre post : List Bool) (ha : a ≠ [])
    (hb : b ≠ []) (hla : a.length < 2 ^ 32) (hlb : b.length < 2 ^ 32)
    (hva : ∀ x ∈ a, x < 2 ^ 30) (hvb : ∀ x ∈ b, x < 2 ^ 30) :
    write_delta_array (write_bits (obitstream.new []) pre) a
        = .ok (write_bits (write_bits (obitstream.new []) pre) (deltaBits a)) ∧
      delta_stream_round_trip pre a post
        = .ok (a, reader_at
            (write_bits (write_bits (write_bits (obitstream.new []) pre) (deltaBits a))
              post).m_buffer
            (pre.length + (deltaBits a).length)) ∧
      two_arrays_round_trip a b = .ok (a, b) := by
  have h1a := length_pos_of_ne_nil a ha
  have h1b := length_pos_of_ne_nil b hb
  have hma : a.length % 4294967296 ≠ 0 := by
    rw [Nat.mod_eq_of_lt (by norm_num at hla ⊢; omega)]; omega
  refine ⟨(write_delta_array_cases _ a).2 hma, ?_, ?_⟩
  · rw [delta_stream_round_trip_eq pre a post h1a hla, map_mod_eq_self a hva]
  · rw [two_arrays_round_trip_eq a b h1a h1b hla hlb, map_mod_eq_self a hva,
      map_mod_eq_self b hvb]

/-- Witness for C17 (as amended): the vectors of `test_1` and `test_2`, behind three bits. -/
theorem delta_array_self_delimiting_witness :
    ([1, 2, 3, 3, 2, 1] : List Nat) ≠ [] ∧ ([3, 2, 1, 0] : List Nat) ≠ [] ∧
      ([1, 2, 3, 3, 2, 1] : List Nat).length < 2 ^ 32 ∧
      ([3, 2, 1, 0] : List Nat).length < 2 ^ 32 ∧
      (∀ x ∈ ([1, 2, 3, 3, 2, 1] : List Nat), x < 2 ^ 30) ∧
      (∀ x ∈ ([3, 2, 1, 0] : List Nat), x < 2 ^ 30) ∧
      (write_delta_array (write_bits (obitstream.new []) [true, false, true]) [1, 2, 3, 3, 2, 1]
          = .ok (write_bits (write_bits (obitstream.new []) [true, false, true])
              (deltaBits [1, 2, 3, 3, 2, 1])) ∧
        delta_stream_round_trip [true, false, true] [1, 2, 3, 3, 2, 1] [false]
          = .ok ([1, 2, 3, 3, 2, 1], reader_at
              (write_bits (write_bits (write_bits (obitstream.new []) [true, false, true])
                (deltaBits [1, 2, 3, 3, 2, 1])) [false]).m_buffer
              (([true, false, true] : List Bool).length
                + (deltaBits [1, 2, 3, 3, 2, 1]).length)) ∧
        two_arrays_round_trip [1, 2, 3, 3, 2, 1] [3, 2, 1, 0]
          = .ok ([1, 2, 3, 3, 2, 1], [3, 2, 1, 0])) :=
  ⟨by decide, by decide, by decide, by decide, by decide, by decide,
    delta_array_self_delimiting [1, 2, 3, 3, 2, 1] [3, 2, 1, 0] [true, false, true] [false]
      (by decide) (by decide) (by decide) (by decide) (by decide) (by decide)⟩

theorem two_arrays_replicate (n : Nat) (b : List Nat) (h : n % 4294967296 = 0) :
    two_arrays_round_trip (List.replicate n 0) b = .error .assertion := by
  have hl : (List.replicate n 0).length % 4294967296 = 0 := by
    rw [List.length_replicate]; exact h
  rw [two_arrays_round_trip, (write_delta_array_cases _ _).1 hl]

/-- Counterexample to C17 as stated: with `a` a vector of `2 ^ 32` zeros (non-empty, every
value below `2 ^ 30`) and `b = [0]`, the count of `a` converts to the `uint32_t` 0 and
`write_gamma` rejects it, so the two reads do not return `a` and then `b`. -/
theorem two_arrays_count_wraps :
    List.replicate 4294967296 0 ≠ [] ∧ (∀ x ∈ List.replicate 4294967296 0, x < 2 ^ 30) ∧
      two_arrays_round_trip (List.replicate 4294967296 0) [0] = .error .assertion :=
  ⟨replicate_ne_nil 4294967296 0 (Nat.succ_ne_zero _),
    (replicate_facts 4294967296 (Nat.succ_ne_zero _)).2,
    two_arrays_replicate 4294967296 [0] (Nat.mod_self _)⟩

/-- C19. Worst-case size bound: for every sequence of `n` values (`n ≥ 1` included) and
every stream, `compress_simple_array_selector` returns and appends at most `34 * n` bits,
and `write_delta_array` never appends more than `2 * floor(log2(n)) + 1 + 34 * n` bits: it
returns with that bound whenever the count `n` does not convert to the `uint32_t` 0, and
otherwise stops at the assertion of `write_gamma` before it writes anything. -/
theorem packed_size_bound (s : obitstream) (v : List Nat) :
    (∃ bs, compress_simple_array_selector s v = .ok (write_bits s bs) ∧
        bs.length ≤ 34 * v.length) ∧
      (v.length % 4294967296 ≠ 0 →
        ∃ bs, write_delta_array s v = .ok (write_bits s bs) ∧
          bs.length ≤ 2 * Nat.log2 v.length + 1 + 34 * v.length) ∧
      (v.length % 4294967296 = 0 → write_delta_array s v = .error .assertion) := by
  refine ⟨⟨_, compress_eq s v, ?_⟩, ?_, (write_delta_array_cases s v).1⟩
  · exact pack_bits_length_le v.length (kStartWidth : Int) v (by simp [kStartWidth])
  · intro h
    exact ⟨_, (write_delta_array_cases s v).2 h, deltaBits_length_le v⟩

/-! ## The selector search -/

/-- One step of the search, by the test and the score of the selector. -/
theorem search_step_eq (width : Int) (bn : List Int) (bc : Nat) (sc : Nat × Int) (i : Nat) :
    search_step width bn bc sc i
      = if sel_fits width bn bc i = true ∧ sel_score width bn i > sc.2
        then (i, sel_score width bn i) else sc := by
  unfold search_step sel_fits sel_score
  by_cases h1 : (kSel i).span > bc
  · have : ¬ (kSel i).span ≤ bc := by omega
    simp [h1, this]
  · have h1' : (kSel i).span ≤ bc := by omega
    simp only [h1, if_false, h1', decide_True, Bool.true_and]
    by_cases h2 : u32 (width + (kSel i).databits) > kMaxWidth
    · have : ¬ u32 (width + (kSel i).databits) ≤ kMaxWidth := by omega
      simp [h2, this]
    · have h2' : u32 (width + (kSel i).databits) ≤ kMaxWidth := by omega
      simp only [h2, if_false, h2', decide_True, Bool.true_and]
      cases hf : (switch_span (kSel i).span bn (width + (kSel i).databits)).1
      · simp
      · simp

/-- The search keeps the best score so far, and keeps selector 0 only if nothing it looked
at both fits and scores above the baseline it started from. -/
theorem foldl_search (width : Int) (bn : List Int) (bc : Nat) :
    ∀ (l : List Nat) (sc : Nat × Int), (∀ i ∈ l, 1 ≤ i) →
      sc.2 ≤ (l.foldl (search_step width bn bc) sc).2 ∧
      ((l.foldl (search_step width bn bc) sc).1 = 0 →
        l.foldl (search_step width bn bc) sc = sc) ∧
      (∀ i ∈ l, sel_fits width bn bc i = true →
        sel_score width bn i ≤ (l.foldl (search_step width bn bc) sc).2) := by
  intro l
  induction l with
  | nil => intro sc _; simp
  | cons i l ih =>
    intro sc hl
    rw [List.foldl_cons]
    have hi := hl i (List.mem_cons_self _ _)
    obtain ⟨h1, h2, h3⟩ := ih (search_step width bn bc sc i)
      (fun j hj => hl j (List.mem_cons_of_mem _ hj))
    have hstep := search_step_eq width bn bc sc i
    by_cases hc : sel_fits width bn bc i = true ∧ sel_score width bn i > sc.2
    · rw [if_pos hc] at hstep
      rw [hstep] at h1 h2 h3 ⊢
      refine ⟨by simp only at h1; omega, ?_, ?_⟩
      · intro h0
        have := h2 h0
        rw [this] at h0
        simp only at h0
        omega
      · intro j hj hfit
        rw [List.mem_cons] at hj
        rcases hj with hj | hj
        · subst hj; simpa using h1
        · exact h3 j hj hfit
    · rw [if_neg hc] at hstep
      rw [hstep] at h1 h2 h3 ⊢
      refine ⟨h1, h2, ?_⟩
      intro j hj hfit
      rw [List.mem_cons] at hj
      rcases hj with hj | hj
      · subst hj
        have : sel_score width bn j ≤ sc.2 := by
          by_contra hgt
          exact hc ⟨hfit, by omega⟩
        omega
      · exact h3 j hj hfit

theorem bit_width_zero : bit_width 0 = 0 := rfl

theorem bn_getD_all (dv : List Nat) (k : Nat) :
    (dv.map fun x => (bit_width x : Int)).getD k 0 = (bit_width (dv.getD k 0) : Int) := by
  by_cases h : k < dv.length
  · rw [List.getD_eq_getElem _ _ (by simpa using h), List.getD_eq_getElem _ _ h]
    simp
  · rw [List.getD_eq_default _ _ (by simpa using h), List.getD_eq_default _ _ (by omega)]
    simp [bit_width_zero]

/-- The switch with its fall-through cases computes, for a span of 1, 2 or 4, whether
every span value is at most `w` wide, and the sum of `w` minus the widths. -/
theorem switch_span_spec (bn : List Int) (f : Nat → Int) (hbn : ∀ k, bn.getD k 0 = f k)
    (w : Int) (n : Nat) (hn : n = 1 ∨ n = 2 ∨ n = 4) :
    switch_span n bn w
      = ((List.range n).all (fun k => decide (f k ≤ w)),
          ((List.range n).map (fun k => w - f k)).sum) := by
  have r1 : List.range 1 = [0] := rfl
  have r2 : List.range 2 = [0, 1] := rfl
  have r4 : List.range 4 = [0, 1, 2, 3] := rfl
  rcases hn with rfl | rfl | rfl
  · simp only [switch_span, switch_case, hbn, r1, List.all_cons, List.all_nil, List.map,
      List.sum_cons, List.sum_nil]
    norm_num
  · simp only [switch_span, switch_case, hbn, r2, List.all_cons, List.all_nil, List.map,
      List.sum_cons, List.sum_nil]
    norm_num
    constructor
    · exact Bool.and_comm _ _
    · ring
  · simp only [switch_span, switch_case, hbn, r4, List.all_cons, List.all_nil, List.map,
      List.sum_cons, List.sum_nil]
    norm_num
    constructor
    · simp only [Bool.and_comm, Bool.and_assoc, Bool.and_left_comm]
    · ring

/-- The test of the search is the fit of the description. -/
theorem sel_fits_described (width : Int) (dv : List Nat) (i : Nat) (hi : 1 ≤ i ∧ i ≤ 15)
    (hw : 0 ≤ width ∧ width ≤ 30) :
    sel_fits width (dv.map fun x => (bit_width x : Int)) dv.length i
      = fits_described width dv i := by
  have hdb := kSel_databits i
  have hu : decide (u32 (width + (kSel i).databits) ≤ kMaxWidth)
      = (decide (0 ≤ new_width width i) && decide (new_width width i ≤ 30)) := by
    simp only [u32, kMaxWidth, new_width]
    by_cases hc : 0 ≤ width + (kSel i).databits ∧ width + (kSel i).databits ≤ 30
    · have : ((width + (kSel i).databits) % 4294967296).toNat ≤ 30 := by omega
      simp [this, hc.1, hc.2]
    · have : ¬ ((width + (kSel i).databits) % 4294967296).toNat ≤ 30 := by omega
      by_cases hc1 : 0 ≤ width + (kSel i).databits
      · have hc2 : ¬ width + (kSel i).databits ≤ 30 := fun h => hc ⟨hc1, h⟩
        simp [this, hc1, hc2]
      · simp [this, hc1]
  unfold sel_fits fits_described
  rw [hu, switch_span_spec _ _ (bn_getD_all dv) _ _ (kSel_span i (by omega))]
  simp only [new_width, Bool.and_assoc]

theorem all_range_getD {p : Nat → Bool} {n : Nat} (h : (List.range n).all p = true) (k : Nat)
    (hk : k < n) : p k = true := by
  rw [List.all_eq_true] at h
  exact h k (List.mem_range.2 hk)

/-- What the fit of the description says, unfolded. -/
theorem fits_described_iff (width : Int) (dv : List Nat) (i : Nat) :
    fits_described width dv i = true ↔
      (kSel i).span ≤ dv.length ∧ 0 ≤ new_width width i ∧ new_width width i ≤ 30 ∧
        ∀ k, k < (kSel i).span → (bit_width (dv.getD k 0) : Int) ≤ new_width width i := by
  simp only [fits_described, Bool.and_eq_true, decide_eq_true_eq, List.all_eq_true,
    List.mem_range]
  tauto

/-- The score of the search is the score of the description, for a selector that fits. -/
theorem sel_score_described (width : Int) (dv : List Nat) (i : Nat) (hi : 1 ≤ i ∧ i ≤ 15)
    (hfit : fits_described width dv i = true) :
    sel_score width (dv.map fun x => (bit_width x : Int)) i = score_described width dv i := by
  obtain ⟨_, h0, h30, hall⟩ := (fits_described_iff width dv i).1 hfit
  have hsp := kSel_span i (by omega)
  unfold sel_score score_described waste_described
  rw [switch_span_spec _ _ (bn_getD_all dv) _ _ hsp]
  simp only [new_width] at h0 h30 hall ⊢
  generalize width + (kSel i).databits = w at *
  have r1 : List.range 1 = [0] := rfl
  have r2 : List.range 2 = [0, 1] := rfl
  have r4 : List.range 4 = [0, 1, 2, 3] := rfl
  rcases hsp with h | h | h
  · rw [h] at hall ⊢
    have := hall 0 (by norm_num)
    simp only [r1, List.map, List.sum_cons, List.sum_nil, i32]
    omega
  · rw [h] at hall ⊢
    have := hall 0 (by norm_num)
    have := hall 1 (by norm_num)
    simp only [r2, List.map, List.sum_cons, List.sum_nil, i32]
    omega
  · rw [h] at hall ⊢
    have := hall 0 (by norm_num)
    have := hall 1 (by norm_num)
    have := hall 2 (by norm_num)
    have := hall 3 (by norm_num)
    simp only [r4, List.map, List.sum_cons, List.sum_nil, i32]
    omega

/-- A selector of span 1 scores the width of the first value minus the new width. -/
theorem score_described_span_one (width : Int) (dv : List Nat) (i : Nat)
    (h : (kSel i).span = 1) :
    score_described width dv i = (bit_width (dv.getD 0 0) : Int) - new_width width i := by
  have r1 : List.range 1 = [0] := rfl
  simp only [score_described, waste_described, h, r1, List.map, List.sum_cons, List.sum_nil]
  push_cast
  ring

theorem span_one_sibling_props (i : Nat) (hi : 1 ≤ i ∧ i ≤ 15) :
    1 ≤ span_one_sibling i ∧ span_one_sibling i ≤ 15 ∧
      (kSel (span_one_sibling i)).span = 1 ∧
      (kSel (span_one_sibling i)).databits = (kSel i).databits := by
  obtain ⟨h1, h15⟩ := hi
  interval_cases i <;> decide

theorem search_zero_scores (width : Int) (bn : List Int) (bc : Nat)
    (h : (search width bn bc).1 = 0) (i : Nat) (hi : 1 ≤ i ∧ i ≤ 15)
    (hfit : sel_fits width bn bc i = true) :
    sel_score width bn i ≤ i32 (bn.getD 0 0 - (kMaxWidth : Int)) := by
  unfold search at h
  obtain ⟨_, h2, h3⟩ := foldl_search width bn bc (List.range' 1 15)
    (0, i32 (bn.getD 0 0 - (kMaxWidth : Int)))
    (by intro j hj; simp only [List.mem_range'_1] at hj; omega)
  have := h3 i (by simp only [List.mem_range'_1]; omega) hfit
  rw [h2 h] at this
  exact this

/-! ## The claims on the selector search -/

theorem pick_short (width : Int) (dv : List Nat) (h : dv.length ≤ 4) :
    pick width dv = (search width (dv.map fun x => (bit_width x : Int)) dv.length).1 := by
  rw [pick, List.take_of_length_le h]

/-- C13 (as amended). Baseline of the selector search: for every running width in `0 .. 30`
and every look-ahead buffer of 1 to 4 values, the test and the score the search computes for
a selector 1..15 are the fit and the score `(span - 1) * 4 - waste` of the description;
every fitting selector of span 1 whose new width is below 30 scores strictly above the
baseline `bit_width(first buffered value) - 30`, and one whose new width is 30 scores
exactly the baseline; hence selector 0 is chosen only when no selector 1..15 fits at a new
width below 30. -/
theorem search_baseline (width : Int) (dv : List Nat) (hw : 0 ≤ width ∧ width ≤ 30)
    (hdv : 1 ≤ dv.length ∧ dv.length ≤ 4) :
    (∀ i, 1 ≤ i → i ≤ 15 →
      sel_fits width (dv.map fun x => (bit_width x : Int)) dv.length i
          = fits_described width dv i ∧
        (fits_described width dv i = true →
          sel_score width (dv.map fun x => (bit_width x : Int)) i
            = score_described width dv i)) ∧
      (∀ i, 1 ≤ i → i ≤ 15 → fits_described width dv i = true → (kSel i).span = 1 →
        (new_width width i < 30 → baseline_described dv < score_described width dv i) ∧
        (new_width width i = 30 → score_described width dv i = baseline_described dv)) ∧
      (pick width dv = 0 →
        ∀ i, 1 ≤ i → i ≤ 15 → fits_described width dv i = true → new_width width i = 30) := by
  refine ⟨?_, ?_, ?_⟩
  · intro i h1 h15
    exact ⟨sel_fits_described width dv i ⟨h1, h15⟩ hw,
      sel_score_described width dv i ⟨h1, h15⟩⟩
  · intro i _ _ _ hsp
    rw [score_described_span_one width dv i hsp]
    simp only [baseline_described]
    constructor <;> intro h <;> omega
  · intro hpick i h1 h15 hfit
    obtain ⟨hspan, h0, h30, hall⟩ := (fits_described_iff width dv i).1 hfit
    by_contra hne
    have hlt : new_width width i < 30 := by omega
    obtain ⟨j1, j15, jsp, jdb⟩ := span_one_sibling_props i ⟨h1, h15⟩
    have hnw : new_width width (span_one_sibling i) = new_width width i := by
      simp only [new_width, jdb]
    have hsp1 := kSel_span i (by omega)
    have hb0 := hall 0 (by omega)
    have hjfit : fits_described width dv (span_one_sibling i) = true := by
      rw [fits_described_iff, jsp, hnw]
      refine ⟨hdv.1, h0, h30, ?_⟩
      intro k hk
      have : k = 0 := by omega
      subst this
      exact hb0
    have hsel : sel_fits width (dv.map fun x => (bit_width x : Int)) dv.length
        (span_one_sibling i) = true := by
      rw [sel_fits_described width dv _ ⟨j1, j15⟩ hw]; exact hjfit
    rw [pick_short width dv hdv.2] at hpick
    have hle := search_zero_scores width _ dv.length hpick (span_one_sibling i) ⟨j1, j15⟩ hsel
    rw [sel_score_described width dv _ ⟨j1, j15⟩ hjfit,
      score_described_span_one width dv _ jsp, hnw, bn_getD_all] at hle
    simp only [i32, kMaxWidth] at hle
    omega

/-- Witness for C13 (as amended): running width 8 and the buffer of `test_4`. -/
theorem search_baseline_witness :
    ((0 : Int) ≤ 8 ∧ (8 : Int) ≤ 30) ∧
      (1 ≤ ([3, 0, 0, 3] : List Nat).length ∧ ([3, 0, 0, 3] : List Nat).length ≤ 4) ∧
      ((∀ i, 1 ≤ i → i ≤ 15 →
        sel_fits 8 (([3, 0, 0, 3] : List Nat).map fun x => (bit_width x : Int))
            ([3, 0, 0, 3] : List Nat).length i
            = fits_described 8 [3, 0, 0, 3] i ∧
          (fits_described 8 [3, 0, 0, 3] i = true →
            sel_score 8 (([3, 0, 0, 3] : List Nat).map fun x => (bit_width x : Int)) i
              = score_described 8 [3, 0, 0, 3] i)) ∧
        (∀ i, 1 ≤ i → i ≤ 15 → fits_described 8 [3, 0, 0, 3] i = true → (kSel i).span = 1 →
          (new_width 8 i < 30 →
            baseline_described [3, 0, 0, 3] < score_described 8 [3, 0, 0, 3] i) ∧
          (new_width 8 i = 30 →
            score_described 8 [3, 0, 0, 3] i = baseline_described [3, 0, 0, 3])) ∧
        (pick 8 [3, 0, 0, 3] = 0 →
          ∀ i, 1 ≤ i → i ≤ 15 → fits_described 8 [3, 0, 0, 3] i = true →
            new_width 8 i = 30)) :=
  ⟨by decide, by decide, search_baseline 8 [3, 0, 0, 3] (by decide) (by decide)⟩

/-- Counterexample to C13 as stated. At running width 30 with the buffer `[2 ^ 29]`,
selector 7 (span 1, no change of width) fits and scores 0, which is the baseline and not
above it, and the search returns selector 0 although selector 7 fits. At running width 20
with the buffer `[1, 0]`, selector 8 (span 2, no change of width) fits and scores -35, below
the baseline -29. -/
theorem search_baseline_not_beaten :
    fits_described 30 [536870912] 7 = true ∧
      score_described 30 [536870912] 7 = 0 ∧ baseline_described [536870912] = 0 ∧
      pick 30 [536870912] = 0 ∧
      fits_described 20 [1, 0] 8 = true ∧
      score_described 20 [1, 0] 8 = -35 ∧ baseline_described [1, 0] = -29 := by
  decide

/-- C14. All-zero batch drives the width down: for every running width in `1 .. 30`, when
the look-ahead buffer holds four values all equal to 0 (whatever follows them), the
selector the search chooses is not selector 0 and has negative `databits`, so the running
width strictly decreases. -/
theorem zero_batch_narrows (width : Int) (rest : List Nat) (h1 : 1 ≤ width)
    (h30 : width ≤ 30) :
    pick width (0 :: 0 :: 0 :: 0 :: rest)
        = (search width (([0, 0, 0, 0] : List Nat).map fun x => (bit_width x : Int)) 4).1 ∧
      pick width (0 :: 0 :: 0 :: 0 :: rest) ≠ 0 ∧
      (kSel (pick width (0 :: 0 :: 0 :: 0 :: rest))).databits < 0 ∧
      next_width width (pick width (0 :: 0 :: 0 :: 0 :: rest)) < width := by
  have hp : pick width (0 :: 0 :: 0 :: 0 :: rest)
      = (search width (([0, 0, 0, 0] : List Nat).map fun x => (bit_width x : Int)) 4).1 := rfl
  rw [hp]
  refine ⟨rfl, ?_⟩
  interval_cases width <;> decide

/-- Witness for C14: running width 8. -/
theorem zero_batch_narrows_witness :
    (1 : Int) ≤ 8 ∧ (8 : Int) ≤ 30 ∧
      (pick 8 (0 :: 0 :: 0 :: 0 :: [5, 6])
          = (search 8 (([0, 0, 0, 0] : List Nat).map fun x => (bit_width x : Int)) 4).1 ∧
        pick 8 (0 :: 0 :: 0 :: 0 :: [5, 6]) ≠ 0 ∧
        (kSel (pick 8 (0 :: 0 :: 0 :: 0 :: [5, 6]))).databits < 0 ∧
        next_width 8 (pick 8 (0 :: 0 :: 0 :: 0 :: [5, 6])) < 8) :=
  ⟨by decide, by decide, zero_batch_narrows 8 [5, 6] (by decide) (by decide)⟩

/-! ## The claim on reads within the buffer -/

/-- The loop of `read` for any number of bits: it fetches no byte outside the data as long
as the byte that holds the bit after the last one read lies inside, and leaves the reader
after the bits read. -/
theorem read_loop_in_bounds (data : List Nat) :
    ∀ (n fuel p result : Nat), n ≤ fuel → (p + n) / 8 < data.length →
      ∃ r, read_loop fuel (reader_at data p) (n : Int) result
        = .ok (r, reader_at data (p + n)) := by
  intro n
  induction n using Nat.strong_induction_on with
  | _ n ih =>
    intro fuel p result hf hb
    by_cases hn : n = 0
    · subst hn
      cases fuel <;> exact ⟨result, by simp [read_loop]⟩
    · obtain ⟨fuel, rfl⟩ : ∃ f, fuel = f + 1 := ⟨fuel - 1, by omega⟩
      have hpos : ((n : Int) > 0) := by omega
      rw [read_loop, if_pos hpos]
      obtain ⟨bw, hbw⟩ : ∃ bw : Nat, bw = min (8 - p % 8) n := ⟨_, rfl⟩
      have hbw1 : 1 ≤ bw := by omega
      have hbw8 : p % 8 + bw ≤ 8 := by omega
      have hbwn : bw ≤ n := by omega
      have e_bw : (if (reader_at data p).m_bitOffset + 1 > (n : Int) then (n : Int)
          else (reader_at data p).m_bitOffset + 1) = (bw : Int) := by
        simp only [reader_at]
        split <;> omega
      simp only [e_bw]
      have e_bc : (n : Int) - (bw : Int) = ((n - bw : Nat) : Int) := by omega
      have hpn : p + bw + (n - bw) = p + n := by omega
      by_cases hcross : p % 8 + bw = 8
      · have hlt : (reader_at data p).m_bitOffset - (bw : Int) < 0 := by
          simp only [reader_at]; omega
        rw [if_pos hlt]
        have hfetch : fetch (reader_at data p).mem (reader_at data p).m_data
            = .ok (data.getD (p / 8 + 1) 0) := by
          simp only [reader_at]
          exact fetch_getD data _ (by omega)
        rw [hfetch]
        have hst : ({ reader_at data p with
              m_data := (reader_at data p).m_data + 1,
              m_byte := data.getD (p / 8 + 1) 0, m_bitOffset := 7 } : ibitstream)
            = reader_at data (p + bw) := by
          have a1 : (p + bw) / 8 = p / 8 + 1 := by omega
          have a2 : (p + bw) % 8 = 0 := by omega
          simp [reader_at, a1, a2]
        simp only [hst, e_bc]
        obtain ⟨r, hr⟩ := ih (n - bw) (by omega) fuel (p + bw) _ (by omega)
          (by rw [hpn]; exact hb)
        exact ⟨r, by rw [hr, hpn]⟩
      · have hlt : ¬ (reader_at data p).m_bitOffset - (bw : Int) < 0 := by
          simp only [reader_at]; omega
        rw [if_neg hlt]
        have hst : ({ reader_at data p with
              m_bitOffset := (reader_at data p).m_bitOffset - (bw : Int) } : ibitstream)
            = reader_at data (p + bw) := by
          have a1 : (p + bw) / 8 = p / 8 := by omega
          have a2 : (p + bw) % 8 = p % 8 + bw := by omega
          simp only [reader_at, a1, a2]
          congr 1
          omega
        simp only [hst, e_bc]
        obtain ⟨r, hr⟩ := ih (n - bw) (by omega) fuel (p + bw) _ (by omega)
          (by rw [hpn]; exact hb)
        exact ⟨r, by rw [hr, hpn]⟩

theorem read_in_bounds (data : List Nat) (p n : Nat) (hb : (p + n) / 8 < data.length) :
    ∃ r, read (reader_at data p) (n : Int) = .ok (r, reader_at data (p + n)) := by
  obtain ⟨r, hr⟩ := read_loop_in_bounds data n n p 0 (le_refl _) hb
  exact ⟨r, by simpa [read] using hr⟩

/-- A sequence of reads that stays within the data. -/
theorem read_many_in_bounds (data : List Nat) :
    ∀ (counts : List Nat) (p : Nat), (p + counts.sum) / 8 < data.length →
      ∃ vs, read_many (reader_at data p) counts
        = .ok (vs, reader_at data (p + counts.sum)) := by
  intro counts
  induction counts with
  | nil => intro p _; exact ⟨[], by simp [read_many]⟩
  | cons c rest ih =>
    intro p h
    simp only [List.sum_cons] at h ⊢
    obtain ⟨r, hr⟩ := read_in_bounds data p c (by omega)
    obtain ⟨vs, hvs⟩ := ih (p + c) (by rw [Nat.add_assoc]; exact h)
    refine ⟨r :: vs, ?_⟩
    rw [read_many, hr]
    simp only
    rw [hvs, Nat.add_assoc]

/-- C18. No over-read on well-formed use: for every sequence of writes totalling `k` bits
into a fresh `obitstream`, with a final `sync` or without, an `ibitstream` constructed over
the buffer of the writer that reads at most `k` bits in total, in reads of any sizes,
never fetches outside the buffer: the constructor and every read return, and the number
of bytes fetched, the constructor's byte and the one-byte prefetches included, is at most
the size of the buffer. -/
theorem reads_stay_in_buffer (ops : List WOp) (final_sync : Bool) (counts : List Nat)
    (h : counts.sum ≤ (ops_bits ops).length) :
    ∃ vs r, read_after_writes ops final_sync counts = .ok (vs, r) ∧
      r.m_data = counts.sum / 8 + 1 ∧ r.m_data ≤ r.mem.length ∧
      (final_sync = false → r.mem = (run_ops (obitstream.new []) ops).m_buffer) ∧
      (final_sync = true → sync (run_ops (obitstream.new []) ops) = .ok ⟨r.mem, 7⟩) := by
  have hw : Written (run_ops (obitstream.new []) ops) (ops_bits ops) := by
    rw [run_ops_eq]; exact written_bits _
  cases final_sync with
  | false =>
    have hlen := hw.1
    have hpos := written_buffer_pos _ _ hw
    obtain ⟨vs, hvs⟩ := read_many_in_bounds (run_ops (obitstream.new []) ops).m_buffer counts 0
      (by rw [Nat.zero_add, hlen]; omega)
    rw [Nat.zero_add] at hvs
    refine ⟨vs, reader_at (run_ops (obitstream.new []) ops).m_buffer counts.sum, ?_, rfl, ?_,
      fun _ => rfl, fun hc => by simp at hc⟩
    · simp only [read_after_writes, Bool.false_eq_true, if_false, obitstream.data,
        new_reader _ hpos, hvs]
    · show counts.sum / 8 + 1 ≤ (run_ops (obitstream.new []) ops).m_buffer.length
      rw [hlen]; omega
  | true =>
    have hs := sync_eq _ _ hw
    have hw2 := written_write_bits
      (false :: List.replicate (7 - (ops_bits ops).length % 8) true) _ _ hw
    have hlen := hw2.1
    have hoff := hw2.2.1
    have hpos := written_buffer_pos _ _ hw2
    simp only [List.length_append, List.length_cons, List.length_replicate] at hlen hoff
    obtain ⟨vs, hvs⟩ := read_many_in_bounds
      (write_bits (run_ops (obitstream.new []) ops)
        (false :: List.replicate (7 - (ops_bits ops).length % 8) true)).m_buffer counts 0
      (by rw [Nat.zero_add, hlen]; omega)
    rw [Nat.zero_add] at hvs
    refine ⟨vs, reader_at (write_bits (run_ops (obitstream.new []) ops)
        (false :: List.replicate (7 - (ops_bits ops).length % 8) true)).m_buffer counts.sum,
      ?_, rfl, ?_, fun hc => by simp at hc, fun _ => ?_⟩
    · simp only [read_after_writes, if_true, hs, obitstream.data, new_reader _ hpos, hvs]
    · show counts.sum / 8 + 1 ≤ (write_bits (run_ops (obitstream.new []) ops)
        (false :: List.replicate (7 - (ops_bits ops).length % 8) true)).m_buffer.length
      rw [hlen]; omega
    · rw [hs]
      congr 1
      have hoff7 : (write_bits (run_ops (obitstream.new []) ops)
          (false :: List.replicate (7 - (ops_bits ops).length % 8) true)).m_bitOffset = 7 := by
        rw [hoff]; omega
      generalize write_bits (run_ops (obitstream.new []) ops)
        (false :: List.replicate (7 - (ops_bits ops).length % 8) true) = S at hoff7 ⊢
      cases S with
      | mk buf off =>
        simp only at hoff7
        subst hoff7
        rfl

/-- Witness for C18: 11 bits written, then reads of 4, 0 and 7 bits, without and with
`sync`. -/
theorem reads_stay_in_buffer_witness :
    ([4, 0, 7] : List Nat).sum ≤ (ops_bits [WOp.word 5 3, WOp.bit true, WOp.word 77 7]).length ∧
      (∃ vs r, read_after_writes [WOp.word 5 3, WOp.bit true, WOp.word 77 7] false [4, 0, 7]
          = .ok (vs, r) ∧
        r.m_data = ([4, 0, 7] : List Nat).sum / 8 + 1 ∧ r.m_data ≤ r.mem.length ∧
        (false = false → r.mem
          = (run_ops (obitstream.new []) [WOp.word 5 3, WOp.bit true, WOp.word 77 7]).m_buffer) ∧
        (false = true → sync (run_ops (obitstream.new [])
          [WOp.word 5 3, WOp.bit true, WOp.word 77 7]) = .ok ⟨r.mem, 7⟩)) :=
  ⟨by decide,
    reads_stay_in_buffer [WOp.word 5 3, WOp.bit true, WOp.word 77 7] false [4, 0, 7]
      (by decide)⟩

/-! ## The claim on gaps -/

/-- Gaps within `2 ^ 30` make the vector increasing and the deltas smaller than `2 ^ 30`. -/
theorem gaps_within_chain :
    ∀ (rest : List Nat) (a : Nat), gaps_within (a :: rest) = true →
      List.Chain (fun x y => x < y) a rest ∧ ∀ d ∈ gaps a rest, d < 2 ^ 30 := by
  intro rest
  induction rest with
  | nil => intro a _; exact ⟨List.Chain.nil, by intro d hd; simp [gaps] at hd⟩
  | cons b rest ih =>
    intro a h
    simp only [gaps_within, Bool.and_eq_true, decide_eq_true_eq] at h
    obtain ⟨hc, hd⟩ := ih b h.2
    refine ⟨List.Chain.cons h.1.1 hc, ?_⟩
    intro d hdm
    simp only [gaps, List.mem_cons] at hdm
    rcases hdm with hdm | hdm
    · have := h.1.2; have := h.1.1; omega
    · exact hd d hdm

theorem gaps_within_range (n : Nat) :
    ∀ a : Nat, gaps_within (a :: List.range' (a + 1) n) = true := by
  induction n with
  | zero => intro a; rfl
  | succ n ih =>
    intro a
    rw [List.range'_succ]
    simp only [gaps_within, Bool.and_eq_true, decide_eq_true_eq]
    refine ⟨⟨by omega, ?_⟩, ih (a + 1)⟩
    have : a + 1 - a = 1 := by omega
    rw [this]
    exact Nat.one_le_two_pow

/-- C20 (as amended). Monotonic round trip depends on the gaps, not the magnitudes: for
every non-empty strictly increasing sequence of fewer than `2 ^ 32` `uint32_t` values whose
first element is below `2 ^ 30` and whose consecutive elements differ by at most `2 ^ 30`,
`read_array` applied to the stream written by `write_array` (and closed by `sync`) returns
the sequence, also when elements are `2 ^ 30` or more; `write_array` hands the gaps
`v[0], v[i] - v[i-1] - 1`, computed modulo `2 ^ 32`, to `write_delta_array`, and the loop of
`read_array` inverts them modulo `2 ^ 32`. -/
theorem array_gap_round_trip (v0 : Nat) (rest : List Nat)
    (hlen : (v0 :: rest).length < 2 ^ 32) (h32 : ∀ x ∈ v0 :: rest, x < 2 ^ 32)
    (h0 : v0 < 2 ^ 30) (hg : gaps_within (v0 :: rest) = true) :
    array_round_trip (v0 :: rest) = .ok (v0 :: rest) ∧
      (∀ s, write_array s (v0 :: rest) = write_delta_array s (v0 :: gaps v0 rest)) ∧
      read_array_loop (v0 :: gaps v0 rest) 4294967295 = v0 :: rest := by
  obtain ⟨hc, hd⟩ := gaps_within_chain rest v0 hg
  have hrest : ∀ x ∈ rest, x < 2 ^ 32 := fun x hx => h32 x (List.mem_cons_of_mem _ hx)
  have hv0 : v0 < 2 ^ 32 := h32 v0 (List.mem_cons_self _ _)
  refine ⟨?_, fun s => write_array_eq s v0 rest hv0 hc hrest, ?_⟩
  · apply array_round_trip_eq v0 rest hc h32 _ hlen
    intro d hdm
    rw [List.mem_cons] at hdm
    rcases hdm with hdm | hdm
    · rw [hdm]; exact h0
    · exact hd d hdm
  · have hval : (v0 + 4294967295 + 1) % 4294967296 = v0 := by
      norm_num at hv0; omega
    rw [read_array_loop]
    simp only [hval]
    rw [read_array_loop_eq rest v0 hc hrest]

/-- Witness for C20 (as amended): gaps of `2 ^ 30` up to the largest `uint32_t`. -/
theorem array_gap_round_trip_witness :
    ((5 :: [1073741829, 2147483653, 3221225477, 4294967295] : List Nat).length < 2 ^ 32) ∧
      (∀ x ∈ (5 :: [1073741829, 2147483653, 3221225477, 4294967295] : List Nat), x < 2 ^ 32) ∧
      5 < 2 ^ 30 ∧
      gaps_within (5 :: [1073741829, 2147483653, 3221225477, 4294967295]) = true ∧
      (array_round_trip (5 :: [1073741829, 2147483653, 3221225477, 4294967295])
          = .ok (5 :: [1073741829, 2147483653, 3221225477, 4294967295]) ∧
        (∀ s, write_array s (5 :: [1073741829, 2147483653, 3221225477, 4294967295])
          = write_delta_array s
              (5 :: gaps 5 [1073741829, 2147483653, 3221225477, 4294967295])) ∧
        read_array_loop (5 :: gaps 5 [1073741829, 2147483653, 3221225477, 4294967295])
            4294967295
          = 5 :: [1073741829, 2147483653, 3221225477, 4294967295]) :=
  ⟨by decide, by decide, by decide, by decide,
    array_gap_round_trip 5 [1073741829, 2147483653, 3221225477, 4294967295]
      (by decide) (by decide) (by decide) (by decide)⟩

/-- The vector `0, 1, .., n` is rejected when `n + 1` is a multiple of `2 ^ 32`. -/
theorem array_round_trip_all (n : Nat) (hn : n < 2 ^ 32) (hm : (n + 1) % 4294967296 = 0) :
    (∀ x ∈ 0 :: List.range' 1 n, x < 2 ^ 32) ∧
      gaps_within (0 :: List.range' 1 n) = true ∧
      array_round_trip (0 :: List.range' 1 n) = .error .assertion := by
  have hg := gaps_within_range n 0
  rw [Nat.zero_add] at hg
  have hb : ∀ x ∈ List.range' 1 n, x < 2 ^ 32 := by
    intro x hx
    rw [List.mem_range'_1] at hx
    norm_num at hn ⊢
    omega
  refine ⟨?_, hg, ?_⟩
  · intro x hx
    rw [List.mem_cons] at hx
    rcases hx with hx | hx
    · rw [hx]; positivity
    · exact hb x hx
  · obtain ⟨hc, _⟩ := gaps_within_chain _ 0 hg
    have hl : (0 :: gaps 0 (List.range' 1 n)).length % 4294967296 = 0 := by
      rw [List.length_cons, gaps_length, List.length_range']
      exact hm
    rw [array_round_trip, write_array_eq _ 0 _ (by positivity) hc hb,
      (write_delta_array_cases _ _).1 hl]

/-- Counterexample to C20 as stated: the vector `0, 1, .., 2 ^ 32 - 1` of all `uint32_t`
values is strictly increasing with first element 0 and gaps 1, but it has `2 ^ 32`
elements: the count converts to the `uint32_t` 0, `write_gamma` rejects it, and nothing is
read back. -/
theorem array_gap_count_wraps :
    (∀ x ∈ 0 :: List.range' 1 4294967295, x < 2 ^ 32) ∧
      gaps_within (0 :: List.range' 1 4294967295) = true ∧
      array_round_trip (0 :: List.range' 1 4294967295) = .error .assertion :=
  array_round_trip_all 4294967295 (by norm_num) (by norm_num)

end sq
